import Mathlib

/-!
Verification of the packing core of the cocos sprite-atlas web builder.

The development shallowly embeds the geometry/optimization core of the
repository: the MaxRectangles packer (`maxRectanglesPacker.js`), the Shelf
packer and its grid-search orchestrator (`atlasPacker.js` / `app.js`), the
image grouper (`imageGrouper.js`) and the algorithm selector's statistics
update (`smartAlgorithmSelector.js`).  JavaScript numbers are modelled as
rationals (`ℚ`); canvas/drawing operations carry no geometric information and
are omitted.  JavaScript's `Array.prototype.sort` with a numeric comparator is
stable, so it is modelled by a stable insertion sort by the corresponding
boolean `le` relation.
-/

namespace SpriteAtlas

/-- An input image item: a name plus pixel dimensions. The `img`/`file`
payload handles of the source are opaque to the core and omitted. -/
structure Img where
  name : String
  width : ℚ
  height : ℚ
deriving DecidableEq, Repr

/-- An axis-aligned rectangle, used for both free and used rectangles of the
MaxRectangles packer. -/
structure Rect where
  x : ℚ
  y : ℚ
  width : ℚ
  height : ℚ
deriving DecidableEq, Repr

/-- A placed frame, as produced by both packers. -/
structure Frame where
  name : String
  x : ℚ
  y : ℚ
  width : ℚ
  height : ℚ
  originalWidth : ℚ
  originalHeight : ℚ
  offsetX : ℚ
  offsetY : ℚ
  rotated : Bool
deriving DecidableEq, Repr

/-- A pack result: frames plus the bounding dimensions
(the source additionally carries the rendered canvas). -/
structure Layout where
  frames : List Frame
  width : ℚ
  height : ℚ
deriving DecidableEq, Repr

/-- Stable insertion of `x` into `l`: `x` goes after every prefix element `y`
with `le y x`. -/
def insertLe {α : Type} (le : α → α → Bool) (x : α) : List α → List α
  | [] => [x]
  | y :: ys => if le y x then y :: insertLe le x ys else x :: y :: ys

/-- Stable sort by a boolean `le`; models JavaScript's stable
`Array.prototype.sort` with the comparator `cmp a b ≤ 0 ↔ le a b`. -/
def sortStable {α : Type} (le : α → α → Bool) (l : List α) : List α :=
  l.foldl (fun acc x => insertLe le x acc) []

/-- Total area of a list of images (`images.reduce((sum, img) => sum + img.width * img.height, 0)`). -/
def totalImgArea (images : List Img) : ℚ :=
  images.foldl (fun sum img => sum + img.width * img.height) 0

/-! ### MaxRectangles packer (`src/js/maxRectanglesPacker.js`) -/

/-- Loop body of `findPositionForNewNodeBestShortSideFit`: the accumulator is
the current best node together with `some (bestShortSideFit, bestLongSideFit)`
(`none` plays the role of the initial `Infinity` scores). -/
def bssfStep (width height : ℚ) (acc : Rect × Option (ℚ × ℚ)) (rect : Rect) :
    Rect × Option (ℚ × ℚ) :=
  if rect.width ≥ width ∧ rect.height ≥ height then
    let leftoverHoriz := |rect.width - width|
    let leftoverVert := |rect.height - height|
    let shortSideFit := min leftoverHoriz leftoverVert
    let longSideFit := max leftoverHoriz leftoverVert
    match acc.2 with
    | none => (⟨rect.x, rect.y, width, height⟩, some (shortSideFit, longSideFit))
    | some (bestShort, bestLong) =>
      if shortSideFit < bestShort ∨ (shortSideFit = bestShort ∧ longSideFit < bestLong) then
        (⟨rect.x, rect.y, width, height⟩, some (shortSideFit, longSideFit))
      else acc
  else acc

/-- `findPositionForNewNodeBestShortSideFit(freeRectangles, width, height)`. -/
def findPositionForNewNodeBestShortSideFit (freeRectangles : List Rect) (width height : ℚ) :
    Rect :=
  (freeRectangles.foldl (bssfStep width height) (⟨0, 0, 0, 0⟩, none)).1

/-- The overlap test of `splitFreeRectangle` (negation of its early-return
condition). -/
def rectsOverlap (freeRect usedRectangle : Rect) : Prop :=
  ¬(usedRectangle.x ≥ freeRect.x + freeRect.width ∨
    usedRectangle.x + usedRectangle.width ≤ freeRect.x ∨
    usedRectangle.y ≥ freeRect.y + freeRect.height ∨
    usedRectangle.y + usedRectangle.height ≤ freeRect.y)

instance (freeRect usedRectangle : Rect) : Decidable (rectsOverlap freeRect usedRectangle) := by
  unfold rectsOverlap; exact inferInstance

/-- The up-to-four residual rectangles pushed by `splitFreeRectangle` for an
overlapping free rectangle, in push order (top, bottom, left, right). -/
def splitParts (freeRect usedRectangle : Rect) : List Rect :=
  (if usedRectangle.x < freeRect.x + freeRect.width ∧
      usedRectangle.x + usedRectangle.width > freeRect.x then
    (if usedRectangle.y > freeRect.y ∧ usedRectangle.y < freeRect.y + freeRect.height then
      [⟨freeRect.x, freeRect.y, freeRect.width, usedRectangle.y - freeRect.y⟩]
    else []) ++
    (if usedRectangle.y + usedRectangle.height < freeRect.y + freeRect.height then
      [⟨freeRect.x, usedRectangle.y + usedRectangle.height, freeRect.width,
        freeRect.y + freeRect.height - (usedRectangle.y + usedRectangle.height)⟩]
    else [])
  else []) ++
  (if usedRectangle.y < freeRect.y + freeRect.height ∧
      usedRectangle.y + usedRectangle.height > freeRect.y then
    (if usedRectangle.x > freeRect.x ∧ usedRectangle.x < freeRect.x + freeRect.width then
      [⟨freeRect.x, freeRect.y, usedRectangle.x - freeRect.x, freeRect.height⟩]
    else []) ++
    (if usedRectangle.x + usedRectangle.width < freeRect.x + freeRect.width then
      [⟨usedRectangle.x + usedRectangle.width, freeRect.y,
        freeRect.x + freeRect.width - (usedRectangle.x + usedRectangle.width), freeRect.height⟩]
    else [])
  else [])

/-- `isContainedIn(a, b)`. -/
def isContainedIn (a b : Rect) : Prop :=
  a.x ≥ b.x ∧ a.y ≥ b.y ∧ a.x + a.width ≤ b.x + b.width ∧ a.y + a.height ≤ b.y + b.height

instance (a b : Rect) : Decidable (isContainedIn a b) := by
  unfold isContainedIn; exact inferInstance

/-- Inner `j`-loop of `pruneFreeRectangles` for the element `x` at the current
outer index: scans the tail, removing tail rectangles contained in `x`, and
stops (dropping `x`, first component `false`) as soon as a tail rectangle
containing `x` is found. -/
def pruneScan (x : Rect) : List Rect → Bool × List Rect
  | [] => (true, [])
  | y :: ys =>
    if isContainedIn x y then (false, y :: ys)
    else if isContainedIn y x then pruneScan x ys
    else
      let r := pruneScan x ys
      (r.1, y :: r.2)

theorem pruneScan_length_le (x : Rect) (l : List Rect) : (pruneScan x l).2.length ≤ l.length := by
  induction l with
  | nil => simp [pruneScan]
  | cons y ys ih =>
    simp only [pruneScan]
    split
    · simp
    · split
      · exact Nat.le_succ_of_le ih
      · simpa using ih

/-- `pruneFreeRectangles`: remove every free rectangle contained in another
(the outer `i`-loop of the source). -/
def pruneFreeRectangles : List Rect → List Rect
  | [] => []
  | x :: xs =>
    let r := pruneScan x xs
    have : r.2.length ≤ xs.length := pruneScan_length_le x xs
    if r.1 then x :: pruneFreeRectangles r.2 else pruneFreeRectangles r.2
termination_by l => l.length
decreasing_by
  · simpa using Nat.lt_succ_of_le this
  · simpa using Nat.lt_succ_of_le this

/-- `splitFreeRectangles(freeRectangles, usedRectangle)`: the source iterates
the list downwards, splicing out each free rectangle overlapping the used
rectangle while pushing its residual parts at the end (pushed parts land above
the scan index and are never revisited), then prunes.  The resulting list is
exactly: the non-overlapping rectangles in order, followed by the parts of the
overlapping rectangles in reverse order of their original positions. -/
def splitFreeRectangles (freeRectangles : List Rect) (usedRectangle : Rect) : List Rect :=
  pruneFreeRectangles
    ((freeRectangles.filter (fun r => decide (¬ rectsOverlap r usedRectangle))) ++
     ((freeRectangles.reverse.filter (fun r => decide (rectsOverlap r usedRectangle))).flatMap
        (fun r => splitParts r usedRectangle)))

/-- The per-item placement loop of `maxRectanglesPack`: place each image into
the best-short-side-fit free rectangle, trying the rotated orientation only
when the unrotated search found nothing, and fail (`none`) when neither
orientation fits.  The used rectangle passed to the split is the padded
placement, exactly as in the source. -/
def maxRectanglesPlace (padding : ℚ) :
    List Img → List Rect → List Frame → Option (List Frame)
  | [], _, frames => some frames
  | item :: rest, freeRectangles, frames =>
    let bestNode := findPositionForNewNodeBestShortSideFit freeRectangles
      (item.width + padding) (item.height + padding)
    if bestNode.height = 0 then
      let bestNodeR := findPositionForNewNodeBestShortSideFit freeRectangles
        (item.height + padding) (item.width + padding)
      if bestNodeR.height = 0 then none
      else
        maxRectanglesPlace padding rest
          (splitFreeRectangles freeRectangles
            ⟨bestNodeR.x, bestNodeR.y, item.height + padding, item.width + padding⟩)
          (frames ++ [⟨item.name, bestNodeR.x, bestNodeR.y, item.height, item.width,
            item.width, item.height, 0, 0, true⟩])
    else
      maxRectanglesPlace padding rest
        (splitFreeRectangles freeRectangles
          ⟨bestNode.x, bestNode.y, item.width + padding, item.height + padding⟩)
        (frames ++ [⟨item.name, bestNode.x, bestNode.y, item.width, item.height,
          item.width, item.height, 0, 0, false⟩])

/-- The final bounding box computation shared verbatim by both packers:
`maxRight`/`maxBottom` start at `padding` and take the max of
`frame.x + frame.width + padding` (resp. the vertical analogue). -/
def layoutBounds (padding : ℚ) (frames : List Frame) : ℚ × ℚ :=
  (frames.foldl (fun maxRight f => max maxRight (f.x + f.width + padding)) padding,
   frames.foldl (fun maxBottom f => max maxBottom (f.y + f.height + padding)) padding)

/-- `maxRectanglesPack(images, padding, maxWidth)`: one MaxRectangles run at a
fixed working width (free space initialized to `[0,maxWidth) × [0,4096)`). -/
def maxRectanglesPack (images : List Img) (padding maxWidth : ℚ) : Option Layout :=
  match maxRectanglesPlace padding images [⟨0, 0, maxWidth, 4096⟩] [] with
  | none => none
  | some frames =>
    let b := layoutBounds padding frames
    some ⟨frames, b.1, b.2⟩

/-! ### Strategy/width grid-search orchestrators
(`packImagesWithMaxRectangles` in `src/js/maxRectanglesPacker.js` and
`packImages` in the atlas-packer module) -/

/-- `nextPowerOf2(n) = 2 ** ceil(log2(max(1, n)))`: the least power of two
that is `≥ max 1 n`. -/
def nextPowerOf2 (n : ℚ) : ℚ :=
  (2 : ℚ) ^ Nat.clog 2 (max 1 ⌈n⌉).toNat

/-- `Math.ceil(Math.sqrt q)` for `q ≥ 0`: the least natural `m` with `m^2 ≥ q`. -/
def ceilSqrt (q : ℚ) : ℕ :=
  let n := (max 0 ⌈q⌉).toNat
  if Nat.sqrt n * Nat.sqrt n = n then Nat.sqrt n else Nat.sqrt n + 1

/-- The three sort strategies of `packImagesWithMaxRectangles`
(area, longest edge, perimeter, each descending), as stable-sort `le`
relations (`le a b ↔ cmp a b ≤ 0`). -/
def mrSortStrategies : List (Img → Img → Bool) :=
  [fun a b => decide (b.width * b.height ≤ a.width * a.height),
   fun a b => decide (max b.width b.height ≤ max a.width a.height),
   fun a b => decide (b.width + b.height ≤ a.width + a.height)]

/-- Power-of-two width options: `2^pow` for `pow = 11, …, 6`, filtered by the
effective maximum width (shared by both orchestrators). -/
def pow2WidthOptions (effectiveMaxWidth : ℚ) : List ℚ :=
  ([11, 10, 9, 8, 7, 6] : List ℕ).filterMap (fun pow =>
    let w : ℚ := 2 ^ pow
    if w ≤ effectiveMaxWidth then some w else none)

/-- The estimated width `ceil(sqrt(totalArea * 1.3))` used by both
orchestrators. -/
def estimatedWidthOf (images : List Img) : ℚ :=
  (ceilSqrt (totalImgArea images * (13 / 10)) : ℚ)

/-- Width options of `packImagesWithMaxRectangles` before the final descending
sort. -/
def mrWidthOptionsRaw (images : List Img) (effectiveMaxWidth : ℚ) (usePowerOfTwo : Bool) :
    List ℚ :=
  if usePowerOfTwo then pow2WidthOptions effectiveMaxWidth
  else
    let estimatedWidth := estimatedWidthOf images
    let alignedWidth : ℚ := ((⌈estimatedWidth / 16⌉ : ℤ) : ℚ) * 16
    let base : List ℚ :=
      if alignedWidth ≤ effectiveMaxWidth ∧ 256 ≤ alignedWidth then
        [alignedWidth - 48, alignedWidth - 16, alignedWidth + 16, alignedWidth + 48].foldl
          (fun acc adjWidth =>
            if 256 ≤ adjWidth ∧ adjWidth ≤ effectiveMaxWidth ∧ ¬ acc.contains adjWidth then
              acc ++ [adjWidth]
            else acc)
          [alignedWidth]
      else []
    if base.isEmpty then [effectiveMaxWidth] else base

/-- Width options of `packImagesWithMaxRectangles`, sorted descending. -/
def mrWidthOptions (images : List Img) (effectiveMaxWidth : ℚ) (usePowerOfTwo : Bool) :
    List ℚ :=
  sortStable (fun a b => decide (b ≤ a)) (mrWidthOptionsRaw images effectiveMaxWidth usePowerOfTwo)

/-- Evaluate one `(width, strategy)` grid point: sort a copy of the images with
the strategy, run the core packer, and apply the power-of-two post-processing;
`none` when the run is discarded (either a `NoFit` from the packer or a
power-of-two dimension above 2048). -/
def evalPair (corePack : List Img → ℚ → ℚ → Option Layout)
    (images : List Img) (padding : ℚ) (usePowerOfTwo : Bool)
    (width : ℚ) (strategy : Img → Img → Bool) : Option Layout :=
  match corePack (sortStable strategy images) padding width with
  | none => none
  | some result =>
    if usePowerOfTwo then
      let finalWidth := nextPowerOf2 result.width
      let finalHeight := nextPowerOf2 result.height
      if finalWidth > 2048 ∨ finalHeight > 2048 then none
      else some ⟨result.frames, finalWidth, finalHeight⟩
    else some result

/-- The best-result selection of both orchestrators: keep the candidate with
strictly higher efficiency, or equal efficiency and strictly smaller area
(`bestEfficiency` starts at `0` and `bestArea` at `Infinity`, so the first
candidate with nonnegative efficiency is always taken). -/
def bestStep (images : List Img) (acc : Option (Layout × ℚ × ℚ)) (cand : Option Layout) :
    Option (Layout × ℚ × ℚ) :=
  match cand with
  | none => acc
  | some layout =>
    let area := layout.width * layout.height
    let efficiency := totalImgArea images / area * 100
    match acc with
    | none => if efficiency > 0 ∨ efficiency = 0 then some (layout, efficiency, area) else none
    | some (best, bestEfficiency, bestArea) =>
      if efficiency > bestEfficiency ∨ (efficiency = bestEfficiency ∧ area < bestArea) then
        some (layout, efficiency, area)
      else some (best, bestEfficiency, bestArea)

/-- The full grid of candidate results, in the source's nesting order
(outer loop over widths, inner loop over sort strategies). -/
def gridCandidates (corePack : List Img → ℚ → ℚ → Option Layout)
    (images : List Img) (padding : ℚ) (usePowerOfTwo : Bool)
    (widths : List ℚ) (strategies : List (Img → Img → Bool)) : List (Option Layout) :=
  widths.flatMap (fun w =>
    strategies.map (fun strategy => evalPair corePack images padding usePowerOfTwo w strategy))

/-- Shared shape of both orchestrators: run the whole grid, fold the
best-result selection, return the best layout (or `none`). -/
def selectBest (corePack : List Img → ℚ → ℚ → Option Layout)
    (images : List Img) (padding : ℚ) (usePowerOfTwo : Bool)
    (widths : List ℚ) (strategies : List (Img → Img → Bool)) : Option Layout :=
  ((gridCandidates corePack images padding usePowerOfTwo widths strategies).foldl
    (bestStep images) none).map (fun r => r.1)

/-- `packImagesWithMaxRectangles(images, padding, maxWidth, usePowerOfTwo)`. -/
def packImagesWithMaxRectangles (images : List Img) (padding maxWidth : ℚ)
    (usePowerOfTwo : Bool) : Option Layout :=
  let effectiveMaxWidth := min maxWidth 2048
  selectBest maxRectanglesPack images padding usePowerOfTwo
    (mrWidthOptions images effectiveMaxWidth usePowerOfTwo) mrSortStrategies

/-! ### Shelf packer (`packImagesInternal` of the atlas-packer module) -/

/-- A shelf: `{ y, height, currentX, maxWidth }`. -/
structure Shelf where
  y : ℚ
  height : ℚ
  currentX : ℚ
  maxWidth : ℚ
deriving DecidableEq, Repr

/-- Mutable state of one sweep over the image list. -/
structure SweepState where
  frames : List Frame
  shelves : List Shelf
  newImages : List Img
  placedThisRound : Bool
deriving DecidableEq, Repr

/-- Unrotated eligibility for placing `item` on `shelf`:
`width ≤ remainingWidth && height ≤ shelf.height`. -/
def eligUnrot (padding maxWidth : ℚ) (shelf : Shelf) (item : Img) : Prop :=
  item.width ≤ maxWidth - shelf.currentX - padding ∧ item.height ≤ shelf.height

instance (padding maxWidth : ℚ) (shelf : Shelf) (item : Img) :
    Decidable (eligUnrot padding maxWidth shelf item) := by
  unfold eligUnrot; exact inferInstance

/-- Rotated eligibility: `height ≤ remainingWidth && width ≤ shelf.height`. -/
def eligRot (padding maxWidth : ℚ) (shelf : Shelf) (item : Img) : Prop :=
  item.height ≤ maxWidth - shelf.currentX - padding ∧ item.width ≤ shelf.height

instance (padding maxWidth : ℚ) (shelf : Shelf) (item : Img) :
    Decidable (eligRot padding maxWidth shelf item) := by
  unfold eligRot; exact inferInstance

/-- The composite placement score for `item` on `shelf` with placed height
`placeHeight` and placed width `placeWidth`:
`-waste*2 - widthFit*0.1 + shelfUtilization*10 + shelf.y*0.05`. -/
def shelfScore (padding maxWidth : ℚ) (shelf : Shelf) (placeWidth placeHeight : ℚ) : ℚ :=
  let remainingWidth := maxWidth - shelf.currentX - padding
  let waste := shelf.height - placeHeight
  let widthFit := remainingWidth - placeWidth
  let shelfUtilization := shelf.currentX * shelf.height / (maxWidth * shelf.height)
  let score := -waste * 2 - widthFit * (1 / 10) + shelfUtilization * 10 + shelf.y * (1 / 20)
  score

/-- The waste value tracked as `bestFit` for the tie-break. -/
def shelfWaste (shelf : Shelf) (placeHeight : ℚ) : ℚ := shelf.height - placeHeight

/-- The shared candidate update of the existing-shelf scan: take the candidate
exactly when `score > bestScore || (score == bestScore && waste < bestFit)`
(the `none` accumulator plays the role of `bestScore = -Infinity`). -/
def considerCandidate (idx : ℕ) (rotated : Bool) (score waste : ℚ)
    (acc : Option (ℕ × Bool × ℚ × ℚ)) : Option (ℕ × Bool × ℚ × ℚ) :=
  match acc with
  | none => some (idx, rotated, score, waste)
  | some (bi, br, bestScore, bestFit) =>
    if score > bestScore ∨ (score = bestScore ∧ waste < bestFit) then
      some (idx, rotated, score, waste)
    else some (bi, br, bestScore, bestFit)

/-- Loop body of the existing-shelf scan: for one `(index, shelf)` pair, try
the unrotated then the rotated orientation, each through the shared candidate
update. -/
def shelfScanStep (padding maxWidth : ℚ) (item : Img)
    (acc : Option (ℕ × Bool × ℚ × ℚ)) (idxShelf : ℕ × Shelf) : Option (ℕ × Bool × ℚ × ℚ) :=
  let idx := idxShelf.1
  let shelf := idxShelf.2
  let acc1 :=
    if eligUnrot padding maxWidth shelf item then
      considerCandidate idx false (shelfScore padding maxWidth shelf item.width item.height)
        (shelfWaste shelf item.height) acc
    else acc
  if eligRot padding maxWidth shelf item then
    considerCandidate idx true (shelfScore padding maxWidth shelf item.height item.width)
      (shelfWaste shelf item.width) acc1
  else acc1

/-- The existing-shelf scan of the Shelf packer: the globally best-scoring
eligible `(shelf, orientation)` pair, or `none` when no pair is eligible. -/
def findBestShelf (padding maxWidth : ℚ) (shelves : List Shelf) (item : Img) :
    Option (ℕ × Bool × ℚ × ℚ) :=
  shelves.enum.foldl (shelfScanStep padding maxWidth item) none

/-- Place `item` on the shelf at index `idx` (the `bestShelf` found by the
scan), advancing that shelf's `currentX`.  The scan only produces indices
below `shelves.length`, so the `none` branch of the lookup is unreachable. -/
def placeOnShelf (padding : ℚ) (st : SweepState) (item : Img) (idx : ℕ) (rotated : Bool) :
    SweepState :=
  match st.shelves.get? idx with
  | none => st
  | some shelf =>
    let placeWidth := if rotated then item.height else item.width
    let placeHeight := if rotated then item.width else item.height
    { st with
      frames := st.frames ++ [⟨item.name, shelf.currentX, shelf.y, placeWidth, placeHeight,
        item.width, item.height, 0, 0, rotated⟩],
      shelves := st.shelves.set idx { shelf with currentX := shelf.currentX + placeWidth + padding },
      placedThisRound := true }

/-- New-shelf orientation decision of the source: rotate only when the
unrotated width (plus padding) exceeds the working width while the rotated one
does not; when both orientations fit, rotate only if the rotated area is
strictly smaller (it never is, the two areas being equal).
Returns `(rotated, placeWidth, placeHeight)`. -/
def decideOrientation (padding maxWidth : ℚ) (item : Img) : Bool × ℚ × ℚ :=
  let widthOverLimit := decide (item.width + padding > maxWidth)
  let heightOverLimit := decide (item.height + padding > maxWidth)
  if widthOverLimit && !heightOverLimit then (true, item.height, item.width)
  else if !widthOverLimit && heightOverLimit then (false, item.width, item.height)
  else if !widthOverLimit && !heightOverLimit then
    if item.height * item.width < item.width * item.height then (true, item.height, item.width)
    else (false, item.width, item.height)
  else (false, item.width, item.height)

/-- `Math.round(h / 8) * 8` (JavaScript rounds half towards `+∞`, as does
Mathlib's `round`). -/
def roundTo8 (h : ℚ) : ℚ := ((round (h / 8) : ℤ) : ℚ) * 8

/-- The 8-px-bucket modal height: the smallest rounded height among those of
greatest multiplicity.  (JavaScript enumerates the integer-like keys of
`heightCounts` in ascending numeric order and its count-descending sort is
stable, so the first entry after sorting is the smallest key with the maximal
count.) -/
def mostCommonHeightCalc (allHeights : List ℚ) (fallback : ℚ) : ℚ :=
  let rs := allHeights.map roundTo8
  let keys := sortStable (fun a b => decide (a ≤ b)) rs.dedup
  match keys.foldl (fun acc k =>
      match acc with
      | none => some (k, rs.count k)
      | some (bk, bc) => if rs.count k > bc then some (k, rs.count k) else some (bk, bc)) none with
  | none => fallback
  | some (bk, _) => bk

/-- `sortedHeights[Math.floor(length / 2)]`. -/
def medianHeightCalc (allHeights : List ℚ) : ℚ :=
  let sortedHeights := sortStable (fun a b => decide (a ≤ b)) allHeights
  sortedHeights.getD (sortedHeights.length / 2) 0

/-- `Math.max(...l)` for a nonempty list. -/
def listMaxQ : List ℚ → ℚ
  | [] => 0
  | h :: t => t.foldl max h

/-- The smart shelf-height selection: evaluate the candidate heights
`{placeHeight, modal height, median height, max height}` filtered to
`[placeHeight, 2*placeHeight]`, scoring each by
`(count of queued images fitting) * 100 - height * 0.5` and keeping the first
strictly-best candidate. -/
def chooseOptimalHeight (newImages : List Img) (item : Img) (placeHeight : ℚ) : ℚ :=
  let remainingImages := newImages
  let allImages := remainingImages ++ [item]
  let allHeights := allImages.map (fun img => img.height)
  let mostCommonHeight := mostCommonHeightCalc allHeights placeHeight
  let medianHeight := medianHeightCalc allHeights
  let viableHeights := [placeHeight, mostCommonHeight, medianHeight, listMaxQ allHeights].filter
    (fun h => decide (placeHeight ≤ h ∧ h ≤ placeHeight * 2))
  match viableHeights.foldl (fun acc testHeight =>
      let canFitCount : ℕ :=
        (allImages.filter (fun img => decide (img.height ≤ testHeight))).length
      let score := (canFitCount : ℚ) * 100 - testHeight * (1 / 2)
      match acc with
      | none => some (score, testHeight)
      | some (bs, bh) => if score > bs then some (score, testHeight) else some (bs, bh)) none with
  | none => placeHeight
  | some (_, h) => h

/-- The merge-with-previous-shelf placement: raise the last shelf's height to
the maximum of both candidate heights, re-center (by `y`-equality matching)
the frames already on it, and place the item vertically centered at the
shelf's `currentX`.  In the source `lastShelf.height` is assigned the merged
height before `yOffset` is computed, so the transcription reads the updated
height there. -/
def mergePlace (padding : ℚ) (st : SweepState) (item : Img) (rotated : Bool)
    (lastShelf : Shelf) (heightDiff optimalHeight : ℚ) : SweepState :=
  let mergedHeight := max lastShelf.height optimalHeight
  let updatedShelf := { lastShelf with height := mergedHeight }
  let yOffset := (mergedHeight - (updatedShelf.height - heightDiff)) / 2
  let shiftedFrames := st.frames.map (fun f =>
    if f.y = lastShelf.y then { f with y := f.y + yOffset } else f)
  let placeH := if rotated then item.width else item.height
  let placeW := if rotated then item.height else item.width
  { st with
    frames := shiftedFrames ++ [⟨item.name, updatedShelf.currentX,
      updatedShelf.y + (mergedHeight - placeH) / 2, placeW, placeH,
      item.width, item.height, 0, 0, rotated⟩],
    shelves := st.shelves.dropLast ++
      [{ updatedShelf with currentX := updatedShelf.currentX + placeW + padding }],
    placedThisRound := true }

/-- Append a brand-new shelf at `newY` and place the item on it, vertically
centered within the chosen shelf height. -/
def createShelf (padding maxWidth : ℚ) (st : SweepState) (item : Img) (newY : ℚ)
    (rotated : Bool) (placeWidth placeHeight optimalHeight : ℚ) : SweepState :=
  { st with
    frames := st.frames ++ [⟨item.name, padding, newY + (optimalHeight - placeHeight) / 2,
      placeWidth, placeHeight, item.width, item.height, 0, 0, rotated⟩],
    shelves := st.shelves ++ [⟨newY, optimalHeight, padding + placeWidth + padding, maxWidth⟩],
    placedThisRound := true }

/-- The new-shelf path of the Shelf packer (reached when no existing shelf is
eligible): hard failures are `newY > 4096` and a placed width that exceeds the
working width; otherwise the item is placed through the merge attempt or a new
shelf. -/
def tryNewShelf (padding maxWidth : ℚ) (st : SweepState) (item : Img) : Option SweepState :=
  let newY := match st.shelves.getLast? with
    | none => padding
    | some lastShelf => lastShelf.y + lastShelf.height + padding
  if newY > 4096 then none
  else
    let d := decideOrientation padding maxWidth item
    let rotated := d.1
    let placeWidth := d.2.1
    let placeHeight := d.2.2
    if placeWidth + padding > maxWidth then none
    else
      let optimalHeight := chooseOptimalHeight st.newImages item placeHeight
      match st.shelves.getLast? with
      | some lastShelf =>
        let heightDiff := |lastShelf.height - optimalHeight|
        let mergeThreshold := min (optimalHeight * (1 / 4)) 48
        if heightDiff ≤ mergeThreshold ∧
            lastShelf.currentX + padding + placeWidth ≤ maxWidth then
          some (mergePlace padding st item rotated lastShelf heightDiff optimalHeight)
        else
          some (createShelf padding maxWidth st item newY rotated placeWidth placeHeight
            optimalHeight)
      | none =>
        some (createShelf padding maxWidth st item newY rotated placeWidth placeHeight
          optimalHeight)

/-- Processing of a single image inside one sweep.  Every non-failing path
places the item, so the source's final deferral branch
(`if (!placed) newImages.push(item)`) is unreachable and `newImages` never
grows. -/
def processItem (padding maxWidth : ℚ) (st : SweepState) (item : Img) : Option SweepState :=
  if item.width > maxWidth ∧ item.height > maxWidth then none
  else
    match findBestShelf padding maxWidth st.shelves item with
    | some (idx, rotated, _, _) => some (placeOnShelf padding st item idx rotated)
    | none => tryNewShelf padding maxWidth st item

/-- One sweep over the image list. -/
def sweepImages (padding maxWidth : ℚ) (images : List Img) (st : SweepState) :
    Option SweepState :=
  images.foldl (fun acc item => acc.bind (fun s => processItem padding maxWidth s item)) (some st)

/-- The retry re-sorts: pass 2 by smallest edge ascending, pass 3 by perimeter
ascending, later passes by area ascending. -/
def resortImages (attempt : ℕ) (images : List Img) : List Img :=
  if attempt = 1 then
    sortStable (fun a b => decide (min a.width a.height ≤ min b.width b.height)) images
  else if attempt = 2 then
    sortStable (fun a b => decide (a.width + a.height ≤ b.width + b.height)) images
  else
    sortStable (fun a b => decide (a.width * a.height ≤ b.width * b.height)) images

/-- `maxAttempts` of the source. -/
def maxAttempts : ℕ := 3

/-- The retry loop (`while (images.length > 0 && attempt < maxAttempts)`),
with the unplaced images re-sorted between rounds and an early exit when a
round places nothing. -/
def shelfRounds (padding maxWidth : ℚ) (attempt : ℕ) (images : List Img)
    (frames : List Frame) (shelves : List Shelf) : Option (List Frame × List Shelf) :=
  if h : images.isEmpty = true ∨ maxAttempts ≤ attempt then some (frames, shelves)
  else
    match sweepImages padding maxWidth images ⟨frames, shelves, [], false⟩ with
    | none => none
    | some st =>
      if st.placedThisRound = false then some (st.frames, st.shelves)
      else
        let images1 := if ¬ st.newImages.isEmpty ∧ attempt + 1 < maxAttempts then
            resortImages (attempt + 1) st.newImages
          else st.newImages
        shelfRounds padding maxWidth (attempt + 1) images1 st.frames st.shelves
termination_by maxAttempts - attempt
decreasing_by
  rw [not_or] at h
  omega

/-- `packImagesInternal(sortedImages, padding, maxWidth)`: one Shelf run at a
fixed working width. -/
def packImagesInternal (sortedImages : List Img) (padding maxWidth : ℚ) : Option Layout :=
  match shelfRounds padding maxWidth 0 sortedImages [] [] with
  | none => none
  | some (frames, _) =>
    let b := layoutBounds padding frames
    some ⟨frames, b.1, b.2⟩

/-- The fourteen sort strategies of `packImages`, in source order. -/
def shelfSortStrategies : List (Img → Img → Bool) :=
  [fun a b => decide (b.width * b.height ≤ a.width * a.height),
   fun a b => decide (a.width * a.height ≤ b.width * b.height),
   fun a b => decide (b.width ≤ a.width),
   fun a b => decide (a.width ≤ b.width),
   fun a b => decide (b.height ≤ a.height),
   fun a b => decide (a.height ≤ b.height),
   fun a b => decide (max b.width b.height ≤ max a.width a.height),
   fun a b => decide (max a.width a.height ≤ max b.width b.height),
   fun a b => decide (min b.width b.height ≤ min a.width a.height),
   fun a b => decide (min a.width a.height ≤ min b.width b.height),
   fun a b => decide (b.width / b.height ≤ a.width / a.height),
   fun a b => decide (a.width / a.height ≤ b.width / b.height),
   fun a b => decide (b.width + b.height ≤ a.width + a.height),
   fun a b => decide (a.width + a.height ≤ b.width + b.height)]

/-- `(a & (a - 1)) === 0` on the integer-valued widths handled here. -/
def isPow2JS (a : ℚ) : Bool := decide (Int.land ⌊a⌋ (⌊a⌋ - 1) = 0)

/-- The width-option comparator of `packImages` as a stable-sort `le`:
powers of two first (among them descending), the rest by distance to the
estimated width. -/
def shelfWidthLe (estimatedWidth : ℚ) (a b : ℚ) : Bool :=
  if isPow2JS a && isPow2JS b then decide (b ≤ a)
  else if !isPow2JS a && !isPow2JS b then
    decide (|a - estimatedWidth| ≤ |b - estimatedWidth|)
  else isPow2JS a

/-- Width options of `packImages`: the power-of-two ladder (in power-of-two
mode), plus the 16-aligned estimated width and its ±16/±48 neighbours, with a
fallback width, sorted by `shelfWidthLe`. -/
def shelfWidthOptions (images : List Img) (effectiveMaxWidth : ℚ) (usePowerOfTwo : Bool) :
    List ℚ :=
  let base := if usePowerOfTwo then pow2WidthOptions effectiveMaxWidth else []
  let estimatedWidth := estimatedWidthOf images
  let withEst :=
    if estimatedWidth ≤ effectiveMaxWidth ∧ 256 ≤ estimatedWidth then
      let alignedWidth : ℚ := ((⌈estimatedWidth / 16⌉ : ℤ) : ℚ) * 16
      let base1 := if ¬ base.contains alignedWidth then base ++ [alignedWidth] else base
      [alignedWidth - 48, alignedWidth - 16, alignedWidth + 16, alignedWidth + 48].foldl
        (fun acc adjWidth =>
          if 256 ≤ adjWidth ∧ adjWidth ≤ effectiveMaxWidth ∧ ¬ acc.contains adjWidth then
            acc ++ [adjWidth]
          else acc)
        base1
    else base
  let ensured := if withEst.isEmpty then [if usePowerOfTwo then (1024 : ℚ) else effectiveMaxWidth]
    else withEst
  sortStable (shelfWidthLe estimatedWidth) ensured

/-- `packImages(images, padding, maxWidth, usePowerOfTwo)`: the Shelf
orchestrator. -/
def packImages (images : List Img) (padding maxWidth : ℚ) (usePowerOfTwo : Bool) :
    Option Layout :=
  let effectiveMaxWidth := min maxWidth 2048
  selectBest packImagesInternal images padding usePowerOfTwo
    (shelfWidthOptions images effectiveMaxWidth usePowerOfTwo) shelfSortStrategies

/-! ### Image grouper (`src/js/imageGrouper.js`) -/

/-- A group of images with its label and packing-strategy hint. -/
structure Group where
  name : String
  items : List Img
  strategy : String
deriving DecidableEq, Repr

/-- `getSizeCategory(area)`: the size-threshold scan with the default tiers. -/
def getSizeCategory (area : ℚ) : String :=
  if area < 25600 then "small"
  else if area < 102400 then "medium"
  else if area < 409600 then "large"
  else "xlarge"

/-- `getAspectRatioCategory(width, height)`. -/
def getAspectRatioCategory (width height : ℚ) : String :=
  let ratio := min width height / max width height
  if ratio < 1 / 2 then "tall"
  else if ratio < 3 / 2 then "normal"
  else "wide"

/-- `getStrategyForSize(sizeName)`. -/
def getStrategyForSize (sizeName : String) : String :=
  if sizeName = "small" then "maxEdge"
  else if sizeName = "medium" then "perimeter"
  else if sizeName = "large" then "area"
  else if sizeName = "xlarge" then "maxEdge"
  else "area"

/-- Append an image to the bucket with the given key, creating the bucket at
the end when absent (JavaScript objects enumerate their non-numeric string
keys in insertion order). -/
def addToBucket (buckets : List (String × List Img)) (key : String) (img : Img) :
    List (String × List Img) :=
  match buckets with
  | [] => [(key, [img])]
  | (k, items) :: rest =>
    if k = key then (k, items ++ [img]) :: rest
    else (k, items) :: addToBucket rest key img

/-- `groupBySize(images)`. -/
def groupBySize (images : List Img) : List Group :=
  let buckets := images.foldl
    (fun bs img => addToBucket bs (getSizeCategory (img.width * img.height)) img) []
  buckets.map (fun b => ⟨b.1, b.2, getStrategyForSize b.1⟩)

/-- `refineGroupsByAspectRatio(sizeGroups)`. -/
def refineGroupsByAspectRatio (sizeGroups : List Group) : List Group :=
  sizeGroups.flatMap (fun group =>
    let aspectBuckets := group.items.foldl
      (fun bs img =>
        addToBucket bs (group.name ++ "_" ++ getAspectRatioCategory img.width img.height) img) []
    aspectBuckets.map (fun b => ⟨b.1, b.2, group.strategy⟩))

/-- `mergeStrategies(strategy1, strategy2)`. -/
def mergeStrategies (strategy1 strategy2 : String) : String :=
  if strategy1 = strategy2 then strategy1 else "area"

/-- The `while (smallGroups.length > 1)` pairing loop of `mergeSmallGroups`:
merge the small buckets pairwise in creation order; at most one remains. -/
def pairSmalls : List Group → List Group × List Group
  | g1 :: g2 :: rest =>
    let r := pairSmalls rest
    (⟨g1.name ++ "+" ++ g2.name, g1.items ++ g2.items,
      mergeStrategies g1.strategy g2.strategy⟩ :: r.1, r.2)
  | rest => ([], rest)

/-- `mergeSmallGroups(groups)`: buckets with fewer than 5 items are merged
pairwise; a final leftover small bucket is appended into the first resulting
group, or kept standalone when there is none. -/
def mergeSmallGroups (groups : List Group) : List Group :=
  let bigGroups := groups.filter (fun g => decide (¬ g.items.length < 5))
  let smallGroups := groups.filter (fun g => decide (g.items.length < 5))
  let paired := pairSmalls smallGroups
  let mergedGroups := bigGroups ++ paired.1
  match paired.2 with
  | [] => mergedGroups
  | leftover :: _ =>
    match mergedGroups with
    | [] => [leftover]
    | m0 :: rest => { m0 with items := m0.items ++ leftover.items } :: rest

/-- `MAX_IMAGES_PER_GROUP` of `GROUPING_CONFIG`. -/
def MAX_IMAGES_PER_GROUP : ℕ := 50

/-- `MAX_AREA_PER_GROUP` of `GROUPING_CONFIG`. -/
def MAX_AREA_PER_GROUP : ℚ := 2048 * 1024

/-- The inner loop of `splitByArea`: close the current sub-group as soon as
adding the next item would exceed the area cap. -/
def splitByAreaGo (maxArea : ℚ) : List Img → List Img → ℚ → List Group
  | [], currentGroup, _ =>
    if currentGroup.isEmpty then [] else [⟨"split_group", currentGroup, "area"⟩]
  | item :: rest, currentGroup, currentArea =>
    let itemArea := item.width * item.height
    if currentArea + itemArea > maxArea ∧ ¬ currentGroup.isEmpty then
      ⟨"split_group", currentGroup, "area"⟩ :: splitByAreaGo maxArea rest [item] itemArea
    else splitByAreaGo maxArea rest (currentGroup ++ [item]) (currentArea + itemArea)

/-- `splitByArea(items, maxArea)`. -/
def splitByArea (items : List Img) (maxArea : ℚ) : List Group :=
  splitByAreaGo maxArea items [] 0

/-- The `while (remainingItems.length > 0)` loop of `limitGroupSize` for one
group: slice off batches of `MAX_IMAGES_PER_GROUP` items and split any batch
whose total area exceeds the cap. -/
def limitChunks (name strategy : String) : List Img → List Group
  | [] => []
  | item :: rest0 =>
    let remainingItems := item :: rest0
    let batchItems := remainingItems.take MAX_IMAGES_PER_GROUP
    let rest := remainingItems.drop MAX_IMAGES_PER_GROUP
    let currentArea := totalImgArea batchItems
    (if currentArea > MAX_AREA_PER_GROUP then splitByArea batchItems MAX_AREA_PER_GROUP
     else [⟨name, batchItems, strategy⟩]) ++ limitChunks name strategy rest
termination_by l => l.length
decreasing_by
  simp only [MAX_IMAGES_PER_GROUP, List.length_drop, List.length_cons]
  omega

/-- `limitGroupSize(groups)`. -/
def limitGroupSize (groups : List Group) : List Group :=
  groups.flatMap (fun g => limitChunks g.name g.strategy g.items)

/-- `groupImages(images)`: tiering, aspect sub-tiering, small-bucket merging
and cap enforcement; the empty input yields the empty group list. -/
def groupImages (images : List Img) : List Group :=
  if images.length = 0 then []
  else limitGroupSize (mergeSmallGroups (refineGroupsByAspectRatio (groupBySize images)))

/-! ### Algorithm selector state update (`src/js/smartAlgorithmSelector.js`) -/

/-- Per-algorithm statistics. -/
structure AlgStats where
  usage : ℕ
  successRate : ℚ
  efficiencies : List ℚ
  avgEfficiency : ℚ
deriving DecidableEq, Repr

/-- One history entry (`Date.now()` is passed in as `timestamp`). -/
structure HistoryRecord where
  algorithm : String
  success : Bool
  efficiency : ℚ
  timestamp : ℤ
deriving DecidableEq, Repr

/-- The selector's mutable state: the two per-algorithm statistics plus the
shared history ring buffer. -/
structure SelectorState where
  maxRectangles : AlgStats
  shelf : AlgStats
  history : List HistoryRecord
deriving DecidableEq, Repr

/-- The constructor state of `SmartAlgorithmSelector`. -/
def initialSelectorState : SelectorState := ⟨⟨0, 0, [], 0⟩, ⟨0, 0, [], 0⟩, []⟩

/-- `maxHistorySize` of the source. -/
def maxHistorySize : ℕ := 50

/-- `l.reduce((a, b) => a + b, 0)`. -/
def listSumQ (l : List ℚ) : ℚ := l.foldl (fun a b => a + b) 0

/-- The per-algorithm part of `recordResult`: increment usage, push the
efficiency (on success with positive efficiency) into the capped-50 buffer
recomputing its mean, and update the running success rate. -/
def updateStats (stat : AlgStats) (success : Bool) (efficiency : ℚ) : AlgStats :=
  let stat1 := { stat with usage := stat.usage + 1 }
  let stat2 :=
    if success = true ∧ efficiency > 0 then
      let pushed := stat1.efficiencies ++ [efficiency]
      let capped := if pushed.length > 50 then pushed.tail else pushed
      let avg := listSumQ capped / (capped.length : ℚ)
      { stat1 with efficiencies := capped, avgEfficiency := avg }
    else stat1
  let totalUsage := stat2.usage
  { stat2 with successRate :=
      if success then (stat2.successRate * ((totalUsage : ℚ) - 1) + 1) / (totalUsage : ℚ)
      else stat2.successRate * ((totalUsage : ℚ) - 1) / (totalUsage : ℚ) }

/-- `recordHistory(algorithm, success, efficiency)`. -/
def recordHistory (st : SelectorState) (algorithm : String) (success : Bool)
    (efficiency : ℚ) (timestamp : ℤ) : SelectorState :=
  let pushed := st.history ++ [⟨algorithm, success, efficiency, timestamp⟩]
  { st with history := if pushed.length > maxHistorySize then pushed.tail else pushed }

/-- `recordResult(algorithm, success, efficiency)`: a no-op for algorithms
outside the statistics table. -/
def recordResult (st : SelectorState) (algorithm : String) (success : Bool)
    (efficiency : ℚ) (timestamp : ℤ) : SelectorState :=
  if algorithm = "maxRectangles" then
    recordHistory { st with maxRectangles := updateStats st.maxRectangles success efficiency }
      algorithm success efficiency timestamp
  else if algorithm = "shelf" then
    recordHistory { st with shelf := updateStats st.shelf success efficiency }
      algorithm success efficiency timestamp
  else st

/-- The `n` most recent entries of a list. -/
def lastN {α : Type} (n : ℕ) (l : List α) : List α := l.drop (l.length - n)

/-! ### Specification predicates -/

/-- The padded bounding box `[x, x+placedWidth+padding) × [y, y+placedHeight+padding)`
of a placed frame. -/
def paddedBox (padding : ℚ) (f : Frame) : Rect :=
  ⟨f.x, f.y, f.width + padding, f.height + padding⟩

/-- Two padded bounding boxes intersect: both coordinate intervals overlap
strictly. -/
def overlapPadded (padding : ℚ) (f g : Frame) : Prop :=
  f.x < g.x + g.width + padding ∧ g.x < f.x + f.width + padding ∧
  f.y < g.y + g.height + padding ∧ g.y < f.y + f.height + padding

/-- Two rectangles are separated along some axis (their half-open extents do
not intersect). -/
def disjointR (a b : Rect) : Prop :=
  a.x + a.width ≤ b.x ∨ b.x + b.width ≤ a.x ∨ a.y + a.height ≤ b.y ∨ b.y + b.height ≤ a.y

/-- Rectangle `a` lies inside rectangle `b`. -/
def subRect (a b : Rect) : Prop :=
  b.x ≤ a.x ∧ b.y ≤ a.y ∧ a.x + a.width ≤ b.x + b.width ∧ a.y + a.height ≤ b.y + b.height

/-- The fit condition of the best-short-side-fit search:
`rect.width ≥ width && rect.height ≥ height`. -/
def fitsRect (r : Rect) (width height : ℚ) : Prop :=
  width ≤ r.width ∧ height ≤ r.height

/-- The `(shortSideFit, longSideFit)` pair of a fitting rectangle. -/
def bssfScore (r : Rect) (width height : ℚ) : ℚ × ℚ :=
  (min |r.width - width| |r.height - height|, max |r.width - width| |r.height - height|)

/-- Lexicographic order on `(shortSideFit, longSideFit)` pairs. -/
def lexLe (a b : ℚ × ℚ) : Prop := a.1 < b.1 ∨ (a.1 = b.1 ∧ a.2 ≤ b.2)

/-- The efficiency score used by both grid-search orchestrators:
`totalArea / (result.width * result.height) * 100`. -/
@[reducible] def effOf (images : List Img) (L : Layout) : ℚ :=
  totalImgArea images / (L.width * L.height) * 100

/-- The bounding area of a layout. -/
@[reducible] def areaOf (L : Layout) : ℚ := L.width * L.height

/-- Pairwise disjointness of the padded bounding boxes of a frame list. -/
def framesDisjoint (padding : ℚ) (frames : List Frame) : Prop :=
  frames.Pairwise (fun f g => disjointR (paddedBox padding f) (paddedBox padding g))

/-- A frame lies vertically within a shelf. -/
def onShelf (s : Shelf) (f : Frame) : Prop :=
  s.y ≤ f.y ∧ f.y + f.height ≤ s.y + s.height

/-- Horizontal separation of two padded frames. -/
def xDisjoint (padding : ℚ) (f g : Frame) : Prop :=
  f.x + f.width + padding ≤ g.x ∨ g.x + g.width + padding ≤ f.x

/-- The sweep invariant of the Shelf packer: shelves are chained from top to
bottom with exactly `padding` between consecutive shelves, every placed frame
lies vertically within its shelf and horizontally within `[0, currentX)`
(minus padding), and frames sharing a shelf are horizontally separated. -/
structure ShelfInv (padding : ℚ) (frames : List Frame) (shelves : List Shelf) : Prop where
  chain : shelves.Chain' (fun s t => t.y = s.y + s.height + padding)
  shelfPos : ∀ s ∈ shelves, 0 < s.height ∧ 0 ≤ s.currentX ∧ 0 ≤ s.y
  framePos : ∀ f ∈ frames, 0 < f.width ∧ 0 < f.height ∧ 0 ≤ f.x ∧ 0 ≤ f.y
  located : ∀ f ∈ frames, ∃ k, ∃ hk : k < shelves.length,
    onShelf (shelves.get ⟨k, hk⟩) f ∧
    f.x + f.width + padding ≤ (shelves.get ⟨k, hk⟩).currentX
  sameShelfX : ∀ k, ∀ hk : k < shelves.length,
    frames.Pairwise (fun f g => onShelf (shelves.get ⟨k, hk⟩) f →
      onShelf (shelves.get ⟨k, hk⟩) g → xDisjoint padding f g)

/-! ### Basic geometric lemmas -/

theorem subRect_refl (a : Rect) : subRect a a := by
  unfold subRect; exact ⟨le_refl _, le_refl _, le_refl _, le_refl _⟩

theorem disjointR_symm {a b : Rect} (h : disjointR a b) : disjointR b a := by
  unfold disjointR at h ⊢; tauto

theorem disjointR_of_subRect {a b c : Rect} (hab : subRect a b) (hbc : disjointR b c) :
    disjointR a c := by
  obtain ⟨h1, h2, h3, h4⟩ := hab
  rcases hbc with h | h | h | h
  · exact Or.inl (le_trans h3 h)
  · exact Or.inr (Or.inl (le_trans h h1))
  · exact Or.inr (Or.inr (Or.inl (le_trans h4 h)))
  · exact Or.inr (Or.inr (Or.inr (le_trans h h2)))

theorem not_overlapPadded_of_disjointR {padding : ℚ} {f g : Frame}
    (h : disjointR (paddedBox padding f) (paddedBox padding g)) :
    ¬ overlapPadded padding f g := by
  intro hov
  obtain ⟨o1, o2, o3, o4⟩ := hov
  simp only [disjointR, paddedBox] at h
  rcases h with h | h | h | h <;> linarith

theorem not_rectsOverlap_disjointR {a b : Rect} (h : ¬ rectsOverlap a b) : disjointR a b := by
  unfold rectsOverlap at h
  rw [not_not] at h
  unfold disjointR
  rcases h with h | h | h | h
  · exact Or.inl h
  · exact Or.inr (Or.inl h)
  · exact Or.inr (Or.inr (Or.inl h))
  · exact Or.inr (Or.inr (Or.inr h))

theorem lexLe_refl (a : ℚ × ℚ) : lexLe a a := Or.inr ⟨rfl, le_refl _⟩

theorem lexLe_trans {a b c : ℚ × ℚ} (h1 : lexLe a b) (h2 : lexLe b c) : lexLe a c := by
  unfold lexLe at *
  rcases h1 with h1 | ⟨h1e, h1l⟩ <;> rcases h2 with h2 | ⟨h2e, h2l⟩
  · exact Or.inl (lt_trans h1 h2)
  · exact Or.inl (h2e ▸ h1)
  · exact Or.inl (h1e ▸ h2)
  · exact Or.inr ⟨h1e.trans h2e, le_trans h1l h2l⟩

/-! ### Fold-maximum lemmas for the bounding-box computation -/

theorem foldl_max_init_le {α : Type} (g : α → ℚ) (l : List α) (init : ℚ) :
    init ≤ l.foldl (fun m x => max m (g x)) init := by
  induction l generalizing init with
  | nil => simp
  | cons x xs ih => exact le_trans (le_max_left _ _) (ih (max init (g x)))

theorem foldl_max_le_of_mem {α : Type} (g : α → ℚ) (l : List α) (init : ℚ) :
    ∀ f ∈ l, g f ≤ l.foldl (fun m x => max m (g x)) init := by
  induction l generalizing init with
  | nil => simp
  | cons x xs ih =>
    intro f hf
    rcases List.mem_cons.mp hf with rfl | hf
    · exact le_trans (le_max_right _ _) (foldl_max_init_le g xs _)
    · exact ih _ f hf

theorem layoutBounds_bound (padding : ℚ) (frames : List Frame) :
    (∀ f ∈ frames, f.x + f.width + padding ≤ (layoutBounds padding frames).1 ∧
      f.y + f.height + padding ≤ (layoutBounds padding frames).2) ∧
    padding ≤ (layoutBounds padding frames).1 ∧ padding ≤ (layoutBounds padding frames).2 := by
  unfold layoutBounds
  dsimp only
  refine ⟨fun f hf => ⟨?_, ?_⟩, ?_, ?_⟩
  · exact foldl_max_le_of_mem (fun f : Frame => f.x + f.width + padding) frames padding f hf
  · exact foldl_max_le_of_mem (fun f : Frame => f.y + f.height + padding) frames padding f hf
  · exact foldl_max_init_le (fun f : Frame => f.x + f.width + padding) frames padding
  · exact foldl_max_init_le (fun f : Frame => f.y + f.height + padding) frames padding

/-! ### Best-short-side-fit characterization -/

theorem bssfStep_cases (width height : ℚ) (acc : Rect × Option (ℚ × ℚ)) (r : Rect) :
    (¬ fitsRect r width height ∧ bssfStep width height acc r = acc) ∨
    (fitsRect r width height ∧
      bssfStep width height acc r =
        (⟨r.x, r.y, width, height⟩, some (bssfScore r width height)) ∧
      ∀ s0 ∈ acc.2, lexLe (bssfScore r width height) s0) ∨
    (fitsRect r width height ∧ bssfStep width height acc r = acc ∧
      ∃ s0 ∈ acc.2, lexLe s0 (bssfScore r width height)) := by
  by_cases hfit : r.width ≥ width ∧ r.height ≥ height
  · have hfit' : fitsRect r width height := ⟨hfit.1, hfit.2⟩
    rcases hacc : acc.2 with _ | ⟨bestShort, bestLong⟩
    · refine Or.inr (Or.inl ⟨hfit', ?_, ?_⟩)
      · unfold bssfStep
        rw [if_pos hfit, hacc]
        rfl
      · intro s0 hs0
        simp at hs0
    · by_cases hlt : min |r.width - width| |r.height - height| < bestShort ∨
        (min |r.width - width| |r.height - height| = bestShort ∧
          max |r.width - width| |r.height - height| < bestLong)
      · refine Or.inr (Or.inl ⟨hfit', ?_, ?_⟩)
        · unfold bssfStep
          rw [if_pos hfit, hacc]
          dsimp only
          rw [if_pos hlt]
          rfl
        · intro s0 hs0
          simp only [Option.mem_def, Option.some_inj] at hs0
          subst hs0
          simp only [lexLe, bssfScore]
          rcases hlt with h | ⟨he, hl⟩
          · exact Or.inl h
          · exact Or.inr ⟨he, le_of_lt hl⟩
      · refine Or.inr (Or.inr ⟨hfit', ?_, (bestShort, bestLong), ?_, ?_⟩)
        · unfold bssfStep
          rw [if_pos hfit, hacc]
          dsimp only
          rw [if_neg hlt]
        · rfl
        · simp only [lexLe, bssfScore]
          push_neg at hlt
          rcases lt_or_eq_of_le hlt.1 with h | h
          · exact Or.inl h
          · exact Or.inr ⟨h, hlt.2 h.symm⟩
  · refine Or.inl ⟨?_, ?_⟩
    · intro hc
      exact hfit ⟨hc.1, hc.2⟩
    · unfold bssfStep
      rw [if_neg hfit]

theorem bssfStep_isSome (width height : ℚ) (acc : Rect × Option (ℚ × ℚ)) (r : Rect)
    (h : acc.2.isSome) : ((bssfStep width height acc r).2).isSome := by
  rcases bssfStep_cases width height acc r with ⟨-, he⟩ | ⟨-, he, -⟩ | ⟨-, he, -⟩ <;>
    rw [he] <;> simp_all

theorem bssf_foldl_none (width height : ℚ) (l : List Rect) :
    ∀ acc, (l.foldl (bssfStep width height) acc).2 = none →
      l.foldl (bssfStep width height) acc = acc ∧ ∀ r ∈ l, ¬ fitsRect r width height := by
  induction l with
  | nil => intro acc _; exact ⟨rfl, by simp⟩
  | cons r rest ih =>
    intro acc hnone
    rw [List.foldl_cons] at hnone
    have hacc' := ih (bssfStep width height acc r) hnone
    have hstay : (bssfStep width height acc r).2 = none := by
      rw [hacc'.1] at hnone
      exact hnone
    rcases bssfStep_cases width height acc r with ⟨hnf, he⟩ | ⟨hf, he, -⟩ | ⟨hf, he, s0, hs0, -⟩
    · rw [he] at hacc'
      refine ⟨?_, ?_⟩
      · rw [List.foldl_cons, he]
        exact hacc'.1
      · intro r2 hr2
        rcases List.mem_cons.mp hr2 with rfl | hr2
        · exact hnf
        · exact hacc'.2 r2 hr2
    · rw [he] at hstay
      simp at hstay
    · rw [he] at hstay
      rw [Option.mem_def] at hs0
      rw [hstay] at hs0
      simp at hs0

theorem bssf_foldl_spec (width height : ℚ) (l : List Rect) :
    ∀ acc node s lng, l.foldl (bssfStep width height) acc = (node, some (s, lng)) →
      ((node, (some (s, lng) : Option (ℚ × ℚ))) = acc ∨
        ∃ r ∈ l, fitsRect r width height ∧ node = ⟨r.x, r.y, width, height⟩ ∧
          (s, lng) = bssfScore r width height) ∧
      (∀ r ∈ l, fitsRect r width height → lexLe (s, lng) (bssfScore r width height)) ∧
      (∀ s0, acc.2 = some s0 → lexLe (s, lng) s0) := by
  induction l with
  | nil =>
    intro acc node s lng hfold
    simp only [List.foldl_nil] at hfold
    refine ⟨Or.inl hfold.symm, by simp, ?_⟩
    intro s0 hs0
    rw [hfold] at hs0
    simp only at hs0
    rw [Option.some_inj] at hs0
    rw [← hs0]
    exact lexLe_refl _
  | cons r rest ih =>
    intro acc node s lng hfold
    rw [List.foldl_cons] at hfold
    rcases bssfStep_cases width height acc r with ⟨hnf, he⟩ | ⟨hf, he, hmin⟩ | ⟨hf, he, s0, hs0, hle⟩
    · rw [he] at hfold
      obtain ⟨horig, hminr, haccle⟩ := ih acc node s lng hfold
      refine ⟨?_, ?_, haccle⟩
      · rcases horig with horig | ⟨r2, hr2, hrest⟩
        · exact Or.inl horig
        · exact Or.inr ⟨r2, List.mem_cons_of_mem _ hr2, hrest⟩
      · intro r2 hr2
        rcases List.mem_cons.mp hr2 with rfl | hr2
        · exact fun hf2 => absurd hf2 hnf
        · exact hminr r2 hr2
    · rw [he] at hfold
      obtain ⟨horig, hminr, haccle⟩ := ih _ node s lng hfold
      have hler : lexLe (s, lng) (bssfScore r width height) := by
        apply haccle
        rfl
      refine ⟨?_, ?_, ?_⟩
      · rcases horig with horig | ⟨r2, hr2, hrest⟩
        · refine Or.inr ⟨r, List.mem_cons_self r rest, hf, ?_, ?_⟩
          · exact (Prod.mk.injEq _ _ _ _ ▸ horig).1
          · have := (Prod.mk.injEq _ _ _ _ ▸ horig).2
            exact Option.some_inj.mp this
        · exact Or.inr ⟨r2, List.mem_cons_of_mem _ hr2, hrest⟩
      · intro r2 hr2
        rcases List.mem_cons.mp hr2 with rfl | hr2
        · exact fun _ => hler
        · exact hminr r2 hr2
      · intro s1 hs1
        exact lexLe_trans hler (hmin s1 hs1)
    · rw [he] at hfold
      obtain ⟨horig, hminr, haccle⟩ := ih acc node s lng hfold
      have hles0 : lexLe (s, lng) s0 := haccle s0 hs0
      refine ⟨?_, ?_, haccle⟩
      · rcases horig with horig | ⟨r2, hr2, hrest⟩
        · exact Or.inl horig
        · exact Or.inr ⟨r2, List.mem_cons_of_mem _ hr2, hrest⟩
      · intro r2 hr2
        rcases List.mem_cons.mp hr2 with rfl | hr2
        · exact fun _ => lexLe_trans hles0 hle
        · exact hminr r2 hr2

theorem findPosition_spec (l : List Rect) (width height : ℚ) :
    (findPositionForNewNodeBestShortSideFit l width height = ⟨0, 0, 0, 0⟩ ∧
      ∀ r ∈ l, ¬ fitsRect r width height) ∨
    (∃ r ∈ l, fitsRect r width height ∧
      findPositionForNewNodeBestShortSideFit l width height = ⟨r.x, r.y, width, height⟩ ∧
      ∀ r2 ∈ l, fitsRect r2 width height →
        lexLe (bssfScore r width height) (bssfScore r2 width height)) := by
  unfold findPositionForNewNodeBestShortSideFit
  rcases hfold : l.foldl (bssfStep width height) (⟨0, 0, 0, 0⟩, none) with ⟨node, opt⟩
  rcases opt with _ | ⟨s, lng⟩
  · left
    obtain ⟨heq, hnf⟩ := bssf_foldl_none width height l (⟨0, 0, 0, 0⟩, none) (by rw [hfold])
    rw [hfold] at heq
    have : node = ⟨0, 0, 0, 0⟩ := congrArg Prod.fst heq
    exact ⟨this, hnf⟩
  · right
    obtain ⟨horig, hmin, -⟩ := bssf_foldl_spec width height l (⟨0, 0, 0, 0⟩, none) node s lng hfold
    rcases horig with horig | ⟨r, hr, hfit, hnode, hscore⟩
    · exact absurd (congrArg Prod.snd horig) (by simp)
    · refine ⟨r, hr, hfit, hnode, ?_⟩
      intro r2 hr2 hfit2
      rw [← hscore]
      exact hmin r2 hr2 hfit2

/-! ### Split and prune membership lemmas -/

theorem pruneScan_mem (x : Rect) (l : List Rect) :
    ∀ y ∈ (pruneScan x l).2, y ∈ l := by
  induction l with
  | nil => simp [pruneScan]
  | cons z zs ih =>
    intro y hy
    simp only [pruneScan] at hy
    split at hy
    · exact hy
    · split at hy
      · exact List.mem_cons_of_mem _ (ih y hy)
      · rcases List.mem_cons.mp hy with rfl | hy
        · exact List.mem_cons_self _ _
        · exact List.mem_cons_of_mem _ (ih y hy)

theorem pruneFreeRectangles_mem_aux :
    ∀ (n : ℕ) (l : List Rect), l.length ≤ n → ∀ r ∈ pruneFreeRectangles l, r ∈ l := by
  intro n
  induction n with
  | zero =>
    intro l hl
    match l with
    | [] => simp [pruneFreeRectangles]
    | x :: xs =>
      simp only [List.length_cons] at hl
      omega
  | succ n ih =>
    intro l hl
    match l with
    | [] => simp [pruneFreeRectangles]
    | x :: xs =>
      intro r hr
      rw [pruneFreeRectangles] at hr
      have hlen : (pruneScan x xs).2.length ≤ n := by
        have := pruneScan_length_le x xs
        simp only [List.length_cons] at hl
        omega
      split at hr
      · rcases List.mem_cons.mp hr with rfl | hr
        · exact List.mem_cons_self _ _
        · exact List.mem_cons_of_mem _
            (pruneScan_mem x xs r (ih _ hlen r hr))
      · exact List.mem_cons_of_mem _
          (pruneScan_mem x xs r (ih _ hlen r hr))

theorem pruneFreeRectangles_mem (l : List Rect) : ∀ r ∈ pruneFreeRectangles l, r ∈ l :=
  pruneFreeRectangles_mem_aux l.length l (le_refl _)

theorem splitParts_spec (freeRect usedRectangle : Rect)
    (hov : rectsOverlap freeRect usedRectangle) :
    ∀ q ∈ splitParts freeRect usedRectangle,
      subRect q freeRect ∧ disjointR q usedRectangle := by
  intro q hq
  unfold rectsOverlap at hov
  rw [not_or] at hov
  rw [not_or] at hov
  rw [not_or] at hov
  obtain ⟨h1, h2, h3, h4⟩ := hov
  push_neg at h1 h2 h3 h4
  unfold splitParts at hq
  rcases List.mem_append.mp hq with hq | hq
  · split at hq
    · rcases List.mem_append.mp hq with hq | hq
      · split at hq
        · rename_i hguard
          simp only [List.mem_singleton] at hq
          subst hq
          refine ⟨⟨le_refl _, le_refl _, le_refl _, ?_⟩, ?_⟩
          · simp only
            linarith [hguard.2]
          · refine Or.inr (Or.inr (Or.inl ?_))
            simp only
            linarith
        · simp at hq
      · split at hq
        · rename_i hguard
          simp only [List.mem_singleton] at hq
          subst hq
          refine ⟨⟨le_refl _, by simp only; linarith, le_refl _, by simp only; linarith⟩, ?_⟩
          · refine Or.inr (Or.inr (Or.inr ?_))
            simp only
            linarith
        · simp at hq
    · simp at hq
  · split at hq
    · rcases List.mem_append.mp hq with hq | hq
      · split at hq
        · rename_i hguard
          simp only [List.mem_singleton] at hq
          subst hq
          refine ⟨⟨le_refl _, le_refl _, by simp only; linarith [hguard.2], le_refl _⟩, ?_⟩
          · refine Or.inl ?_
            simp only
            linarith
        · simp at hq
      · split at hq
        · rename_i hguard
          simp only [List.mem_singleton] at hq
          subst hq
          refine ⟨⟨by simp only; linarith, le_refl _, by simp only; linarith, le_refl _⟩, ?_⟩
          · refine Or.inr (Or.inl ?_)
            simp only
            linarith
        · simp at hq
    · simp at hq

theorem splitParts_nonneg (freeRect usedRectangle : Rect)
    (hfr : 0 ≤ freeRect.x ∧ 0 ≤ freeRect.y)
    (hu : 0 ≤ usedRectangle.x ∧ 0 ≤ usedRectangle.y ∧ 0 ≤ usedRectangle.width ∧
      0 ≤ usedRectangle.height) :
    ∀ q ∈ splitParts freeRect usedRectangle, 0 ≤ q.x ∧ 0 ≤ q.y := by
  intro q hq
  obtain ⟨hfx, hfy⟩ := hfr
  obtain ⟨hux, huy, huw, huh⟩ := hu
  unfold splitParts at hq
  rcases List.mem_append.mp hq with hq | hq <;> split at hq
  · rcases List.mem_append.mp hq with hq | hq <;> split at hq <;> simp at hq <;> subst hq <;>
      exact ⟨by dsimp only; linarith, by dsimp only; linarith⟩
  · simp at hq
  · rcases List.mem_append.mp hq with hq | hq <;> split at hq <;> simp at hq <;> subst hq <;>
      exact ⟨by dsimp only; linarith, by dsimp only; linarith⟩
  · simp at hq

theorem splitFreeRectangles_mem (l : List Rect) (used : Rect) :
    ∀ q ∈ splitFreeRectangles l used,
      (q ∈ l ∧ ¬ rectsOverlap q used) ∨
      ∃ r ∈ l, rectsOverlap r used ∧ q ∈ splitParts r used := by
  intro q hq
  unfold splitFreeRectangles at hq
  have hq' := pruneFreeRectangles_mem _ q hq
  rcases List.mem_append.mp hq' with hk | hp
  · obtain ⟨hmem, hcond⟩ := List.mem_filter.mp hk
    left
    refine ⟨hmem, ?_⟩
    simpa using hcond
  · obtain ⟨r, hr, hqr⟩ := List.mem_flatMap.mp hp
    obtain ⟨hmem, hcond⟩ := List.mem_filter.mp hr
    right
    exact ⟨r, List.mem_reverse.mp hmem, by simpa using hcond, hqr⟩

theorem splitFreeRectangles_spec (l : List Rect) (used : Rect) :
    ∀ q ∈ splitFreeRectangles l used,
      (∃ r ∈ l, subRect q r) ∧ disjointR q used := by
  intro q hq
  rcases splitFreeRectangles_mem l used q hq with ⟨hmem, hno⟩ | ⟨r, hr, hov, hqr⟩
  · exact ⟨⟨q, hmem, subRect_refl q⟩, not_rectsOverlap_disjointR hno⟩
  · obtain ⟨hsub, hdisj⟩ := splitParts_spec r used hov q hqr
    exact ⟨⟨r, hr, hsub⟩, hdisj⟩

theorem splitFreeRectangles_nonneg (l : List Rect) (used : Rect)
    (hl : ∀ r ∈ l, 0 ≤ r.x ∧ 0 ≤ r.y)
    (hu : 0 ≤ used.x ∧ 0 ≤ used.y ∧ 0 ≤ used.width ∧ 0 ≤ used.height) :
    ∀ q ∈ splitFreeRectangles l used, 0 ≤ q.x ∧ 0 ≤ q.y := by
  intro q hq
  rcases splitFreeRectangles_mem l used q hq with ⟨hmem, -⟩ | ⟨r, hr, -, hqr⟩
  · exact hl q hmem
  · exact splitParts_nonneg r used (hl r hr) hu q hqr

/-! ### MaxRectangles placement invariant -/

theorem placeStep_inv (p w h : ℚ) (freeRects : List Rect) (frames : List Frame)
    (r0 : Rect) (hr0 : r0 ∈ freeRects) (hfit : fitsRect r0 w h)
    (frame : Frame)
    (hpad : paddedBox p frame = ⟨r0.x, r0.y, w, h⟩)
    (hw : 0 ≤ w) (hh : 0 ≤ h)
    (inv1 : ∀ r ∈ freeRects, ∀ f ∈ frames, disjointR r (paddedBox p f))
    (inv2 : framesDisjoint p frames)
    (inv3 : ∀ r ∈ freeRects, 0 ≤ r.x ∧ 0 ≤ r.y)
    (inv4 : ∀ f ∈ frames, 0 ≤ f.x ∧ 0 ≤ f.y) :
    (∀ r ∈ splitFreeRectangles freeRects ⟨r0.x, r0.y, w, h⟩,
      ∀ f ∈ frames ++ [frame], disjointR r (paddedBox p f)) ∧
    framesDisjoint p (frames ++ [frame]) ∧
    (∀ r ∈ splitFreeRectangles freeRects ⟨r0.x, r0.y, w, h⟩, 0 ≤ r.x ∧ 0 ≤ r.y) ∧
    (∀ f ∈ frames ++ [frame], 0 ≤ f.x ∧ 0 ≤ f.y) := by
  have hr0nn := inv3 r0 hr0
  have hsubused : subRect ⟨r0.x, r0.y, w, h⟩ r0 := by
    refine ⟨le_refl _, le_refl _, ?_, ?_⟩
    · simpa using add_le_add_left hfit.1 r0.x
    · simpa using add_le_add_left hfit.2 r0.y
  have husedf : ∀ f ∈ frames, disjointR (paddedBox p frame) (paddedBox p f) := by
    intro f hf
    rw [hpad]
    exact disjointR_of_subRect hsubused (inv1 r0 hr0 f hf)
  refine ⟨?_, ?_, ?_, ?_⟩
  · intro r hr f hf
    obtain ⟨⟨rp, hrp, hsub⟩, hdisj⟩ := splitFreeRectangles_spec freeRects _ r hr
    rcases List.mem_append.mp hf with hf | hf
    · exact disjointR_of_subRect hsub (inv1 rp hrp f hf)
    · simp only [List.mem_singleton] at hf
      subst hf
      rw [hpad]
      exact hdisj
  · rw [framesDisjoint, List.pairwise_append]
    refine ⟨inv2, List.pairwise_singleton _ _, ?_⟩
    intro f hf g hg
    simp only [List.mem_singleton] at hg
    subst hg
    exact disjointR_symm (husedf f hf)
  · exact splitFreeRectangles_nonneg freeRects _ inv3 ⟨hr0nn.1, hr0nn.2, hw, hh⟩
  · intro f hf
    rcases List.mem_append.mp hf with hf | hf
    · exact inv4 f hf
    · simp only [List.mem_singleton] at hf
      subst hf
      have hx : f.x = r0.x := congrArg Rect.x hpad
      have hy : f.y = r0.y := congrArg Rect.y hpad
      rw [hx, hy]
      exact hr0nn

theorem maxRectanglesPlace_spec (p : ℚ) (hp : 0 ≤ p) :
    ∀ (images : List Img) (freeRects : List Rect) (frames : List Frame),
      (∀ i ∈ images, 0 ≤ i.width ∧ 0 ≤ i.height) →
      (∀ r ∈ freeRects, ∀ f ∈ frames, disjointR r (paddedBox p f)) →
      framesDisjoint p frames →
      (∀ r ∈ freeRects, 0 ≤ r.x ∧ 0 ≤ r.y) →
      (∀ f ∈ frames, 0 ≤ f.x ∧ 0 ≤ f.y) →
      ∀ out, maxRectanglesPlace p images freeRects frames = some out →
        framesDisjoint p out ∧ (∀ f ∈ out, 0 ≤ f.x ∧ 0 ≤ f.y) ∧
        out.map Frame.name = frames.map Frame.name ++ images.map Img.name := by
  intro images
  induction images with
  | nil =>
    intro freeRects frames _ _ hfd _ hfn out hout
    rw [maxRectanglesPlace] at hout
    rw [Option.some_inj] at hout
    subst hout
    exact ⟨hfd, hfn, by simp⟩
  | cons item rest ih =>
    intro freeRects frames hdim inv1 inv2 inv3 inv4 out hout
    have hdimitem := hdim item (List.mem_cons_self _ _)
    have hdimrest : ∀ i ∈ rest, 0 ≤ i.width ∧ 0 ≤ i.height :=
      fun i hi => hdim i (List.mem_cons_of_mem _ hi)
    rw [maxRectanglesPlace] at hout
    by_cases hbn : (findPositionForNewNodeBestShortSideFit freeRects
        (item.width + p) (item.height + p)).height = 0
    · rw [if_pos hbn] at hout
      by_cases hbn2 : (findPositionForNewNodeBestShortSideFit freeRects
          (item.height + p) (item.width + p)).height = 0
      · rw [if_pos hbn2] at hout
        exact absurd hout (by simp)
      · rw [if_neg hbn2] at hout
        rcases findPosition_spec freeRects (item.height + p) (item.width + p) with
          ⟨hzero, -⟩ | ⟨r0, hr0, hfit, hnode, -⟩
        · exact absurd (congrArg Rect.height hzero) hbn2
        · rw [hnode] at hout
          have hstep := placeStep_inv p (item.height + p) (item.width + p) freeRects frames
            r0 hr0 hfit
            ⟨item.name, r0.x, r0.y, item.height, item.width, item.width, item.height, 0, 0, true⟩
            rfl (by linarith [hdimitem.2]) (by linarith [hdimitem.1]) inv1 inv2 inv3 inv4
          obtain ⟨s1, s2, s3, s4⟩ := hstep
          obtain ⟨c1, c2, c3⟩ := ih _ _ hdimrest s1 s2 s3 s4 out hout
          refine ⟨c1, c2, ?_⟩
          rw [c3]
          simp
    · rw [if_neg hbn] at hout
      rcases findPosition_spec freeRects (item.width + p) (item.height + p) with
        ⟨hzero, -⟩ | ⟨r0, hr0, hfit, hnode, -⟩
      · exact absurd (congrArg Rect.height hzero) hbn
      · rw [hnode] at hout
        have hstep := placeStep_inv p (item.width + p) (item.height + p) freeRects frames
          r0 hr0 hfit
          ⟨item.name, r0.x, r0.y, item.width, item.height, item.width, item.height, 0, 0, false⟩
          rfl (by linarith [hdimitem.1]) (by linarith [hdimitem.2]) inv1 inv2 inv3 inv4
        obtain ⟨s1, s2, s3, s4⟩ := hstep
        obtain ⟨c1, c2, c3⟩ := ih _ _ hdimrest s1 s2 s3 s4 out hout
        refine ⟨c1, c2, ?_⟩
        rw [c3]
        simp

theorem maxRectanglesPack_spec (images : List Img) (p maxWidth : ℚ) (hp : 0 ≤ p)
    (hdim : ∀ i ∈ images, 0 ≤ i.width ∧ 0 ≤ i.height) :
    ∀ L, maxRectanglesPack images p maxWidth = some L →
      framesDisjoint p L.frames ∧
      (∀ f ∈ L.frames, 0 ≤ f.x ∧ 0 ≤ f.y ∧
        f.x + f.width + p ≤ L.width ∧ f.y + f.height + p ≤ L.height) ∧
      L.frames.map Frame.name = images.map Img.name ∧
      p ≤ L.width ∧ p ≤ L.height := by
  intro L hL
  unfold maxRectanglesPack at hL
  rcases hplace : maxRectanglesPlace p images [⟨0, 0, maxWidth, 4096⟩] [] with _ | frames
  · rw [hplace] at hL
    exact absurd hL (by simp)
  · rw [hplace] at hL
    simp only [Option.some_inj] at hL
    obtain ⟨c1, c2, c3⟩ := maxRectanglesPlace_spec p hp images [⟨0, 0, maxWidth, 4096⟩] []
      hdim (by simp) (by simp [framesDisjoint]) (by intro r hr; simp at hr; subst hr; simp)
      (by simp) frames hplace
    obtain ⟨hb1, hb2, hb3⟩ := layoutBounds_bound p frames
    subst hL
    refine ⟨c1, ?_, by simpa using c3, hb2, hb3⟩
    intro f hf
    obtain ⟨hx, hy⟩ := c2 f hf
    obtain ⟨hw, hh⟩ := hb1 f hf
    exact ⟨hx, hy, hw, hh⟩

/-! ### Existing-shelf scan characterization -/

theorem considerCandidate_spec (i : ℕ) (rot : Bool) (score waste : ℚ)
    (acc : Option (ℕ × Bool × ℚ × ℚ)) :
    (considerCandidate i rot score waste acc).isSome ∧
    ∀ j r sc wa, considerCandidate i rot score waste acc = some (j, r, sc, wa) →
      ((j = i ∧ r = rot ∧ sc = score ∧ wa = waste) ∨ acc = some (j, r, sc, wa)) ∧
      score ≤ sc ∧
      (∀ j0 r0 sc0 wa0, acc = some (j0, r0, sc0, wa0) → sc0 ≤ sc) := by
  rcases acc with _ | ⟨bi, br, bs, bf⟩
  · refine ⟨by simp [considerCandidate], ?_⟩
    intro j r sc wa hres
    simp only [considerCandidate, Option.some_inj, Prod.ext_iff] at hres
    obtain ⟨h1, h2, h3, h4⟩ := hres
    refine ⟨Or.inl ⟨h1.symm, h2.symm, h3.symm, h4.symm⟩, le_of_eq h3, by simp⟩
  · by_cases hc : score > bs ∨ (score = bs ∧ waste < bf)
    · refine ⟨by simp [considerCandidate, if_pos hc], ?_⟩
      intro j r sc wa hres
      simp only [considerCandidate, if_pos hc, Option.some_inj, Prod.ext_iff] at hres
      obtain ⟨h1, h2, h3, h4⟩ := hres
      refine ⟨Or.inl ⟨h1.symm, h2.symm, h3.symm, h4.symm⟩, le_of_eq h3, ?_⟩
      intro j0 r0 sc0 wa0 hacc
      simp only [Option.some_inj, Prod.ext_iff] at hacc
      rw [← hacc.2.2.1, ← h3]
      rcases hc with hc | hc
      · exact le_of_lt hc
      · exact le_of_eq hc.1.symm
    · refine ⟨by simp [considerCandidate, if_neg hc], ?_⟩
      intro j r sc wa hres
      simp only [considerCandidate, if_neg hc, Option.some_inj, Prod.ext_iff] at hres
      obtain ⟨h1, h2, h3, h4⟩ := hres
      push_neg at hc
      refine ⟨Or.inr ?_, ?_, ?_⟩
      · simp only [Option.some_inj, Prod.ext_iff]
        exact ⟨h1, h2, h3, h4⟩
      · rw [← h3]; exact hc.1
      · intro j0 r0 sc0 wa0 hacc
        simp only [Option.some_inj, Prod.ext_iff] at hacc
        rw [← hacc.2.2.1, ← h3]

theorem shelfScanStep_spec (p mW : ℚ) (item : Img) (acc : Option (ℕ × Bool × ℚ × ℚ))
    (i : ℕ) (s : Shelf) :
    (shelfScanStep p mW item acc (i, s) = none →
      acc = none ∧ ¬ eligUnrot p mW s item ∧ ¬ eligRot p mW s item) ∧
    (∀ j r sc wa, shelfScanStep p mW item acc (i, s) = some (j, r, sc, wa) →
      (acc = some (j, r, sc, wa) ∨
        (j = i ∧ ((r = false ∧ eligUnrot p mW s item ∧
            sc = shelfScore p mW s item.width item.height) ∨
          (r = true ∧ eligRot p mW s item ∧
            sc = shelfScore p mW s item.height item.width)))) ∧
      (∀ j0 r0 sc0 wa0, acc = some (j0, r0, sc0, wa0) → sc0 ≤ sc) ∧
      (eligUnrot p mW s item → shelfScore p mW s item.width item.height ≤ sc) ∧
      (eligRot p mW s item → shelfScore p mW s item.height item.width ≤ sc)) := by
  by_cases hU : eligUnrot p mW s item <;> by_cases hR : eligRot p mW s item
  · have e : shelfScanStep p mW item acc (i, s) =
        considerCandidate i true (shelfScore p mW s item.height item.width)
          (shelfWaste s item.width)
          (considerCandidate i false (shelfScore p mW s item.width item.height)
            (shelfWaste s item.height) acc) := by
      unfold shelfScanStep
      dsimp only
      rw [if_pos hU, if_pos hR]
    obtain ⟨hsome1, hspec1⟩ := considerCandidate_spec i false
      (shelfScore p mW s item.width item.height) (shelfWaste s item.height) acc
    rcases hA1 : considerCandidate i false (shelfScore p mW s item.width item.height)
        (shelfWaste s item.height) acc with _ | ⟨j1, r1, sc1, wa1⟩
    · rw [hA1] at hsome1
      simp at hsome1
    · obtain ⟨horig1, hge1, haccle1⟩ := hspec1 j1 r1 sc1 wa1 hA1
      obtain ⟨hsome2, hspec2⟩ := considerCandidate_spec i true
        (shelfScore p mW s item.height item.width) (shelfWaste s item.width)
        (some (j1, r1, sc1, wa1))
      constructor
      · intro hnone
        rw [e, hA1] at hnone
        rw [hnone] at hsome2
        simp at hsome2
      · intro j r sc wa hres
        rw [e, hA1] at hres
        obtain ⟨horig2, hge2, haccle2⟩ := hspec2 j r sc wa hres
        have hsc1le : sc1 ≤ sc := haccle2 j1 r1 sc1 wa1 rfl
        refine ⟨?_, ?_, fun _ => le_trans hge1 hsc1le, fun _ => hge2⟩
        · rcases horig2 with ⟨hj, hr, hsc, hwa⟩ | hkeep
          · exact Or.inr ⟨hj, Or.inr ⟨hr, hR, hsc⟩⟩
          · simp only [Option.some_inj, Prod.ext_iff] at hkeep
            obtain ⟨e1, e2, e3, e4⟩ := hkeep
            rcases horig1 with ⟨f1, f2, f3, f4⟩ | hacckeep
            · exact Or.inr ⟨e1.symm.trans f1, Or.inl ⟨e2.symm.trans f2, hU, e3.symm.trans f3⟩⟩
            · rw [e1, e2, e3, e4] at hacckeep
              exact Or.inl hacckeep
        · intro j0 r0 sc0 wa0 hacc0
          exact le_trans (haccle1 j0 r0 sc0 wa0 hacc0) hsc1le
  · have e : shelfScanStep p mW item acc (i, s) =
        considerCandidate i false (shelfScore p mW s item.width item.height)
          (shelfWaste s item.height) acc := by
      unfold shelfScanStep
      dsimp only
      rw [if_pos hU, if_neg hR]
    obtain ⟨hsome1, hspec1⟩ := considerCandidate_spec i false
      (shelfScore p mW s item.width item.height) (shelfWaste s item.height) acc
    constructor
    · intro hnone
      rw [e] at hnone
      rw [hnone] at hsome1
      simp at hsome1
    · intro j r sc wa hres
      rw [e] at hres
      obtain ⟨horig1, hge1, haccle1⟩ := hspec1 j r sc wa hres
      refine ⟨?_, haccle1, fun _ => hge1, fun hR2 => absurd hR2 hR⟩
      rcases horig1 with ⟨hj, hr, hsc, hwa⟩ | hkeep
      · exact Or.inr ⟨hj, Or.inl ⟨hr, hU, hsc⟩⟩
      · exact Or.inl hkeep
  · have e : shelfScanStep p mW item acc (i, s) =
        considerCandidate i true (shelfScore p mW s item.height item.width)
          (shelfWaste s item.width) acc := by
      unfold shelfScanStep
      dsimp only
      rw [if_neg hU, if_pos hR]
    obtain ⟨hsome2, hspec2⟩ := considerCandidate_spec i true
      (shelfScore p mW s item.height item.width) (shelfWaste s item.width) acc
    constructor
    · intro hnone
      rw [e] at hnone
      rw [hnone] at hsome2
      simp at hsome2
    · intro j r sc wa hres
      rw [e] at hres
      obtain ⟨horig2, hge2, haccle2⟩ := hspec2 j r sc wa hres
      refine ⟨?_, haccle2, fun hU2 => absurd hU2 hU, fun _ => hge2⟩
      rcases horig2 with ⟨hj, hr, hsc, hwa⟩ | hkeep
      · exact Or.inr ⟨hj, Or.inr ⟨hr, hR, hsc⟩⟩
      · exact Or.inl hkeep
  · have e : shelfScanStep p mW item acc (i, s) = acc := by
      unfold shelfScanStep
      dsimp only
      rw [if_neg hU, if_neg hR]
    constructor
    · intro hnone
      rw [e] at hnone
      exact ⟨hnone, hU, hR⟩
    · intro j r sc wa hres
      rw [e] at hres
      refine ⟨Or.inl hres, ?_, fun hU2 => absurd hU2 hU, fun hR2 => absurd hR2 hR⟩
      intro j0 r0 sc0 wa0 hacc0
      rw [hres] at hacc0
      simp only [Option.some_inj, Prod.ext_iff] at hacc0
      exact le_of_eq hacc0.2.2.1.symm

theorem shelfScan_foldl_spec (p mW : ℚ) (item : Img) (l : List (ℕ × Shelf)) :
    ∀ acc,
      ((l.foldl (shelfScanStep p mW item) acc) = none →
        acc = none ∧ ∀ is ∈ l, ¬ eligUnrot p mW is.2 item ∧ ¬ eligRot p mW is.2 item) ∧
      (∀ j r sc wa, l.foldl (shelfScanStep p mW item) acc = some (j, r, sc, wa) →
        (acc = some (j, r, sc, wa) ∨
          ∃ is ∈ l, j = is.1 ∧
            ((r = false ∧ eligUnrot p mW is.2 item ∧
                sc = shelfScore p mW is.2 item.width item.height) ∨
             (r = true ∧ eligRot p mW is.2 item ∧
                sc = shelfScore p mW is.2 item.height item.width))) ∧
        (∀ j0 r0 sc0 wa0, acc = some (j0, r0, sc0, wa0) → sc0 ≤ sc) ∧
        (∀ is ∈ l,
          (eligUnrot p mW is.2 item → shelfScore p mW is.2 item.width item.height ≤ sc) ∧
          (eligRot p mW is.2 item → shelfScore p mW is.2 item.height item.width ≤ sc))) := by
  induction l with
  | nil =>
    intro acc
    refine ⟨fun h => ⟨h, by simp⟩, ?_⟩
    intro j r sc wa hres
    simp only [List.foldl_nil] at hres
    refine ⟨Or.inl hres, ?_, by simp⟩
    intro j0 r0 sc0 wa0 hacc0
    rw [hres] at hacc0
    simp only [Option.some_inj, Prod.ext_iff] at hacc0
    exact le_of_eq hacc0.2.2.1.symm
  | cons p0 rest ih =>
    intro acc
    rcases p0 with ⟨i, s⟩
    obtain ⟨hstepnone, hstepsome⟩ := shelfScanStep_spec p mW item acc i s
    obtain ⟨ihnone, ihsome⟩ := ih (shelfScanStep p mW item acc (i, s))
    constructor
    · intro hnone
      rw [List.foldl_cons] at hnone
      obtain ⟨hstep0, hrest⟩ := ihnone hnone
      obtain ⟨hacc0, hUn, hRn⟩ := hstepnone hstep0
      refine ⟨hacc0, ?_⟩
      intro is his
      rcases List.mem_cons.mp his with rfl | his
      · exact ⟨hUn, hRn⟩
      · exact hrest is his
    · intro j r sc wa hres
      rw [List.foldl_cons] at hres
      obtain ⟨horig, haccle, hmin⟩ := ihsome j r sc wa hres
      rcases hstepval : shelfScanStep p mW item acc (i, s) with _ | ⟨j1, r1, sc1, wa1⟩
      · -- the step result is none, so acc was none and neither orientation is eligible
        obtain ⟨hacc0, hUn, hRn⟩ := hstepnone hstepval
        rw [hstepval] at horig haccle
        refine ⟨?_, ?_, ?_⟩
        · rcases horig with horig | ⟨is, his, hrest⟩
          · exact absurd horig (by simp)
          · exact Or.inr ⟨is, List.mem_cons_of_mem _ his, hrest⟩
        · intro j0 r0 sc0 wa0 hacc1
          rw [hacc0] at hacc1
          exact absurd hacc1 (by simp)
        · intro is his
          rcases List.mem_cons.mp his with rfl | his
          · exact ⟨fun hU2 => absurd hU2 hUn, fun hR2 => absurd hR2 hRn⟩
          · exact hmin is his
      · obtain ⟨sorig, saccle, sU, sR⟩ := hstepsome j1 r1 sc1 wa1 hstepval
        rw [hstepval] at horig haccle
        have hsc1 : sc1 ≤ sc := haccle j1 r1 sc1 wa1 rfl
        refine ⟨?_, ?_, ?_⟩
        · rcases horig with horig | ⟨is, his, hrest⟩
          · simp only [Option.some_inj, Prod.ext_iff] at horig
            obtain ⟨e1, e2, e3, e4⟩ := horig
            rw [← e1, ← e2, ← e3, ← e4]
            rcases sorig with sorig | ⟨hj, hcand⟩
            · exact Or.inl sorig
            · exact Or.inr ⟨(i, s), List.mem_cons_self _ _, hj, hcand⟩
          · exact Or.inr ⟨is, List.mem_cons_of_mem _ his, hrest⟩
        · intro j0 r0 sc0 wa0 hacc1
          exact le_trans (saccle j0 r0 sc0 wa0 hacc1) hsc1
        · intro is his
          rcases List.mem_cons.mp his with rfl | his
          · exact ⟨fun hU2 => le_trans (sU hU2) hsc1, fun hR2 => le_trans (sR hR2) hsc1⟩
          · exact hmin is his

theorem mem_enum_of_get {shelves : List Shelf} (i : Fin shelves.length) {s : Shelf}
    (hget : shelves.get i = s) : ((i : ℕ), s) ∈ shelves.enum := by
  rw [List.mem_enum_iff_getElem?]
  show shelves[(i : ℕ)]? = some s
  rw [List.getElem?_eq_getElem i.isLt]
  exact congrArg some ((List.get_eq_getElem shelves i).symm.trans hget)

theorem findBestShelf_none (p mW : ℚ) (shelves : List Shelf) (item : Img)
    (h : findBestShelf p mW shelves item = none) :
    ∀ s ∈ shelves, ¬ eligUnrot p mW s item ∧ ¬ eligRot p mW s item := by
  intro s hs
  obtain ⟨hnone, -⟩ := shelfScan_foldl_spec p mW item shelves.enum none
  obtain ⟨-, hall⟩ := hnone h
  obtain ⟨i, hget⟩ := List.mem_iff_get.mp hs
  simpa using hall ((i : ℕ), s) (mem_enum_of_get i hget)

theorem findBestShelf_some (p mW : ℚ) (shelves : List Shelf) (item : Img)
    (j : ℕ) (r : Bool) (sc wa : ℚ)
    (h : findBestShelf p mW shelves item = some (j, r, sc, wa)) :
    (∃ shelf, shelves.get? j = some shelf ∧
      ((r = false ∧ eligUnrot p mW shelf item ∧
          sc = shelfScore p mW shelf item.width item.height) ∨
       (r = true ∧ eligRot p mW shelf item ∧
          sc = shelfScore p mW shelf item.height item.width))) ∧
    (∀ s ∈ shelves,
      (eligUnrot p mW s item → shelfScore p mW s item.width item.height ≤ sc) ∧
      (eligRot p mW s item → shelfScore p mW s item.height item.width ≤ sc)) := by
  obtain ⟨-, hsome⟩ := shelfScan_foldl_spec p mW item shelves.enum none
  obtain ⟨horig, -, hmin⟩ := hsome j r sc wa h
  constructor
  · rcases horig with horig | ⟨is, his, hj, hcand⟩
    · exact absurd horig (by simp)
    · rw [List.mem_enum_iff_getElem?] at his
      refine ⟨is.2, ?_, hcand⟩
      rw [hj, List.get?_eq_getElem?]
      exact his
  · intro s hs
    obtain ⟨i, hget⟩ := List.mem_iff_get.mp hs
    simpa using hmin ((i : ℕ), s) (mem_enum_of_get i hget)

/-! ### Shelf ordering consequences of the chain invariant -/

theorem shelves_y_le (p : ℚ) (hp : 0 ≤ p) (shelves : List Shelf)
    (hch : shelves.Chain' (fun s t => t.y = s.y + s.height + p))
    (hpos : ∀ s ∈ shelves, 0 < s.height) :
    ∀ j, ∀ hj : j < shelves.length, ∀ i, ∀ hi : i < shelves.length, i < j →
      (shelves.get ⟨i, hi⟩).y + (shelves.get ⟨i, hi⟩).height + p ≤ (shelves.get ⟨j, hj⟩).y := by
  have hstep := List.chain'_iff_get.mp hch
  intro j
  induction j with
  | zero =>
    intro hj i hi hij
    omega
  | succ j ihj =>
    intro hj i hi hij
    have hjlt : j < shelves.length := Nat.lt_of_succ_lt hj
    have hrel := hstep j (by omega)
    rcases Nat.lt_succ_iff_lt_or_eq.mp hij with h | h
    · have hprev := ihj hjlt i hi h
      have hhj : 0 < (shelves.get ⟨j, hjlt⟩).height :=
        hpos _ (List.get_mem shelves j hjlt)
      have : (shelves.get ⟨j + 1, hj⟩).y =
          (shelves.get ⟨j, hjlt⟩).y + (shelves.get ⟨j, hjlt⟩).height + p := hrel
      rw [this]
      linarith
    · subst h
      have : (shelves.get ⟨i + 1, hj⟩).y =
          (shelves.get ⟨i, hi⟩).y + (shelves.get ⟨i, hi⟩).height + p := hrel
      rw [this]

/-- A frame vertically contained in the shelf at index `k` is contained in no
other shelf (shelf vertical ranges are disjoint). -/
theorem onShelf_unique (p : ℚ) (hp : 0 ≤ p) (shelves : List Shelf)
    (hch : shelves.Chain' (fun s t => t.y = s.y + s.height + p))
    (hpos : ∀ s ∈ shelves, 0 < s.height)
    (f : Frame) (hf : 0 < f.height)
    (k k2 : ℕ) (hk : k < shelves.length) (hk2 : k2 < shelves.length)
    (h1 : onShelf (shelves.get ⟨k, hk⟩) f) (h2 : onShelf (shelves.get ⟨k2, hk2⟩) f) :
    k = k2 := by
  by_contra hne
  rcases Nat.lt_or_ge k k2 with h | h
  · have := shelves_y_le p hp shelves hch hpos k2 hk2 k hk h
    obtain ⟨a1, a2⟩ := h1
    obtain ⟨b1, b2⟩ := h2
    linarith
  · rcases Nat.lt_or_ge k2 k with h' | h'
    · have := shelves_y_le p hp shelves hch hpos k hk k2 hk2 h'
      obtain ⟨a1, a2⟩ := h1
      obtain ⟨b1, b2⟩ := h2
      linarith
    · omega

/-- Replacing the element at `idx` by a shelf with the same `y` (and, unless
`idx` is the last position, the same height) preserves the chain invariant. -/
theorem chain_set (p : ℚ) (shelves : List Shelf) (idx : ℕ) (s' : Shelf)
    (hidx : idx < shelves.length)
    (hy : s'.y = (shelves.get ⟨idx, hidx⟩).y)
    (hh : idx + 1 < shelves.length → s'.height = (shelves.get ⟨idx, hidx⟩).height)
    (hch : shelves.Chain' (fun s t => t.y = s.y + s.height + p)) :
    (shelves.set idx s').Chain' (fun s t => t.y = s.y + s.height + p) := by
  rw [List.get_eq_getElem] at hy hh
  rw [List.chain'_iff_get] at hch ⊢
  intro i hi
  simp only [List.length_set] at hi
  have hstep := hch i hi
  simp only [List.get_eq_getElem] at hstep
  simp only [List.get_eq_getElem, List.getElem_set]
  by_cases h1 : idx = i <;> by_cases h2 : idx = i + 1
  · omega
  · rw [if_pos h1, if_neg h2]
    subst h1
    rw [hstep, hy, hh (by omega)]
  · rw [if_neg h1, if_pos h2]
    rw [hy]
    subst h2
    exact hstep
  · rw [if_neg h1, if_neg h2]
    exact hstep

/-! ### Helper facts for the preservation proofs -/

theorem xDisjoint_paddedBox {p : ℚ} {f g : Frame} (h : xDisjoint p f g) :
    disjointR (paddedBox p f) (paddedBox p g) := by
  unfold xDisjoint at h
  unfold disjointR paddedBox
  dsimp only
  rcases h with h | h
  · exact Or.inl (by linarith)
  · exact Or.inr (Or.inl (by linarith))

theorem frame_y_lt_of_shelf_lt (p : ℚ) (hp : 0 ≤ p) (shelves : List Shelf)
    (hch : shelves.Chain' (fun s t => t.y = s.y + s.height + p))
    (hpos : ∀ s ∈ shelves, 0 < s.height)
    (f : Frame) (hfh : 0 < f.height)
    (k j : ℕ) (hk : k < shelves.length) (hj : j < shelves.length) (hkj : k < j)
    (hon : onShelf (shelves.get ⟨k, hk⟩) f) :
    f.y + f.height + p ≤ (shelves.get ⟨j, hj⟩).y ∧ f.y < (shelves.get ⟨j, hj⟩).y := by
  have h := shelves_y_le p hp shelves hch hpos j hj k hk hkj
  obtain ⟨h1, h2⟩ := hon
  constructor
  · linarith
  · linarith

/-- The shelf invariant implies pairwise disjointness of the padded boxes. -/
theorem shelfInv_disjoint (p : ℚ) (hp : 0 ≤ p) (frames : List Frame) (shelves : List Shelf)
    (inv : ShelfInv p frames shelves) : framesDisjoint p frames := by
  unfold framesDisjoint
  rw [List.pairwise_iff_get]
  intro i j hij
  obtain ⟨ki, hki, honi, -⟩ := inv.located (frames.get i) (frames.get_mem i i.isLt)
  obtain ⟨kj, hkj, honj, -⟩ := inv.located (frames.get j) (frames.get_mem j j.isLt)
  have hpos : ∀ s ∈ shelves, 0 < s.height := fun s hs => (inv.shelfPos s hs).1
  rcases Nat.lt_trichotomy ki kj with hlt | heq | hgt
  · have := (frame_y_lt_of_shelf_lt p hp shelves inv.chain hpos (frames.get i)
      (inv.framePos _ (frames.get_mem i i.isLt)).2.1 ki kj hki hkj hlt honi).1
    obtain ⟨hj1, -⟩ := honj
    unfold disjointR paddedBox
    dsimp only
    exact Or.inr (Or.inr (Or.inl (by linarith)))
  · subst heq
    have hx : xDisjoint p (frames.get i) (frames.get j) := by
      have hpw := inv.sameShelfX ki hki
      rw [List.pairwise_iff_get] at hpw
      have h := honj
      rw [show hkj = hki from rfl] at h
      exact hpw i j hij honi h
    exact xDisjoint_paddedBox hx
  · have := (frame_y_lt_of_shelf_lt p hp shelves inv.chain hpos (frames.get j)
      (inv.framePos _ (frames.get_mem j j.isLt)).2.1 kj ki hkj hki hgt honj).1
    obtain ⟨hi1, -⟩ := honi
    unfold disjointR paddedBox
    dsimp only
    exact Or.inr (Or.inr (Or.inr (by linarith)))

theorem dropLast_append_set {α : Type} : ∀ (l : List α) (x : α), l ≠ [] →
    l.dropLast ++ [x] = l.set (l.length - 1) x
  | [], x, h => absurd rfl h
  | [a], x, _ => rfl
  | a :: b :: t, x, _ => by
    have ih := dropLast_append_set (b :: t) x (by simp)
    show a :: ((b :: t).dropLast ++ [x]) = (a :: b :: t).set ((b :: t).length + 1 - 1) x
    rw [ih]
    rfl

/-- The best-height fold of `chooseOptimalHeight` returns a height taken from
the candidate list (or the fallback). -/
theorem bestHeightFold_result_bound (sc : ℚ → ℚ) (ph : ℚ) (l : List ℚ)
    (hl : ∀ x ∈ l, ph ≤ x) :
    ph ≤ (match l.foldl (fun a t => match a with
        | none => some (sc t, t)
        | some (bs, bh) => if sc t > bs then some (sc t, t) else some (bs, bh)) none with
      | none => ph
      | some (_, h) => h) := by
  suffices H : ∀ (l : List ℚ) (acc : Option (ℚ × ℚ)),
      (∀ x ∈ l, ph ≤ x) → (∀ s h, acc = some (s, h) → ph ≤ h) →
      ∀ s h, l.foldl (fun a t => match a with
        | none => some (sc t, t)
        | some (bs, bh) => if sc t > bs then some (sc t, t) else some (bs, bh)) acc
          = some (s, h) → ph ≤ h by
    rcases he : l.foldl (fun a t => match a with
        | none => some (sc t, t)
        | some (bs, bh) => if sc t > bs then some (sc t, t) else some (bs, bh)) none with
      _ | ⟨s, h⟩
    · rw [he]
    · rw [he]
      exact H l none hl (fun s h hsome => by simp at hsome) s h he
  intro l
  induction l with
  | nil => intro acc _ hacc s h he; exact hacc s h he
  | cons t rest ih =>
    intro acc hl hacc s h he
    simp only [List.foldl_cons] at he
    refine ih _ (fun x hx => hl x (List.mem_cons_of_mem t hx)) ?_ s h he
    intro s1 h1 hs1
    rcases acc with _ | ⟨bs, bh⟩
    · simp only [] at hs1
      obtain ⟨-, h2⟩ := Prod.mk.injEq .. ▸ Option.some_inj.mp hs1
      exact h2 ▸ hl t (List.mem_cons_self t rest)
    · simp only [] at hs1
      by_cases hgt : sc t > bs
      · rw [if_pos hgt] at hs1
        obtain ⟨-, h2⟩ := Prod.mk.injEq .. ▸ Option.some_inj.mp hs1
        exact h2 ▸ hl t (List.mem_cons_self t rest)
      · rw [if_neg hgt] at hs1
        obtain ⟨-, h2⟩ := Prod.mk.injEq .. ▸ Option.some_inj.mp hs1
        exact h2 ▸ hacc bs bh rfl

/-- `chooseOptimalHeight` never returns less than the requested height. -/
theorem chooseOptimalHeight_ge (newImages : List Img) (item : Img) (ph : ℚ) :
    ph ≤ chooseOptimalHeight newImages item ph := by
  unfold chooseOptimalHeight
  refine bestHeightFold_result_bound _ ph _ ?_
  intro x hx
  have h := List.mem_filter.mp hx
  have h2 := of_decide_eq_true h.2
  exact h2.1

/-- Orientation choice of the new-shelf path: either the item is rotated, in
which case its unrotated width exceeds the working width while the rotated one
does not, or it is kept unrotated. -/
theorem decideOrientation_spec (p mW : ℚ) (item : Img) :
    (decideOrientation p mW item = (true, item.height, item.width) ∧
      mW < item.width + p ∧ item.height + p ≤ mW) ∨
    decideOrientation p mW item = (false, item.width, item.height) := by
  unfold decideOrientation
  by_cases h1 : item.width + p > mW <;> by_cases h2 : item.height + p > mW
  · simp [h1, h2]
  · have h2' := not_lt.mp h2
    simp [h1, h2, h2']
  · simp [h1, h2]
  · have e : item.height * item.width = item.width * item.height := mul_comm _ _
    simp [h1, h2, e]

/-- Appending a frame at the running x-position of shelf `idx` (and advancing
that shelf by the placed width plus padding) preserves the sweep invariant. -/
theorem snocShelfFrame_inv (p : ℚ) (hp : 0 ≤ p) (frames : List Frame) (shelves : List Shelf)
    (inv : ShelfInv p frames shelves)
    (idx : ℕ) (hidx : idx < shelves.length) (shelf : Shelf)
    (hgetE : shelves[idx] = shelf)
    (nm : String) (pW pH oW oH oX oY : ℚ) (rot : Bool)
    (hpw0 : 0 < pW) (hph0 : 0 < pH) (hph : pH ≤ shelf.height) :
    ShelfInv p
      (frames ++ [⟨nm, shelf.currentX, shelf.y, pW, pH, oW, oH, oX, oY, rot⟩])
      (shelves.set idx ⟨shelf.y, shelf.height, shelf.currentX + pW + p, shelf.maxWidth⟩) := by
  have hshelfmem : shelf ∈ shelves := hgetE ▸ List.getElem_mem hidx
  obtain ⟨hsh, hscx, hsy⟩ := inv.shelfPos shelf hshelfmem
  have hposS : ∀ s ∈ shelves, 0 < s.height := fun s hs => (inv.shelfPos s hs).1
  constructor
  · refine chain_set p shelves idx _ hidx ?_ ?_ inv.chain
    · rw [List.get_eq_getElem, hgetE]
    · intro h1
      rw [List.get_eq_getElem, hgetE]
  · intro s hs
    rcases List.mem_or_eq_of_mem_set hs with hs1 | rfl
    · exact inv.shelfPos s hs1
    · exact ⟨hsh, by show (0:ℚ) ≤ shelf.currentX + pW + p; linarith, hsy⟩
  · intro f hf
    rcases List.mem_append.mp hf with hf1 | hf1
    · exact inv.framePos f hf1
    · rw [List.mem_singleton] at hf1
      subst hf1
      exact ⟨hpw0, hph0, hscx, hsy⟩
  · intro f hf
    rcases List.mem_append.mp hf with hf1 | hf1
    · obtain ⟨k, hk, hon, hxb⟩ := inv.located f hf1
      refine ⟨k, by rw [List.length_set]; exact hk, ?_, ?_⟩
      · simp only [List.get_eq_getElem, List.getElem_set]
        rw [List.get_eq_getElem] at hon
        by_cases hki : idx = k
        · rw [if_pos hki]
          subst hki
          rw [hgetE] at hon
          exact ⟨hon.1, hon.2⟩
        · rw [if_neg hki]
          exact hon
      · simp only [List.get_eq_getElem, List.getElem_set]
        rw [List.get_eq_getElem] at hxb
        by_cases hki : idx = k
        · rw [if_pos hki]
          subst hki
          rw [hgetE] at hxb
          show f.x + f.width + p ≤ shelf.currentX + pW + p
          linarith
        · rw [if_neg hki]
          exact hxb
    · rw [List.mem_singleton] at hf1
      subst hf1
      refine ⟨idx, by rw [List.length_set]; exact hidx, ?_, ?_⟩
      · simp only [List.get_eq_getElem, List.getElem_set]
        rw [if_true]
        exact ⟨le_refl _, by show shelf.y + pH ≤ shelf.y + shelf.height; linarith⟩
      · simp only [List.get_eq_getElem, List.getElem_set]
        rw [if_true]
  · intro k hk
    have hk0 : k < shelves.length := by rw [List.length_set] at hk; exact hk
    have htrans : ∀ g : Frame,
        onShelf ((shelves.set idx
          ⟨shelf.y, shelf.height, shelf.currentX + pW + p, shelf.maxWidth⟩).get ⟨k, hk⟩) g →
        onShelf (shelves.get ⟨k, hk0⟩) g := by
      intro g hg
      simp only [List.get_eq_getElem, List.getElem_set] at hg
      rw [List.get_eq_getElem]
      by_cases hki : idx = k
      · rw [if_pos hki] at hg
        subst hki
        rw [hgetE]
        exact ⟨hg.1, hg.2⟩
      · rw [if_neg hki] at hg
        exact hg
    rw [List.pairwise_append]
    refine ⟨?_, by simp, ?_⟩
    · exact (inv.sameShelfX k hk0).imp (fun hab hona honb => hab (htrans _ hona) (htrans _ honb))
    · intro a ha b hb
      rw [List.mem_singleton] at hb
      subst hb
      intro hona honb
      obtain ⟨ka, hka, honka, hxba⟩ := inv.located a ha
      have hona2 := htrans a hona
      have honb2 := htrans _ honb
      have honFidx : onShelf (shelves.get ⟨idx, hidx⟩)
          (⟨nm, shelf.currentX, shelf.y, pW, pH, oW, oH, oX, oY, rot⟩ : Frame) := by
        rw [List.get_eq_getElem, hgetE]
        exact ⟨le_refl _, by show shelf.y + pH ≤ shelf.y + shelf.height; linarith⟩
      have hk_idx : k = idx := onShelf_unique p hp shelves inv.chain hposS _ hph0
        k idx hk0 hidx honb2 honFidx
      have hka_k : ka = k := onShelf_unique p hp shelves inv.chain hposS a
        (inv.framePos a ha).2.1 ka k hka hk0 honka hona2
      subst hka_k
      subst hk_idx
      rw [List.get_eq_getElem, hgetE] at hxba
      exact Or.inl hxba

/-- `placeOnShelf` preserves the sweep invariant, appends exactly one frame
named after the item, and touches neither `newImages` nor the failure state. -/
theorem placeOnShelf_inv (p mW : ℚ) (hp : 0 ≤ p) (st : SweepState) (item : Img)
    (hw : 0 < item.width) (hh : 0 < item.height)
    (idx : ℕ) (rot : Bool) (sc wa : ℚ)
    (inv : ShelfInv p st.frames st.shelves)
    (hbs : findBestShelf p mW st.shelves item = some (idx, rot, sc, wa)) :
    ShelfInv p (placeOnShelf p st item idx rot).frames (placeOnShelf p st item idx rot).shelves ∧
    (placeOnShelf p st item idx rot).frames.map Frame.name
      = st.frames.map Frame.name ++ [item.name] ∧
    (placeOnShelf p st item idx rot).newImages = st.newImages ∧
    (placeOnShelf p st item idx rot).placedThisRound = true := by
  obtain ⟨⟨shelf, hget, hor⟩, -⟩ := findBestShelf_some p mW st.shelves item idx rot sc wa hbs
  have hidx : idx < st.shelves.length := by
    by_contra hc
    rw [List.get?_eq_getElem?, List.getElem?_eq_none (by omega)] at hget
    exact Option.noConfusion hget
  have hgetE : st.shelves[idx] = shelf := by
    rw [List.get?_eq_getElem?, List.getElem?_eq_getElem hidx] at hget
    exact Option.some_inj.mp hget
  have hpl : placeOnShelf p st item idx rot =
      { st with
        frames := st.frames ++ [⟨item.name, shelf.currentX, shelf.y,
          if rot then item.height else item.width, if rot then item.width else item.height,
          item.width, item.height, 0, 0, rot⟩],
        shelves := st.shelves.set idx
          ⟨shelf.y, shelf.height,
            shelf.currentX + (if rot then item.height else item.width) + p, shelf.maxWidth⟩,
        placedThisRound := true } := by
    unfold placeOnShelf
    rw [hget]
  have hpw0 : 0 < (if rot then item.height else item.width) := by
    cases rot <;> simpa
  have hph0 : 0 < (if rot then item.width else item.height) := by
    cases rot <;> simpa
  have hph : (if rot then item.width else item.height) ≤ shelf.height := by
    rcases hor with ⟨hr, helig, -⟩ | ⟨hr, helig, -⟩
    · subst hr; simpa using helig.2
    · subst hr; simpa using helig.2
  rw [hpl]
  refine ⟨?_, by simp, rfl, rfl⟩
  exact snocShelfFrame_inv p hp st.frames st.shelves inv idx hidx shelf hgetE item.name
    _ _ item.width item.height 0 0 rot hpw0 hph0 hph

/-- `createShelf` preserves the sweep invariant when the new shelf is opened
exactly `padding` below the previous last shelf (or at `padding` on an empty
layout) and is at least as tall as the placed item. -/
theorem createShelf_inv (p mW : ℚ) (hp : 0 ≤ p) (st : SweepState) (item : Img)
    (newY : ℚ) (rot : Bool) (pW pH optH : ℚ)
    (hpw0 : 0 < pW) (hph0 : 0 < pH) (hopt : pH ≤ optH)
    (inv : ShelfInv p st.frames st.shelves)
    (hnewY : newY = match st.shelves.getLast? with
      | none => p
      | some last => last.y + last.height + p) :
    ShelfInv p (createShelf p mW st item newY rot pW pH optH).frames
      (createShelf p mW st item newY rot pW pH optH).shelves ∧
    (createShelf p mW st item newY rot pW pH optH).frames.map Frame.name
      = st.frames.map Frame.name ++ [item.name] ∧
    (createShelf p mW st item newY rot pW pH optH).newImages = st.newImages ∧
    (createShelf p mW st item newY rot pW pH optH).placedThisRound = true := by
  have hny0 : 0 ≤ newY := by
    rcases hlast : st.shelves.getLast? with _ | last
    · rw [hlast] at hnewY
      exact hnewY ▸ hp
    · rw [hlast] at hnewY
      obtain ⟨h1, h2, h3⟩ := inv.shelfPos last (List.mem_of_mem_getLast? hlast)
      rw [hnewY]
      show (0:ℚ) ≤ last.y + last.height + p
      linarith
  refine ⟨?_, by simp [createShelf], rfl, rfl⟩
  show ShelfInv p
    (st.frames ++ [⟨item.name, p, newY + (optH - pH) / 2, pW, pH,
      item.width, item.height, 0, 0, rot⟩])
    (st.shelves ++ [⟨newY, optH, p + pW + p, mW⟩])
  have hchain' : (st.shelves ++ [(⟨newY, optH, p + pW + p, mW⟩ : Shelf)]).Chain'
      (fun s t => t.y = s.y + s.height + p) := by
    rw [List.chain'_append]
    refine ⟨inv.chain, List.chain'_singleton _, ?_⟩
    intro x hx y hy
    simp only [List.head?_cons, Option.mem_def, Option.some_inj] at hy
    rw [Option.mem_def] at hx
    rw [hx] at hnewY
    rw [← hy]
    show newY = x.y + x.height + p
    exact hnewY
  have hpos' : ∀ s ∈ st.shelves ++ [(⟨newY, optH, p + pW + p, mW⟩ : Shelf)], 0 < s.height := by
    intro s hs
    rcases List.mem_append.mp hs with hs1 | hs1
    · exact (inv.shelfPos s hs1).1
    · rw [List.mem_singleton] at hs1
      subst hs1
      show (0:ℚ) < optH
      linarith
  have hlen : st.shelves.length < (st.shelves ++ [(⟨newY, optH, p + pW + p, mW⟩ : Shelf)]).length := by
    rw [List.length_append]
    simp
  have hgetS : (st.shelves ++ [(⟨newY, optH, p + pW + p, mW⟩ : Shelf)])[st.shelves.length] =
      (⟨newY, optH, p + pW + p, mW⟩ : Shelf) :=
    List.getElem_concat_length st.shelves _ st.shelves.length rfl hlen
  have honF : onShelf (⟨newY, optH, p + pW + p, mW⟩ : Shelf)
      (⟨item.name, p, newY + (optH - pH) / 2, pW, pH, item.width, item.height, 0, 0, rot⟩ : Frame) := by
    constructor
    · show newY ≤ newY + (optH - pH) / 2
      linarith
    · show newY + (optH - pH) / 2 + pH ≤ newY + optH
      linarith
  -- every old frame remains on its (unchanged) shelf
  have hloc' : ∀ f ∈ st.frames, ∃ k, ∃ hk2 : k < st.shelves.length,
      onShelf ((st.shelves ++ [(⟨newY, optH, p + pW + p, mW⟩ : Shelf)]).get
        ⟨k, by rw [List.length_append]; omega⟩) f ∧
      f.x + f.width + p ≤ ((st.shelves ++ [(⟨newY, optH, p + pW + p, mW⟩ : Shelf)]).get
        ⟨k, by rw [List.length_append]; omega⟩).currentX := by
    intro f hf
    obtain ⟨k, hk, hon, hxb⟩ := inv.located f hf
    refine ⟨k, hk, ?_, ?_⟩
    · rw [List.get_eq_getElem, List.getElem_append_left hk]
      rw [List.get_eq_getElem] at hon
      exact hon
    · rw [List.get_eq_getElem, List.getElem_append_left hk]
      rw [List.get_eq_getElem] at hxb
      exact hxb
  constructor
  · exact hchain'
  · intro s hs
    rcases List.mem_append.mp hs with hs1 | hs1
    · exact inv.shelfPos s hs1
    · rw [List.mem_singleton] at hs1
      subst hs1
      refine ⟨by show (0:ℚ) < optH; linarith, by show (0:ℚ) ≤ p + pW + p; linarith, hny0⟩
  · intro f hf
    rcases List.mem_append.mp hf with hf1 | hf1
    · exact inv.framePos f hf1
    · rw [List.mem_singleton] at hf1
      subst hf1
      refine ⟨hpw0, hph0, hp, by show (0:ℚ) ≤ newY + (optH - pH) / 2; linarith⟩
  · intro f hf
    rcases List.mem_append.mp hf with hf1 | hf1
    · obtain ⟨k, hk, hon, hxb⟩ := hloc' f hf1
      exact ⟨k, by rw [List.length_append]; omega, hon, hxb⟩
    · rw [List.mem_singleton] at hf1
      subst hf1
      refine ⟨st.shelves.length, hlen, ?_, ?_⟩
      · rw [List.get_eq_getElem, hgetS]
        exact honF
      · rw [List.get_eq_getElem, hgetS]
  · intro k hk
    rw [List.pairwise_append]
    by_cases hkl : k < st.shelves.length
    · have hgetk : (st.shelves ++ [(⟨newY, optH, p + pW + p, mW⟩ : Shelf)]).get ⟨k, hk⟩ =
          st.shelves.get ⟨k, hkl⟩ := by
        rw [List.get_eq_getElem, List.get_eq_getElem, List.getElem_append_left hkl]
      rw [hgetk]
      refine ⟨(inv.sameShelfX k hkl), by simp, ?_⟩
      · intro a ha b hb
        rw [List.mem_singleton] at hb
        subst hb
        intro hona honb
        -- the new frame lies on the new shelf, not on shelf `k`
        exfalso
        have honb2 : onShelf ((st.shelves ++
            [(⟨newY, optH, p + pW + p, mW⟩ : Shelf)]).get ⟨k, hk⟩)
            (⟨item.name, p, newY + (optH - pH) / 2, pW, pH,
              item.width, item.height, 0, 0, rot⟩ : Frame) := by
          rw [hgetk]
          exact honb
        have honbS : onShelf ((st.shelves ++
            [(⟨newY, optH, p + pW + p, mW⟩ : Shelf)]).get ⟨st.shelves.length, hlen⟩)
            (⟨item.name, p, newY + (optH - pH) / 2, pW, pH,
              item.width, item.height, 0, 0, rot⟩ : Frame) := by
          rw [List.get_eq_getElem, hgetS]
          exact honF
        have := onShelf_unique p hp _ hchain' hpos' _ hph0 k st.shelves.length
          (by rw [List.length_append]; omega) hlen honb2 honbS
        omega
    · have hkeq : k = st.shelves.length := by
        rw [List.length_append] at hk
        simp at hk
        omega
      refine ⟨?_, by simp, ?_⟩
      · -- no old frame lies on the new shelf
        refine List.pairwise_of_forall_mem_list ?_
        intro a ha b hb hona honb
        exfalso
        obtain ⟨ka, hka, hona2, -⟩ := hloc' a ha
        have hkalt : ka < (st.shelves ++ [(⟨newY, optH, p + pW + p, mW⟩ : Shelf)]).length := by
          rw [List.length_append]; omega
        have := onShelf_unique p hp _ hchain' hpos' a (inv.framePos a ha).2.1
          ka k hkalt hk hona2 hona
        omega
      · intro a ha b hb hona honb
        exfalso
        obtain ⟨ka, hka, hona2, -⟩ := hloc' a ha
        have hkalt : ka < (st.shelves ++ [(⟨newY, optH, p + pW + p, mW⟩ : Shelf)]).length := by
          rw [List.length_append]; omega
        have := onShelf_unique p hp _ hchain' hpos' a (inv.framePos a ha).2.1
          ka k hkalt hk hona2 hona
        omega

/-- The merge-with-last-shelf placement preserves the sweep invariant when the
merged height dominates both the old shelf height and the placed height; the
frames already sitting exactly at the shelf top are re-centered downwards and
stay inside the grown shelf. -/
theorem mergePlace_inv (p : ℚ) (hp : 0 ≤ p) (st : SweepState) (item : Img) (rot : Bool)
    (last : Shelf) (hd optH : ℚ)
    (inv : ShelfInv p st.frames st.shelves)
    (hlast : st.shelves.getLast? = some last)
    (hpw0 : 0 < (if rot then item.height else item.width))
    (hph0 : 0 < (if rot then item.width else item.height))
    (hopt : (if rot then item.width else item.height) ≤ optH)
    (hlh : last.height ≤ optH)
    (hhd : hd = optH - last.height) :
    ShelfInv p (mergePlace p st item rot last hd optH).frames
      (mergePlace p st item rot last hd optH).shelves ∧
    (mergePlace p st item rot last hd optH).frames.map Frame.name
      = st.frames.map Frame.name ++ [item.name] ∧
    (mergePlace p st item rot last hd optH).newImages = st.newImages ∧
    (mergePlace p st item rot last hd optH).placedThisRound = true := by
  have hlen0 : 0 < st.shelves.length := by
    cases hsv : st.shelves with
    | nil => rw [hsv] at hlast; simp at hlast
    | cons a t => simp
  have hne : st.shelves ≠ [] := List.ne_nil_of_length_pos hlen0
  have hlastE : st.shelves[st.shelves.length - 1] = last := by
    rw [List.getLast?_eq_getElem?, List.getElem?_eq_getElem (by omega)] at hlast
    exact Option.some_inj.mp hlast
  have hlastmem : last ∈ st.shelves := hlastE ▸ List.getElem_mem (by omega)
  obtain ⟨hlh0, hlcx, hly⟩ := inv.shelfPos last hlastmem
  have hposS : ∀ s ∈ st.shelves, 0 < s.height := fun s hs => (inv.shelfPos s hs).1
  have hM : max last.height optH = optH := max_eq_right hlh
  have hyE : (optH - (optH - hd)) / 2 = (optH - last.height) / 2 := by rw [hhd]; ring
  unfold mergePlace
  dsimp only
  rw [hM, hyE, dropLast_append_set st.shelves _ hne]
  set pW := if rot then item.height else item.width with hpWd
  set pH := if rot then item.width else item.height with hpHd
  set yOff := (optH - last.height) / 2 with hyOffd
  have hyOff0 : 0 ≤ yOff := by rw [hyOffd]; linarith
  set φ := fun f : Frame => if f.y = last.y then { f with y := f.y + yOff } else f with hφd
  set F : Frame := ⟨item.name, last.currentX, last.y + (optH - pH) / 2, pW, pH,
    item.width, item.height, 0, 0, rot⟩ with hFd
  set S : Shelf := ⟨last.y, optH, last.currentX + pW + p, last.maxWidth⟩ with hSd
  have hφx : ∀ a : Frame, (φ a).x = a.x := by
    intro a
    simp only [hφd]
    by_cases hy : a.y = last.y
    · rw [if_pos hy]
    · rw [if_neg hy]
  have hφw : ∀ a : Frame, (φ a).width = a.width := by
    intro a
    simp only [hφd]
    by_cases hy : a.y = last.y
    · rw [if_pos hy]
    · rw [if_neg hy]
  have hφh : ∀ a : Frame, (φ a).height = a.height := by
    intro a
    simp only [hφd]
    by_cases hy : a.y = last.y
    · rw [if_pos hy]
    · rw [if_neg hy]
  have hφn : ∀ a : Frame, (φ a).name = a.name := by
    intro a
    simp only [hφd]
    by_cases hy : a.y = last.y
    · rw [if_pos hy]
    · rw [if_neg hy]
  have hφy : ∀ a : Frame, a.y ≤ (φ a).y := by
    intro a
    simp only [hφd]
    by_cases hy : a.y = last.y
    · rw [if_pos hy]
      show a.y ≤ a.y + yOff
      linarith
    · rw [if_neg hy]
  have hchain2 : (st.shelves.set (st.shelves.length - 1) S).Chain'
      (fun s t => t.y = s.y + s.height + p) := by
    refine chain_set p st.shelves (st.shelves.length - 1) _ (by omega) ?_ ?_ inv.chain
    · rw [List.get_eq_getElem, hlastE]
    · intro hcontra
      exact absurd hcontra (by omega)
  have hpos2 : ∀ s ∈ st.shelves.set (st.shelves.length - 1) S, 0 < s.height := by
    intro s hs
    rcases List.mem_or_eq_of_mem_set hs with hs1 | rfl
    · exact (inv.shelfPos s hs1).1
    · rw [hSd]
      show (0:ℚ) < optH
      linarith
  have hlen2 : (st.shelves.set (st.shelves.length - 1) S).length = st.shelves.length :=
    List.length_set st.shelves _ _
  -- the new frame sits on the grown last shelf
  have honF : onShelf ((st.shelves.set (st.shelves.length - 1) S).get
      ⟨st.shelves.length - 1, by omega⟩) F := by
    simp only [List.get_eq_getElem, List.getElem_set, if_true]
    constructor
    · show last.y ≤ last.y + (optH - pH) / 2
      linarith
    · show last.y + (optH - pH) / 2 + pH ≤ last.y + optH
      linarith
  -- per-frame transport to the new configuration
  have hkey : ∀ a ∈ st.frames, ∃ ka, ∃ hka : ka < st.shelves.length,
      onShelf ((st.shelves.set (st.shelves.length - 1) S).get ⟨ka, by omega⟩) (φ a) ∧
      onShelf (st.shelves.get ⟨ka, hka⟩) a ∧
      a.x + a.width + p ≤ (st.shelves.get ⟨ka, hka⟩).currentX ∧
      (φ a).x + (φ a).width + p ≤
        ((st.shelves.set (st.shelves.length - 1) S).get ⟨ka, by omega⟩).currentX := by
    intro a ha
    obtain ⟨ka, hka, hon, hxb⟩ := inv.located a ha
    by_cases hkidx : ka = st.shelves.length - 1
    · subst hkidx
      refine ⟨st.shelves.length - 1, by omega, ?_, hon, hxb, ?_⟩
      · simp only [List.get_eq_getElem, List.getElem_set, if_true]
        rw [List.get_eq_getElem, hlastE] at hon
        simp only [hφd]
        by_cases hy : a.y = last.y
        · rw [if_pos hy]
          have hah : a.height ≤ last.height := by
            obtain ⟨h1, h2⟩ := hon
            linarith
          constructor
          · show last.y ≤ a.y + yOff
            rw [hy]
            linarith
          · show a.y + yOff + a.height ≤ last.y + optH
            rw [hy, hyOffd]
            linarith
        · rw [if_neg hy]
          obtain ⟨h1, h2⟩ := hon
          exact ⟨h1, by show a.y + a.height ≤ last.y + optH; linarith⟩
      · simp only [List.get_eq_getElem, List.getElem_set, if_true]
        rw [List.get_eq_getElem, hlastE] at hxb
        rw [hφx, hφw]
        show a.x + a.width + p ≤ last.currentX + pW + p
        linarith
    · have hklt : ka < st.shelves.length - 1 := by omega
      have hynot : a.y ≠ last.y := by
        have hy := (frame_y_lt_of_shelf_lt p hp st.shelves inv.chain hposS a
          (inv.framePos a ha).2.1 ka (st.shelves.length - 1) hka (by omega) hklt hon).2
        rw [List.get_eq_getElem, hlastE] at hy
        exact ne_of_lt hy
      have hφa : φ a = a := by
        simp only [hφd]
        rw [if_neg hynot]
      refine ⟨ka, hka, ?_, hon, hxb, ?_⟩
      · simp only [List.get_eq_getElem, List.getElem_set]
        rw [if_neg (by omega), hφa]
        rw [List.get_eq_getElem] at hon
        exact hon
      · simp only [List.get_eq_getElem, List.getElem_set]
        rw [if_neg (by omega), hφa]
        rw [List.get_eq_getElem] at hxb
        exact hxb
  refine ⟨?_, ?_, rfl, rfl⟩
  · constructor
    · exact hchain2
    · intro s hs
      rcases List.mem_or_eq_of_mem_set hs with hs1 | rfl
      · exact inv.shelfPos s hs1
      · rw [hSd]
        refine ⟨by show (0:ℚ) < optH; linarith,
          by show (0:ℚ) ≤ last.currentX + pW + p; linarith, hly⟩
    · intro f hf
      rcases List.mem_append.mp hf with hf1 | hf1
      · obtain ⟨a, ha, rfl⟩ := List.mem_map.mp hf1
        obtain ⟨h1, h2, h3, h4⟩ := inv.framePos a ha
        rw [hφw, hφh, hφx]
        exact ⟨h1, h2, h3, le_trans h4 (hφy a)⟩
      · rw [List.mem_singleton] at hf1
        subst hf1
        rw [hFd]
        refine ⟨hpw0, hph0, hlcx, by show (0:ℚ) ≤ last.y + (optH - pH) / 2; linarith⟩
    · intro f hf
      rcases List.mem_append.mp hf with hf1 | hf1
      · obtain ⟨a, ha, rfl⟩ := List.mem_map.mp hf1
        obtain ⟨ka, hka, hon2, -, -, hxb2⟩ := hkey a ha
        exact ⟨ka, by omega, hon2, hxb2⟩
      · rw [List.mem_singleton] at hf1
        subst hf1
        refine ⟨st.shelves.length - 1, by omega, honF, ?_⟩
        simp only [List.get_eq_getElem, List.getElem_set, if_true]
        exact le_refl _
    · intro k hk
      rw [List.pairwise_append]
      refine ⟨?_, by simp, ?_⟩
      · rw [List.pairwise_map, List.pairwise_iff_get]
        intro i j hij hona honb
        have hpwk := inv.sameShelfX
        obtain ⟨ka, hka, hona2, honold_a, -, -⟩ := hkey _ (st.frames.get_mem i i.isLt)
        obtain ⟨kb, hkb, honb2, honold_b, -, -⟩ := hkey _ (st.frames.get_mem j j.isLt)
        have hka_k : ka = k := onShelf_unique p hp _ hchain2 hpos2 _
          (by rw [hφh]; exact (inv.framePos _ (st.frames.get_mem i i.isLt)).2.1)
          ka k (by omega) hk hona2 hona
        have hkb_k : kb = k := onShelf_unique p hp _ hchain2 hpos2 _
          (by rw [hφh]; exact (inv.framePos _ (st.frames.get_mem j j.isLt)).2.1)
          kb k (by omega) hk honb2 honb
        have hkab : ka = kb := by omega
        subst hkab
        have hpw2 := inv.sameShelfX ka hka
        rw [List.pairwise_iff_get] at hpw2
        have hxd := hpw2 i j hij honold_a (by
          have := honold_b
          exact this)
        rcases hxd with hxd | hxd
        · exact Or.inl (by rw [hφx, hφw, hφx]; exact hxd)
        · exact Or.inr (by rw [hφx, hφw, hφx]; exact hxd)
      · intro a ha b hb
        rw [List.mem_singleton] at hb
        subst hb
        intro hona honb
        obtain ⟨a0, ha0, rfl⟩ := List.mem_map.mp ha
        obtain ⟨ka, hka, hona2, -, hxbold, -⟩ := hkey a0 ha0
        have hk_last : k = st.shelves.length - 1 := onShelf_unique p hp _ hchain2 hpos2 F
          (by rw [hFd]; exact hph0) k (st.shelves.length - 1) hk (by omega) honb honF
        have hka_k : ka = k := onShelf_unique p hp _ hchain2 hpos2 _
          (by rw [hφh]; exact (inv.framePos a0 ha0).2.1) ka k (by omega) hk hona2 hona
        refine Or.inl ?_
        rw [hφx, hφw, hFd]
        show a0.x + a0.width + p ≤ last.currentX
        rw [List.get_eq_getElem] at hxbold
        have : st.shelves[ka] = last := by
          have he2 : ka = st.shelves.length - 1 := by omega
          subst he2
          exact hlastE
        rw [this] at hxbold
        exact hxbold
  · rw [List.map_append, List.map_map]
    have hmn : st.frames.map (Frame.name ∘ φ) = st.frames.map Frame.name :=
      List.map_congr_left (fun a _ => hφn a)
    rw [hmn]
    rw [hFd]
    rfl

/-- The new-shelf path preserves the sweep invariant whenever it succeeds
(given that the existing-shelf scan found no eligible shelf, which makes the
merged shelf strictly taller than the old last shelf). -/
theorem tryNewShelf_inv (p mW : ℚ) (hp : 0 ≤ p) (st : SweepState) (item : Img)
    (hw : 0 < item.width) (hh : 0 < item.height)
    (inv : ShelfInv p st.frames st.shelves)
    (hbs : findBestShelf p mW st.shelves item = none)
    (st' : SweepState) (he : tryNewShelf p mW st item = some st') :
    ShelfInv p st'.frames st'.shelves ∧
    st'.frames.map Frame.name = st.frames.map Frame.name ++ [item.name] ∧
    st'.newImages = st.newImages ∧ st'.placedThisRound = true := by
  have hdo0 := decideOrientation_spec p mW item
  unfold tryNewShelf at he
  rcases hdo0 with ⟨hdo, hdw, hdh⟩ | hdo <;>
      rw [hdo] at he <;>
      rcases hlast : st.shelves.getLast? with _ | lastShelf <;>
      rw [hlast] at he <;>
      dsimp only at he
  · -- rotated, empty shelf list
    split at he
    · exact absurd he (by simp)
    · split at he
      · exact absurd he (by simp)
      · rw [Option.some_inj] at he
        subst he
        exact createShelf_inv p mW hp st item p true item.height item.width
          (chooseOptimalHeight st.newImages item item.width) hh hw
          (chooseOptimalHeight_ge _ _ _) inv (by rw [hlast])
  · -- rotated, last shelf present
    split at he
    · exact absurd he (by simp)
    · split at he
      · exact absurd he (by simp)
      · split at he
        · rename_i h3
          rw [Option.some_inj] at he
          subst he
          obtain ⟨-, hnotR⟩ := findBestShelf_none p mW st.shelves item hbs lastShelf
            (List.mem_of_mem_getLast? hlast)
          have hlw : item.height ≤ mW - lastShelf.currentX - p := by linarith [h3.2]
          have hlh2 : lastShelf.height < item.width := by
            by_contra hcon
            exact hnotR ⟨hlw, le_of_not_lt hcon⟩
          have hopt2 := chooseOptimalHeight_ge st.newImages item item.width
          refine mergePlace_inv p hp st item true lastShelf _ _ inv hlast
            (by simpa using hh) (by simpa using hw) (by simpa using hopt2) (by linarith)
            (by rw [abs_of_nonpos (by linarith)]; ring)
        · rw [Option.some_inj] at he
          subst he
          exact createShelf_inv p mW hp st item (lastShelf.y + lastShelf.height + p) true
            item.height item.width (chooseOptimalHeight st.newImages item item.width) hh hw
            (chooseOptimalHeight_ge _ _ _) inv (by rw [hlast])
  · -- unrotated, empty shelf list
    split at he
    · exact absurd he (by simp)
    · split at he
      · exact absurd he (by simp)
      · rw [Option.some_inj] at he
        subst he
        exact createShelf_inv p mW hp st item p false item.width item.height
          (chooseOptimalHeight st.newImages item item.height) hw hh
          (chooseOptimalHeight_ge _ _ _) inv (by rw [hlast])
  · -- unrotated, last shelf present
    split at he
    · exact absurd he (by simp)
    · split at he
      · exact absurd he (by simp)
      · split at he
        · rename_i h3
          rw [Option.some_inj] at he
          subst he
          obtain ⟨hnotU, -⟩ := findBestShelf_none p mW st.shelves item hbs lastShelf
            (List.mem_of_mem_getLast? hlast)
          have hlw : item.width ≤ mW - lastShelf.currentX - p := by linarith [h3.2]
          have hlh2 : lastShelf.height < item.height := by
            by_contra hcon
            exact hnotU ⟨hlw, le_of_not_lt hcon⟩
          have hopt2 := chooseOptimalHeight_ge st.newImages item item.height
          refine mergePlace_inv p hp st item false lastShelf _ _ inv hlast
            (by simpa using hw) (by simpa using hh) (by simpa using hopt2) (by linarith)
            (by rw [abs_of_nonpos (by linarith)]; ring)
        · rw [Option.some_inj] at he
          subst he
          exact createShelf_inv p mW hp st item (lastShelf.y + lastShelf.height + p) false
            item.width item.height (chooseOptimalHeight st.newImages item item.height) hw hh
            (chooseOptimalHeight_ge _ _ _) inv (by rw [hlast])

/-- Processing one item of a sweep: on success the invariant is preserved, the
item's frame is appended, `newImages` is untouched and `placedThisRound` is
set. -/
theorem processItem_spec (p mW : ℚ) (hp : 0 ≤ p) (st : SweepState) (item : Img)
    (hw : 0 < item.width) (hh : 0 < item.height)
    (inv : ShelfInv p st.frames st.shelves)
    (st' : SweepState) (he : processItem p mW st item = some st') :
    ShelfInv p st'.frames st'.shelves ∧
    st'.frames.map Frame.name = st.frames.map Frame.name ++ [item.name] ∧
    st'.newImages = st.newImages ∧ st'.placedThisRound = true := by
  unfold processItem at he
  split at he
  · exact absurd he (by simp)
  · rcases hbs : findBestShelf p mW st.shelves item with _ | ⟨idx, rot, sc, wa⟩ <;>
        rw [hbs] at he <;> dsimp only at he
    · exact tryNewShelf_inv p mW hp st item hw hh inv hbs st' he
    · rw [Option.some_inj] at he
      subst he
      exact placeOnShelf_inv p mW hp st item hw hh idx rot sc wa inv hbs

/-- A fold of the sweep step from a failed accumulator stays failed. -/
theorem sweepFold_none (p mW : ℚ) : ∀ (l : List Img),
    l.foldl (fun acc item => acc.bind (fun s => processItem p mW s item)) none = none
  | [] => rfl
  | x :: l => by
    rw [List.foldl_cons]
    exact sweepFold_none p mW l

/-- The new-shelf path never touches the deferred-image list. -/
theorem tryNewShelf_newImages (p mW : ℚ) (st : SweepState) (item : Img)
    (st' : SweepState) (he : tryNewShelf p mW st item = some st') :
    st'.newImages = st.newImages := by
  unfold tryNewShelf at he
  rcases hlast : st.shelves.getLast? with _ | lastShelf <;> rw [hlast] at he <;> dsimp only at he
  · split at he
    · exact absurd he (by simp)
    · split at he
      · exact absurd he (by simp)
      · rw [Option.some_inj] at he
        subst he
        rfl
  · split at he
    · exact absurd he (by simp)
    · split at he
      · exact absurd he (by simp)
      · split at he
        · rw [Option.some_inj] at he
          subst he
          rfl
        · rw [Option.some_inj] at he
          subst he
          rfl

/-- Processing an item never touches the deferred-image list: every
non-failing path places the item, so the deferral branch of the source is
dead code. -/
theorem processItem_newImages (p mW : ℚ) (st : SweepState) (item : Img)
    (st' : SweepState) (he : processItem p mW st item = some st') :
    st'.newImages = st.newImages := by
  unfold processItem at he
  split at he
  · exact absurd he (by simp)
  · rcases hbs : findBestShelf p mW st.shelves item with _ | ⟨idx, rot, sc, wa⟩ <;>
        rw [hbs] at he <;> dsimp only at he
    · exact tryNewShelf_newImages p mW st item st' he
    · rw [Option.some_inj] at he
      subst he
      unfold placeOnShelf
      split <;> rfl

/-- A whole sweep never touches the deferred-image list. -/
theorem sweepImages_newImages (p mW : ℚ) : ∀ (images : List Img) (st st' : SweepState),
    sweepImages p mW images st = some st' → st'.newImages = st.newImages
  | [], st, st', he => by
    unfold sweepImages at he
    simp at he
    subst he
    rfl
  | item :: rest, st, st', he => by
    unfold sweepImages at he
    rw [List.foldl_cons] at he
    have he2 : rest.foldl (fun acc item => acc.bind (fun s => processItem p mW s item))
        (processItem p mW st item) = some st' := he
    rcases hpi : processItem p mW st item with _ | st1
    · rw [hpi, sweepFold_none] at he2
      exact absurd he2 (by simp)
    · rw [hpi] at he2
      rw [sweepImages_newImages p mW rest st1 st' he2]
      exact processItem_newImages p mW st item st1 hpi

/-- One sweep over an image list: the invariant is preserved, the images are
appended in order, the deferred list is untouched, and something was placed
whenever the list was non-empty. -/
theorem sweepImages_spec (p mW : ℚ) (hp : 0 ≤ p) :
    ∀ (images : List Img) (st : SweepState),
      (∀ img ∈ images, 0 < img.width ∧ 0 < img.height) →
      ShelfInv p st.frames st.shelves →
      ∀ st', sweepImages p mW images st = some st' →
        ShelfInv p st'.frames st'.shelves ∧
        st'.frames.map Frame.name = st.frames.map Frame.name ++ images.map Img.name ∧
        st'.newImages = st.newImages ∧
        (images = [] → st' = st) ∧
        (images ≠ [] → st'.placedThisRound = true)
  | [], st, hpos, inv, st', he => by
    unfold sweepImages at he
    simp at he
    subst he
    exact ⟨inv, by simp, rfl, fun _ => rfl, fun hne => absurd rfl hne⟩
  | item :: rest, st, hpos, inv, st', he => by
    unfold sweepImages at he
    rw [List.foldl_cons] at he
    have he2 : rest.foldl (fun acc item => acc.bind (fun s => processItem p mW s item))
        (processItem p mW st item) = some st' := he
    rcases hpi : processItem p mW st item with _ | st1
    · rw [hpi, sweepFold_none] at he2
      exact absurd he2 (by simp)
    · rw [hpi] at he2
      obtain ⟨inv1, hn1, hni1, hpl1⟩ := processItem_spec p mW hp st item
        (hpos item (by simp)).1 (hpos item (by simp)).2 inv st1 hpi
      obtain ⟨inv2, hn2, hni2, hemp2, hpl2⟩ := sweepImages_spec p mW hp rest st1
        (fun i hi => hpos i (by simp [hi])) inv1 st' he2
      refine ⟨inv2, ?_, by rw [hni2, hni1], ?_, ?_⟩
      · rw [hn2, hn1]
        simp
      · intro hcontra
        exact absurd hcontra (by simp)
      · intro _
        by_cases hrest : rest = []
        · rw [hemp2 hrest]
          exact hpl1
        · exact hpl2 hrest

/-- The whole Shelf run is equivalent to its first sweep: since no item is
ever deferred, the retry rounds of the source can never process anything. -/
theorem packImagesInternal_eq_sweep (images : List Img) (p mW : ℚ) :
    packImagesInternal images p mW =
      match sweepImages p mW images ⟨[], [], [], false⟩ with
      | none => none
      | some st => some ⟨st.frames, (layoutBounds p st.frames).1,
          (layoutBounds p st.frames).2⟩ := by
  unfold packImagesInternal
  have hshr : shelfRounds p mW 0 images [] [] =
      match sweepImages p mW images ⟨[], [], [], false⟩ with
      | none => none
      | some st => some (st.frames, st.shelves) := by
    by_cases hemp : images.isEmpty = true
    · have himgs : images = [] := List.isEmpty_iff.mp hemp
      subst himgs
      unfold shelfRounds
      rw [dif_pos (Or.inl hemp)]
      rfl
    · unfold shelfRounds
      rw [dif_neg (by rw [not_or]; exact ⟨hemp, by simp [maxAttempts]⟩)]
      rcases hsw : sweepImages p mW images ⟨[], [], [], false⟩ with _ | st <;> dsimp only
      have hni : st.newImages = [] := sweepImages_newImages p mW images _ st hsw
      by_cases hpl : st.placedThisRound = false
      · rw [if_pos hpl]
      · rw [if_neg hpl]
        rw [hni]
        simp only [List.isEmpty_nil, not_true_eq_false, false_and, if_false]
        unfold shelfRounds
        rw [dif_pos (Or.inl List.isEmpty_nil)]
  rw [hshr]
  rcases hsw : sweepImages p mW images ⟨[], [], [], false⟩ with _ | st <;> rfl

/-- A successful Shelf run: padded frames are pairwise disjoint, one frame
per input image in order, and every frame lies inside the final bounds. -/
theorem packImagesInternal_spec (images : List Img) (p mW : ℚ) (hp : 0 ≤ p)
    (hpos : ∀ img ∈ images, 0 < img.width ∧ 0 < img.height)
    (L : Layout) (he : packImagesInternal images p mW = some L) :
    framesDisjoint p L.frames ∧
    L.frames.map Frame.name = images.map Img.name ∧
    (∀ f ∈ L.frames, 0 ≤ f.x ∧ 0 ≤ f.y ∧
      f.x + f.width ≤ L.width ∧ f.y + f.height ≤ L.height) := by
  rw [packImagesInternal_eq_sweep] at he
  rcases hsw : sweepImages p mW images ⟨[], [], [], false⟩ with _ | st <;> rw [hsw] at he <;>
      dsimp only at he
  · exact absurd he (by simp)
  · rw [Option.some_inj] at he
    subst he
    have hinv0 : ShelfInv p ([] : List Frame) ([] : List Shelf) := by
      refine ⟨List.chain'_nil, ?_, ?_, ?_, ?_⟩ <;> simp
    obtain ⟨inv2, hnames, -, -, -⟩ := sweepImages_spec p mW hp images ⟨[], [], [], false⟩
      hpos hinv0 st hsw
    refine ⟨shelfInv_disjoint p hp _ _ inv2, by simpa using hnames, ?_⟩
    intro f hf
    obtain ⟨h1, h2, h3, h4⟩ := inv2.framePos f hf
    obtain ⟨hb, -, -⟩ := layoutBounds_bound p st.frames
    obtain ⟨hb1, hb2⟩ := hb f hf
    exact ⟨h3, h4, by linarith, by linarith⟩

/-! ### Best-result selection of the grid-search orchestrators -/

theorem totalImgArea_nonneg (images : List Img)
    (h : ∀ i ∈ images, 0 ≤ i.width ∧ 0 ≤ i.height) : 0 ≤ totalImgArea images := by
  unfold totalImgArea
  suffices H : ∀ (l : List Img) (init : ℚ), (∀ i ∈ l, 0 ≤ i.width ∧ 0 ≤ i.height) → 0 ≤ init →
      0 ≤ l.foldl (fun sum img => sum + img.width * img.height) init from
    H images 0 h (le_refl 0)
  intro l
  induction l with
  | nil => exact fun init _ h0 => h0
  | cons x xs ih =>
    intro init hl h0
    rw [List.foldl_cons]
    refine ih _ (fun i hi => hl i (by simp [hi])) ?_
    have hx := hl x (by simp)
    have hxm : 0 ≤ x.width * x.height := mul_nonneg hx.1 hx.2
    linarith

theorem effOf_nonneg (images : List Img) (L : Layout)
    (hA : 0 ≤ totalImgArea images) (hw : 0 ≤ L.width) (hh : 0 ≤ L.height) :
    0 ≤ effOf images L := by
  have h := div_nonneg hA (mul_nonneg hw hh)
  show (0:ℚ) ≤ totalImgArea images / (L.width * L.height) * 100
  linarith

/-- Exhaustive case analysis of one step of the best-result selection. -/
theorem bestStep_cases (images : List Img) (acc : Option (Layout × ℚ × ℚ)) (c : Option Layout) :
    (c = none ∧ bestStep images acc c = acc) ∨
    (∃ L, c = some L ∧ acc = none ∧ 0 ≤ effOf images L ∧
      bestStep images acc c = some (L, effOf images L, areaOf L)) ∨
    (∃ L, c = some L ∧ acc = none ∧ effOf images L < 0 ∧ bestStep images acc c = none) ∨
    (∃ L b0 e0 a0, c = some L ∧ acc = some (b0, e0, a0) ∧
      (effOf images L > e0 ∨ (effOf images L = e0 ∧ areaOf L < a0)) ∧
      bestStep images acc c = some (L, effOf images L, areaOf L)) ∨
    (∃ L b0 e0 a0, c = some L ∧ acc = some (b0, e0, a0) ∧
      effOf images L ≤ e0 ∧ (effOf images L = e0 → a0 ≤ areaOf L) ∧
      bestStep images acc c = acc) := by
  rcases c with _ | L
  · exact Or.inl ⟨rfl, rfl⟩
  · rcases acc with _ | ⟨b0, e0, a0⟩
    · by_cases hc : effOf images L > 0 ∨ effOf images L = 0
      · refine Or.inr (Or.inl ⟨L, rfl, rfl, ?_, ?_⟩)
        · rcases hc with h | h
          · linarith
          · exact h.ge
        · show bestStep images none (some L) = _
          unfold bestStep
          dsimp only
          rw [if_pos hc]
      · refine Or.inr (Or.inr (Or.inl ⟨L, rfl, rfl, ?_, ?_⟩))
        · push_neg at hc
          exact lt_of_le_of_ne hc.1 hc.2
        · show bestStep images none (some L) = _
          unfold bestStep
          dsimp only
          rw [if_neg hc]
    · by_cases hc : effOf images L > e0 ∨ (effOf images L = e0 ∧ areaOf L < a0)
      · refine Or.inr (Or.inr (Or.inr (Or.inl ⟨L, b0, e0, a0, rfl, rfl, hc, ?_⟩)))
        show bestStep images (some (b0, e0, a0)) (some L) = _
        unfold bestStep
        dsimp only
        rw [if_pos hc]
      · refine Or.inr (Or.inr (Or.inr (Or.inr ⟨L, b0, e0, a0, rfl, rfl, ?_, ?_, ?_⟩)))
        · push_neg at hc
          exact hc.1
        · push_neg at hc
          exact hc.2
        · show bestStep images (some (b0, e0, a0)) (some L) = _
          unfold bestStep
          dsimp only
          rw [if_neg hc]

/-- The fold of the best-result selection is `none` exactly when the
accumulator starts `none` and every candidate is `none` (given that all
candidate efficiencies are nonnegative, as they are for both packers). -/
theorem bestStep_none_iff (images : List Img) :
    ∀ (l : List (Option Layout)) (acc : Option (Layout × ℚ × ℚ)),
    (∀ L : Layout, some L ∈ l → 0 ≤ effOf images L) →
    (l.foldl (bestStep images) acc = none ↔ acc = none ∧ ∀ c ∈ l, c = none)
  | [], acc, hnn => by simp
  | c :: l, acc, hnn => by
    rw [List.foldl_cons, bestStep_none_iff images l (bestStep images acc c)
      (fun L hL => hnn L (List.mem_cons_of_mem _ hL))]
    constructor
    · rintro ⟨h1, h2⟩
      rcases bestStep_cases images acc c with ⟨hcn, hstep⟩ | ⟨L, hcL, haccn, h0, hstep⟩ |
          ⟨L, hcL, haccn, hneg, hstep⟩ | ⟨L, b0, e0, a0, hcL, haccs, hcond, hstep⟩ |
          ⟨L, b0, e0, a0, hcL, haccs, hle, him, hstep⟩
      · rw [hstep] at h1
        refine ⟨h1, fun x hx => ?_⟩
        rcases List.mem_cons.mp hx with h3 | h3
        · rw [h3, hcn]
        · exact h2 x h3
      · rw [hstep] at h1
        exact absurd h1 (by simp)
      · exact absurd (hnn L (by rw [← hcL]; exact List.mem_cons_self _ _)) (by linarith)
      · rw [hstep] at h1
        exact absurd h1 (by simp)
      · rw [hstep, haccs] at h1
        exact absurd h1 (by simp)
    · rintro ⟨h1, h2⟩
      have hcn : c = none := h2 c (List.mem_cons_self _ _)
      rcases bestStep_cases images acc c with ⟨-, hstep⟩ | ⟨L, hcL, -, -, -⟩ |
          ⟨L, hcL, -, -, -⟩ | ⟨L, b0, e0, a0, hcL, -, -, -⟩ | ⟨L, b0, e0, a0, hcL, -, -, -⟩
      · rw [hstep]
        exact ⟨h1, fun x hx => h2 x (List.mem_cons_of_mem _ hx)⟩
      · rw [hcn] at hcL
        exact absurd hcL (by simp)
      · rw [hcn] at hcL
        exact absurd hcL (by simp)
      · rw [hcn] at hcL
        exact absurd hcL (by simp)
      · rw [hcn] at hcL
        exact absurd hcL (by simp)

/-- The fold of the best-result selection returns a candidate together with
its exact efficiency and area, and that candidate is a lexicographic maximum
(highest efficiency, ties broken by smallest area). -/
theorem bestStep_max (images : List Img) :
    ∀ (l : List (Option Layout)) (acc : Option (Layout × ℚ × ℚ)),
    (∀ b e a, acc = some (b, e, a) → e = effOf images b ∧ a = areaOf b ∧ 0 ≤ e) →
    ∀ best be ba, l.foldl (bestStep images) acc = some (best, be, ba) →
      (be = effOf images best ∧ ba = areaOf best ∧ 0 ≤ be) ∧
      (acc = some (best, be, ba) ∨ some best ∈ l) ∧
      (∀ L : Layout, some L ∈ l →
        effOf images L ≤ be ∧ (effOf images L = be → ba ≤ areaOf L)) ∧
      (∀ b e a, acc = some (b, e, a) → e ≤ be ∧ (e = be → ba ≤ a))
  | [], acc, hacc, best, be, ba, he => by
    rw [List.foldl_nil] at he
    refine ⟨hacc best be ba he, Or.inl he, by simp, ?_⟩
    intro b e a ha
    rw [he] at ha
    have h := Option.some_inj.mp ha
    simp only [Prod.mk.injEq] at h
    obtain ⟨-, h2, h3⟩ := h
    exact ⟨h2.ge, fun _ => h3.le⟩
  | c :: l, acc, hacc, best, be, ba, he => by
    rw [List.foldl_cons] at he
    rcases bestStep_cases images acc c with ⟨hcn, hstep⟩ | ⟨L, hcL, haccn, h0, hstep⟩ |
        ⟨L, hcL, haccn, hneg, hstep⟩ | ⟨L, b0, e0, a0, hcL, haccs, hcond, hstep⟩ |
        ⟨L, b0, e0, a0, hcL, haccs, hle, him, hstep⟩
    · rw [hstep] at he
      obtain ⟨hb, ho, hm, hab⟩ := bestStep_max images l acc hacc best be ba he
      refine ⟨hb, ?_, ?_, hab⟩
      · rcases ho with ho | ho
        · exact Or.inl ho
        · exact Or.inr (List.mem_cons_of_mem _ ho)
      · intro M hM
        rcases List.mem_cons.mp hM with h1 | h1
        · rw [hcn] at h1
          exact absurd h1 (by simp)
        · exact hm M h1
    · rw [hstep] at he
      have hacc2 : ∀ b e a,
          (some (L, effOf images L, areaOf L) : Option (Layout × ℚ × ℚ)) = some (b, e, a) →
          e = effOf images b ∧ a = areaOf b ∧ 0 ≤ e := by
        intro b e a hsome
        have h := Option.some_inj.mp hsome
        simp only [Prod.mk.injEq] at h
        obtain ⟨h1, h2, h3⟩ := h
        subst h1
        subst h2
        subst h3
        exact ⟨rfl, rfl, h0⟩
      obtain ⟨hb, ho, hm, hab⟩ := bestStep_max images l _ hacc2 best be ba he
      refine ⟨hb, ?_, ?_, ?_⟩
      · rcases ho with ho | ho
        · have h := Option.some_inj.mp ho
          simp only [Prod.mk.injEq] at h
          obtain ⟨h1, -, -⟩ := h
          subst h1
          rw [hcL]
          exact Or.inr (List.mem_cons_self _ _)
        · exact Or.inr (List.mem_cons_of_mem _ ho)
      · intro M hM
        rcases List.mem_cons.mp hM with h1 | h1
        · rw [hcL, Option.some_inj] at h1
          rw [h1]
          exact hab L (effOf images L) (areaOf L) rfl
        · exact hm M h1
      · intro b e a ha
        rw [haccn] at ha
        exact absurd ha (by simp)
    · rw [hstep] at he
      have hacc2 : ∀ b e a, (none : Option (Layout × ℚ × ℚ)) = some (b, e, a) →
          e = effOf images b ∧ a = areaOf b ∧ 0 ≤ e := by
        intro b e a h
        exact absurd h (by simp)
      obtain ⟨hb, ho, hm, hab⟩ := bestStep_max images l none hacc2 best be ba he
      refine ⟨hb, ?_, ?_, ?_⟩
      · rcases ho with ho | ho
        · exact absurd ho (by simp)
        · exact Or.inr (List.mem_cons_of_mem _ ho)
      · intro M hM
        rcases List.mem_cons.mp hM with h1 | h1
        · rw [hcL, Option.some_inj] at h1
          rw [h1]
          constructor
          · linarith [hb.2.2]
          · intro heq
            exfalso
            linarith [hb.2.2]
        · exact hm M h1
      · intro b e a ha
        rw [haccn] at ha
        exact absurd ha (by simp)
    · rw [hstep] at he
      obtain ⟨-, he0, ha0⟩ := hacc b0 e0 a0 haccs
      have h0L : 0 ≤ effOf images L := by
        rcases hcond with h | h
        · linarith
        · linarith [h.1.ge]
      have hacc2 : ∀ b e a,
          (some (L, effOf images L, areaOf L) : Option (Layout × ℚ × ℚ)) = some (b, e, a) →
          e = effOf images b ∧ a = areaOf b ∧ 0 ≤ e := by
        intro b e a hsome
        have h := Option.some_inj.mp hsome
        simp only [Prod.mk.injEq] at h
        obtain ⟨h1, h2, h3⟩ := h
        subst h1
        subst h2
        subst h3
        exact ⟨rfl, rfl, h0L⟩
      obtain ⟨hb, ho, hm, hab⟩ := bestStep_max images l _ hacc2 best be ba he
      have habL := hab L (effOf images L) (areaOf L) rfl
      refine ⟨hb, ?_, ?_, ?_⟩
      · rcases ho with ho | ho
        · have h := Option.some_inj.mp ho
          simp only [Prod.mk.injEq] at h
          obtain ⟨h1, -, -⟩ := h
          subst h1
          rw [hcL]
          exact Or.inr (List.mem_cons_self _ _)
        · exact Or.inr (List.mem_cons_of_mem _ ho)
      · intro M hM
        rcases List.mem_cons.mp hM with h1 | h1
        · rw [hcL, Option.some_inj] at h1
          rw [h1]
          exact habL
        · exact hm M h1
      · intro b e a ha
        rw [haccs] at ha
        have h := Option.some_inj.mp ha
        simp only [Prod.mk.injEq] at h
        obtain ⟨-, h2, h3⟩ := h
        subst h2
        subst h3
        have he0L : e0 ≤ effOf images L := by
          rcases hcond with h | h
          · linarith
          · linarith [h.1.ge]
        constructor
        · linarith [habL.1]
        · intro heq
          have heLbe : effOf images L = be := le_antisymm habL.1 (by linarith)
          have hbaL : ba ≤ areaOf L := habL.2 heLbe
          have heLe0 : effOf images L = e0 := by linarith
          rcases hcond with h | h
          · exfalso
            linarith
          · linarith [h.2]
    · rw [hstep] at he
      obtain ⟨-, -, ha0⟩ := hacc b0 e0 a0 haccs
      obtain ⟨hb, ho, hm, hab⟩ := bestStep_max images l acc hacc best be ba he
      have habacc := hab b0 e0 a0 haccs
      refine ⟨hb, ?_, ?_, hab⟩
      · rcases ho with ho | ho
        · exact Or.inl ho
        · exact Or.inr (List.mem_cons_of_mem _ ho)
      · intro M hM
        rcases List.mem_cons.mp hM with h1 | h1
        · rw [hcL, Option.some_inj] at h1
          rw [h1]
          constructor
          · linarith [habacc.1]
          · intro heq
            have he0be : e0 = be := le_antisymm habacc.1 (by linarith)
            have heLe0 : effOf images L = e0 := by linarith
            have hba0 : ba ≤ a0 := habacc.2 he0be
            have haL : a0 ≤ areaOf L := him heLe0
            linarith
        · exact hm M h1

theorem mem_gridCandidates (corePack : List Img → ℚ → ℚ → Option Layout)
    (images : List Img) (p : ℚ) (u : Bool) (widths : List ℚ)
    (strats : List (Img → Img → Bool)) (c : Option Layout) :
    c ∈ gridCandidates corePack images p u widths strats ↔
      ∃ w ∈ widths, ∃ s ∈ strats, evalPair corePack images p u w s = c := by
  unfold gridCandidates
  rw [List.mem_flatMap]
  constructor
  · rintro ⟨w, hw, hc⟩
    rw [List.mem_map] at hc
    obtain ⟨s, hs, he⟩ := hc
    exact ⟨w, hw, s, hs, he⟩
  · rintro ⟨w, hw, s, hs, he⟩
    exact ⟨w, hw, List.mem_map.mpr ⟨s, hs, he⟩⟩

/-- An `evalPair` result has nonnegative dimensions whenever the core packer
produces nonnegative dimensions. -/
theorem evalPair_dims (corePack : List Img → ℚ → ℚ → Option Layout)
    (images : List Img) (p : ℚ) (u : Bool) (w : ℚ) (strat : Img → Img → Bool)
    (hcore : ∀ imgs mw L, corePack imgs p mw = some L → 0 ≤ L.width ∧ 0 ≤ L.height)
    (L : Layout) (he : evalPair corePack images p u w strat = some L) :
    0 ≤ L.width ∧ 0 ≤ L.height := by
  unfold evalPair at he
  rcases hc : corePack (sortStable strat images) p w with _ | R <;> rw [hc] at he <;>
      dsimp only at he
  · exact absurd he (by simp)
  · split at he
    · split at he
      · exact absurd he (by simp)
      · rw [Option.some_inj] at he
        subst he
        constructor
        · show (0:ℚ) ≤ nextPowerOf2 R.width
          unfold nextPowerOf2
          positivity
        · show (0:ℚ) ≤ nextPowerOf2 R.height
          unfold nextPowerOf2
          positivity
    · rw [Option.some_inj] at he
      subst he
      exact hcore _ _ _ hc

/-- One MaxRectangles run produces nonnegative bounding dimensions. -/
theorem maxRectanglesPack_dims (images : List Img) (p mw : ℚ) (hp : 0 ≤ p)
    (L : Layout) (he : maxRectanglesPack images p mw = some L) :
    0 ≤ L.width ∧ 0 ≤ L.height := by
  unfold maxRectanglesPack at he
  rcases hplace : maxRectanglesPlace p images [⟨0, 0, mw, 4096⟩] [] with _ | frames <;>
      rw [hplace] at he <;> dsimp only at he
  · exact absurd he (by simp)
  · rw [Option.some_inj] at he
    subst he
    obtain ⟨-, h1, h2⟩ := layoutBounds_bound p frames
    exact ⟨by linarith, by linarith⟩

/-- One Shelf run produces nonnegative bounding dimensions. -/
theorem packImagesInternal_dims (images : List Img) (p mw : ℚ) (hp : 0 ≤ p)
    (L : Layout) (he : packImagesInternal images p mw = some L) :
    0 ≤ L.width ∧ 0 ≤ L.height := by
  unfold packImagesInternal at he
  rcases hr : shelfRounds p mw 0 images [] [] with _ | ⟨frames, sh⟩ <;> rw [hr] at he <;>
      dsimp only at he
  · exact absurd he (by simp)
  · rw [Option.some_inj] at he
    subst he
    obtain ⟨-, h1, h2⟩ := layoutBounds_bound p frames
    exact ⟨by linarith, by linarith⟩

/-- The shared best-result selection: failure exactly when every grid point
fails, and success returns a grid candidate of maximal efficiency with ties
broken by smaller bounding area. -/
theorem selectBest_spec (corePack : List Img → ℚ → ℚ → Option Layout)
    (images : List Img) (p : ℚ) (u : Bool) (widths : List ℚ)
    (strats : List (Img → Img → Bool))
    (hnn : ∀ L : Layout, some L ∈ gridCandidates corePack images p u widths strats →
      0 ≤ effOf images L) :
    (selectBest corePack images p u widths strats = none ↔
      ∀ w ∈ widths, ∀ s ∈ strats, evalPair corePack images p u w s = none) ∧
    (∀ L, selectBest corePack images p u widths strats = some L →
      (∃ w ∈ widths, ∃ s ∈ strats, evalPair corePack images p u w s = some L) ∧
      ∀ M : Layout, ∀ w ∈ widths, ∀ s ∈ strats,
        evalPair corePack images p u w s = some M →
        effOf images M ≤ effOf images L ∧
        (effOf images M = effOf images L → areaOf L ≤ areaOf M)) := by
  constructor
  · unfold selectBest
    rw [Option.map_eq_none']
    rw [bestStep_none_iff images _ none hnn]
    constructor
    · rintro ⟨-, h2⟩
      intro w hw s hs
      exact h2 _ ((mem_gridCandidates corePack images p u widths strats _).mpr
        ⟨w, hw, s, hs, rfl⟩)
    · intro h
      refine ⟨rfl, fun c hc => ?_⟩
      obtain ⟨w, hw, s, hs, he⟩ := (mem_gridCandidates corePack images p u widths strats c).mp hc
      rw [← he]
      exact h w hw s hs
  · intro L hL
    unfold selectBest at hL
    rcases hf : (gridCandidates corePack images p u widths strats).foldl
        (bestStep images) none with _ | ⟨b, e, a⟩
    · rw [hf] at hL
      exact absurd hL (by simp)
    · rw [hf] at hL
      simp only [Option.map_some', Option.some_inj] at hL
      obtain ⟨hb, ho, hm, -⟩ := bestStep_max images _ none
        (fun b e a h => absurd h (by simp)) b e a hf
      rcases ho with ho | ho
      · exact absurd ho (by simp)
      · subst hL
        constructor
        · exact (mem_gridCandidates corePack images p u widths strats _).mp ho
        · intro M w hw s hs heM
          have hMmem : some M ∈ gridCandidates corePack images p u widths strats :=
            (mem_gridCandidates corePack images p u widths strats _).mpr ⟨w, hw, s, hs, heM⟩
          obtain ⟨hle, him⟩ := hm M hMmem
          rw [hb.1] at hle him
          exact ⟨hle, fun hq => hb.2.1 ▸ him hq⟩

/-! ### Grouping conservation -/

theorem addToBucket_flatten (key : String) (img : Img) :
    ∀ (buckets : List (String × List Img)),
      ((addToBucket buckets key img).flatMap (fun b => b.2)).Perm
        ((buckets.flatMap (fun b => b.2)) ++ [img])
  | [] => by simp [addToBucket]
  | (k, items) :: rest => by
    unfold addToBucket
    by_cases hk : k = key
    · rw [if_pos hk]
      rw [List.flatMap_cons .., List.flatMap_cons ..]
      dsimp only
      rw [List.append_assoc, List.append_assoc]
      exact List.Perm.append_left items List.perm_append_comm
    · rw [if_neg hk]
      rw [List.flatMap_cons .., List.flatMap_cons ..]
      dsimp only
      rw [List.append_assoc]
      exact List.Perm.append_left items (addToBucket_flatten key img rest)

theorem foldl_addToBucket_flatten (f : Img → String) :
    ∀ (l : List Img) (acc : List (String × List Img)),
      ((l.foldl (fun bs img => addToBucket bs (f img) img) acc).flatMap (fun b => b.2)).Perm
        ((acc.flatMap (fun b => b.2)) ++ l)
  | [], acc => by simp
  | x :: xs, acc => by
    rw [List.foldl_cons]
    refine (foldl_addToBucket_flatten f xs (addToBucket acc (f x) x)).trans ?_
    have h2 := (addToBucket_flatten (f x) x acc).append_right xs
    refine h2.trans ?_
    rw [List.append_assoc]
    exact List.Perm.refl _

/-- The size-tier pass partitions the input images. -/
theorem groupBySize_flatten (images : List Img) :
    ((groupBySize images).flatMap Group.items).Perm images := by
  unfold groupBySize
  dsimp only
  rw [List.flatMap_map]
  have h2 := foldl_addToBucket_flatten (fun img => getSizeCategory (img.width * img.height))
    images []
  simpa using h2

/-- The aspect-ratio refinement pass partitions each group. -/
theorem refineGroups_flatten (gs : List Group) :
    ((refineGroupsByAspectRatio gs).flatMap Group.items).Perm (gs.flatMap Group.items) := by
  unfold refineGroupsByAspectRatio
  rw [List.flatMap_assoc]
  induction gs with
  | nil => simp
  | cons g rest ih =>
    rw [List.flatMap_cons .., List.flatMap_cons ..]
    refine List.Perm.append ?_ ih
    dsimp only
    rw [List.flatMap_map]
    have h2 := foldl_addToBucket_flatten
      (fun img => g.name ++ "_" ++ getAspectRatioCategory img.width img.height) g.items []
    simpa using h2

/-- The pairing loop splits its input exactly into the merged pairs and the
leftover. -/
theorem pairSmalls_flatten : ∀ (l : List Group),
    ((pairSmalls l).1.flatMap Group.items) ++ ((pairSmalls l).2.flatMap Group.items) =
      l.flatMap Group.items
  | [] => by simp [pairSmalls]
  | [g] => by simp [pairSmalls]
  | g1 :: g2 :: rest => by
    have ih := pairSmalls_flatten rest
    show ((⟨g1.name ++ "+" ++ g2.name, g1.items ++ g2.items,
        mergeStrategies g1.strategy g2.strategy⟩ :: (pairSmalls rest).1).flatMap Group.items) ++
      ((pairSmalls rest).2.flatMap Group.items) = _
    rw [List.flatMap_cons ..]
    dsimp only
    rw [List.flatMap_cons .., List.flatMap_cons ..]
    rw [List.append_assoc, List.append_assoc, ih]

/-- The pairing loop leaves at most one leftover bucket. -/
theorem pairSmalls_snd : ∀ (l : List Group),
    (pairSmalls l).2 = [] ∨ ∃ g, (pairSmalls l).2 = [g]
  | [] => Or.inl rfl
  | [g] => Or.inr ⟨g, rfl⟩
  | g1 :: g2 :: rest => pairSmalls_snd rest

/-- Every merged pair contains at least two items when the incoming buckets
are non-empty. -/
theorem pairSmalls_fst_len : ∀ (l : List Group), (∀ g ∈ l, g.items ≠ []) →
    ∀ g ∈ (pairSmalls l).1, 2 ≤ g.items.length
  | [], _, g, hg => absurd hg (by simp [pairSmalls])
  | [g0], _, g, hg => absurd hg (by simp [pairSmalls])
  | g1 :: g2 :: rest, hne, g, hg => by
    have hg2 : g ∈ (⟨g1.name ++ "+" ++ g2.name, g1.items ++ g2.items,
        mergeStrategies g1.strategy g2.strategy⟩ : Group) :: (pairSmalls rest).1 := hg
    rcases List.mem_cons.mp hg2 with h | h
    · subst h
      show 2 ≤ (g1.items ++ g2.items).length
      rw [List.length_append]
      have h1 : g1.items.length ≠ 0 := by
        intro hc
        exact hne g1 (by simp) (List.length_eq_zero.mp hc)
      have h2 : g2.items.length ≠ 0 := by
        intro hc
        exact hne g2 (by simp) (List.length_eq_zero.mp hc)
      omega
    · exact pairSmalls_fst_len rest (fun g3 hg3 => hne g3 (by simp [hg3])) g h

/-- The small-bucket merge pass permutes the grouped images. -/
theorem mergeSmallGroups_flatten (gs : List Group) :
    ((mergeSmallGroups gs).flatMap Group.items).Perm (gs.flatMap Group.items) := by
  unfold mergeSmallGroups
  dsimp only
  have hfe : (fun g : Group => decide ¬ g.items.length < 5) =
      (fun g : Group => ! decide (g.items.length < 5)) :=
    funext (fun g => decide_not)
  have hgs : ((gs.filter (fun g => decide ¬ g.items.length < 5)) ++
      (gs.filter (fun g => decide (g.items.length < 5)))).Perm gs := by
    rw [hfe]
    exact List.perm_append_comm.trans
      (List.filter_append_perm (fun g : Group => decide (g.items.length < 5)) gs)
  have hflat : (((gs.filter (fun g => decide ¬ g.items.length < 5)) ++
      (gs.filter (fun g => decide (g.items.length < 5)))).flatMap Group.items).Perm
        (gs.flatMap Group.items) := List.Perm.flatMap_right Group.items hgs
  have hps := pairSmalls_flatten (gs.filter (fun g => decide (g.items.length < 5)))
  rcases pairSmalls_snd (gs.filter (fun g => decide (g.items.length < 5))) with h2 | ⟨g0, h2⟩
  · rw [h2]
    dsimp only
    rw [h2] at hps
    simp only [List.flatMap_nil, List.append_nil] at hps
    rw [List.flatMap_append, hps, ← List.flatMap_append]
    exact hflat
  · rw [h2]
    dsimp only
    rw [h2] at hps
    simp only [List.flatMap_cons, List.flatMap_nil, List.append_nil] at hps
    rcases hmg : (gs.filter (fun g => decide ¬ g.items.length < 5)) ++
        (pairSmalls (gs.filter (fun g => decide (g.items.length < 5)))).1 with _ | ⟨m0, rest⟩
    · dsimp only
      obtain ⟨hbg, hp1⟩ := List.append_eq_nil.mp hmg
      rw [hp1] at hps
      simp only [List.flatMap_nil, List.nil_append] at hps
      rw [hbg] at hflat
      simp only [List.nil_append] at hflat
      show (g0.items ++ ([] : List Group).flatMap Group.items).Perm (gs.flatMap Group.items)
      rw [List.flatMap_nil, List.append_nil, hps]
      exact hflat
    · dsimp only
      rw [List.flatMap_cons ..]
      dsimp only
      have hmr : (m0.items ++ rest.flatMap Group.items) ++ g0.items =
          ((gs.filter (fun g => decide ¬ g.items.length < 5)).flatMap Group.items ++
            (pairSmalls (gs.filter (fun g => decide (g.items.length < 5)))).1.flatMap
              Group.items) ++ g0.items := by
        rw [← List.flatMap_append, hmg, List.flatMap_cons ..]
      have hstep : ((m0.items ++ g0.items) ++ rest.flatMap Group.items).Perm
          ((m0.items ++ rest.flatMap Group.items) ++ g0.items) := by
        rw [List.append_assoc, List.append_assoc]
        exact List.Perm.append_left m0.items List.perm_append_comm
      refine hstep.trans ?_
      rw [hmr, List.append_assoc, hps, ← List.flatMap_append]
      exact hflat

/-- The inner area-splitting loop partitions its input. -/
theorem splitByAreaGo_flatten (maxArea : ℚ) : ∀ (items cur : List Img) (ca : ℚ),
    (splitByAreaGo maxArea items cur ca).flatMap Group.items = cur ++ items
  | [], cur, ca => by
    unfold splitByAreaGo
    by_cases hc : cur.isEmpty = true
    · rw [if_pos hc]
      rw [List.isEmpty_iff.mp hc]
      rfl
    · rw [if_neg hc]
      simp
  | item :: rest, cur, ca => by
    unfold splitByAreaGo
    dsimp only
    split
    · rw [List.flatMap_cons ..]
      dsimp only
      rw [splitByAreaGo_flatten maxArea rest [item] (item.width * item.height)]
      rfl
    · rw [splitByAreaGo_flatten maxArea rest (cur ++ [item]) (ca + item.width * item.height)]
      simp

/-- The per-group chunking loop partitions its input. -/
theorem limitChunks_flatten (nm strat : String) : ∀ (l : List Img),
    (limitChunks nm strat l).flatMap Group.items = l
  | [] => by rw [limitChunks]; rfl
  | item :: rest0 => by
    rw [limitChunks]
    rw [List.flatMap_append]
    rw [limitChunks_flatten nm strat ((item :: rest0).drop MAX_IMAGES_PER_GROUP)]
    by_cases hA : totalImgArea ((item :: rest0).take MAX_IMAGES_PER_GROUP) > MAX_AREA_PER_GROUP
    · rw [if_pos hA]
      unfold splitByArea
      rw [splitByAreaGo_flatten]
      simp [List.take_append_drop]
    · rw [if_neg hA]
      simp [List.take_append_drop]
termination_by l => l.length
decreasing_by
  simp only [MAX_IMAGES_PER_GROUP, List.length_drop, List.length_cons]
  omega

/-- The cap-enforcement pass partitions the grouped images. -/
theorem limitGroupSize_flatten : ∀ (gs : List Group),
    (limitGroupSize gs).flatMap Group.items = gs.flatMap Group.items
  | [] => rfl
  | g :: rest => by
    show ((limitChunks g.name g.strategy g.items ++ limitGroupSize rest).flatMap Group.items) = _
    rw [List.flatMap_append, limitChunks_flatten, limitGroupSize_flatten rest,
      List.flatMap_cons ..]

/-- Full grouping pipeline conservation: the output groups partition the
input images (up to order). -/
theorem groupImages_perm (images : List Img) :
    ((groupImages images).flatMap Group.items).Perm images := by
  unfold groupImages
  by_cases h0 : images.length = 0
  · rw [if_pos h0]
    rw [List.length_eq_zero.mp h0]
    exact List.Perm.refl _
  · rw [if_neg h0]
    rw [limitGroupSize_flatten]
    exact ((mergeSmallGroups_flatten _).trans (refineGroups_flatten _)).trans
      (groupBySize_flatten images)

/-- After the merge pass, at most one group (a lone leftover bucket) can have
fewer than two items, provided the incoming buckets are non-empty. -/
theorem mergeSmallGroups_min2 (gs : List Group) (hne : ∀ g ∈ gs, g.items ≠ []) :
    ((mergeSmallGroups gs).filter (fun g => decide (g.items.length < 2))).length ≤ 1 := by
  unfold mergeSmallGroups
  dsimp only
  have hbig : ∀ g ∈ gs.filter (fun g => decide ¬ g.items.length < 5), 2 ≤ g.items.length := by
    intro g hg
    have h := of_decide_eq_true (List.mem_filter.mp hg).2
    omega
  have hpair : ∀ g ∈ (pairSmalls (gs.filter (fun g => decide (g.items.length < 5)))).1,
      2 ≤ g.items.length := by
    refine pairSmalls_fst_len _ ?_
    intro g hg
    exact hne g (List.mem_filter.mp hg).1
  have hmerged : ∀ g ∈ (gs.filter (fun g => decide ¬ g.items.length < 5)) ++
      (pairSmalls (gs.filter (fun g => decide (g.items.length < 5)))).1, 2 ≤ g.items.length := by
    intro g hg
    rcases List.mem_append.mp hg with h | h
    · exact hbig g h
    · exact hpair g h
  rcases pairSmalls_snd (gs.filter (fun g => decide (g.items.length < 5))) with h2 | ⟨g0, h2⟩
  · rw [h2]
    dsimp only
    rw [List.filter_eq_nil_iff.mpr ?_]
    · simp
    · intro g hg
      simp only [decide_eq_true_eq]
      have := hmerged g hg
      omega
  · rw [h2]
    dsimp only
    rcases hmg : (gs.filter (fun g => decide ¬ g.items.length < 5)) ++
        (pairSmalls (gs.filter (fun g => decide (g.items.length < 5)))).1 with _ | ⟨m0, rest⟩
    · dsimp only
      exact le_trans (List.length_filter_le _ _) (by simp)
    · dsimp only
      rw [List.filter_eq_nil_iff.mpr ?_]
      · simp
      · intro g hg
        simp only [decide_eq_true_eq]
        rcases List.mem_cons.mp hg with h | h
        · subst h
          show ¬ (m0.items ++ g0.items).length < 2
          rw [List.length_append]
          have hm0 : 2 ≤ m0.items.length := hmerged m0 (by rw [hmg]; simp)
          omega
        · have := hmerged g (by rw [hmg]; simp [h])
          omega

/-! ### Further support lemmas -/

theorem mem_insertLe {α : Type} (le : α → α → Bool) (x y : α) :
    ∀ (l : List α), y ∈ insertLe le x l ↔ y = x ∨ y ∈ l
  | [] => by simp [insertLe]
  | z :: zs => by
    unfold insertLe
    by_cases h : le z x
    · rw [if_pos h]
      rw [List.mem_cons, mem_insertLe le x y zs, List.mem_cons]
      tauto
    · rw [if_neg h]
      simp only [List.mem_cons]

theorem mem_sortStable {α : Type} (le : α → α → Bool) (l : List α) (y : α)
    (h : y ∈ sortStable le l) : y ∈ l := by
  unfold sortStable at h
  suffices H : ∀ (l : List α) (acc : List α),
      y ∈ l.foldl (fun acc x => insertLe le x acc) acc → y ∈ acc ∨ y ∈ l by
    rcases H l [] h with h1 | h1
    · exact absurd h1 (by simp)
    · exact h1
  intro l2
  induction l2 with
  | nil => intro acc h2; exact Or.inl h2
  | cons z zs ih =>
    intro acc h2
    rw [List.foldl_cons] at h2
    rcases ih (insertLe le z acc) h2 with h3 | h3
    · rcases (mem_insertLe le z y acc).mp h3 with h4 | h4
      · exact Or.inr (by rw [h4]; exact List.mem_cons_self _ _)
      · exact Or.inl h4
    · exact Or.inr (List.mem_cons_of_mem _ h3)

/-- `nextPowerOf2` never shrinks its argument. -/
theorem le_nextPowerOf2 (n : ℚ) : n ≤ nextPowerOf2 n := by
  unfold nextPowerOf2
  have hmax1 : (1 : ℤ) ≤ max 1 ⌈n⌉ := le_max_left 1 ⌈n⌉
  have h1 : (((max 1 ⌈n⌉).toNat : ℕ) : ℚ) ≤ (2 : ℚ) ^ Nat.clog 2 (max 1 ⌈n⌉).toNat := by
    have h := Nat.le_pow_clog (by norm_num : 1 < 2) (max 1 ⌈n⌉).toNat
    exact_mod_cast h
  have h2 : n ≤ (((max 1 ⌈n⌉).toNat : ℕ) : ℚ) := by
    have hceil : n ≤ (⌈n⌉ : ℚ) := Int.le_ceil n
    have hle : ((⌈n⌉ : ℤ) : ℚ) ≤ ((max 1 ⌈n⌉ : ℤ) : ℚ) := by
      exact_mod_cast le_max_right 1 ⌈n⌉
    have heq : (((max 1 ⌈n⌉).toNat : ℕ) : ℚ) = ((max 1 ⌈n⌉ : ℤ) : ℚ) := by
      rw [← Int.cast_natCast, Int.toNat_of_nonneg (by omega)]
    linarith
  linarith

/-- Power-of-two post-processing preserves the frames and only enlarges the
bounding dimensions, so frame containment survives it for any core packer
whose raw layouts contain their frames. -/
theorem evalPair_contain (corePack : List Img → ℚ → ℚ → Option Layout)
    (images : List Img) (p : ℚ) (u : Bool) (w : ℚ) (strat : Img → Img → Bool)
    (hcore : ∀ L, corePack (sortStable strat images) p w = some L → ∀ f ∈ L.frames,
      0 ≤ f.x ∧ 0 ≤ f.y ∧ f.x + f.width ≤ L.width ∧ f.y + f.height ≤ L.height)
    (M : Layout) (he : evalPair corePack images p u w strat = some M) :
    ∀ f ∈ M.frames, 0 ≤ f.x ∧ 0 ≤ f.y ∧ f.x + f.width ≤ M.width ∧ f.y + f.height ≤ M.height := by
  unfold evalPair at he
  rcases hc : corePack (sortStable strat images) p w with _ | R <;>
      rw [hc] at he <;> dsimp only at he
  · exact absurd he (by simp)
  · have hcont := hcore R hc
    split at he
    · split at he
      · exact absurd he (by simp)
      · rw [Option.some_inj] at he
        subst he
        intro f hf
        obtain ⟨h1, h2, h3, h4⟩ := hcont f hf
        refine ⟨h1, h2, ?_, ?_⟩
        · show f.x + f.width ≤ nextPowerOf2 R.width
          linarith [le_nextPowerOf2 R.width]
        · show f.y + f.height ≤ nextPowerOf2 R.height
          linarith [le_nextPowerOf2 R.height]
    · rw [Option.some_inj] at he
      subst he
      exact hcont

/-- The capped 50-element push equals keeping the 50 most recent entries, as
long as the buffer respected the cap before the push. -/
theorem cap_eq_lastN {α : Type} (l : List α) (h : l.length ≤ 51) :
    (if l.length > 50 then l.tail else l) = lastN 50 l := by
  by_cases hl : l.length > 50
  · rw [if_pos hl]
    unfold lastN
    have he : l.length - 50 = 1 := by omega
    rw [he]
    exact (List.drop_one l).symm
  · rw [if_neg hl]
    unfold lastN
    have he : l.length - 50 = 0 := by omega
    rw [he]
    exact (List.drop_zero l).symm

/-- The per-algorithm statistics update of `recordResult`. -/
theorem updateStats_spec (stat : AlgStats) (success : Bool) (efficiency : ℚ)
    (hlen : stat.efficiencies.length ≤ 50) :
    (updateStats stat success efficiency).usage = stat.usage + 1 ∧
    (updateStats stat success efficiency).efficiencies =
      (if success = true ∧ efficiency > 0 then lastN 50 (stat.efficiencies ++ [efficiency])
       else stat.efficiencies) ∧
    (updateStats stat success efficiency).avgEfficiency =
      (if success = true ∧ efficiency > 0 then
        listSumQ ((updateStats stat success efficiency).efficiencies) /
          (((updateStats stat success efficiency).efficiencies.length : ℕ) : ℚ)
       else stat.avgEfficiency) ∧
    (updateStats stat success efficiency).successRate =
      (stat.successRate * (((stat.usage + 1 : ℕ) : ℚ) - 1) + (if success = true then 1 else 0)) /
        ((stat.usage + 1 : ℕ) : ℚ) := by
  have hcap := cap_eq_lastN (stat.efficiencies ++ [efficiency])
    (by rw [List.length_append]; simp; omega)
  unfold updateStats
  dsimp only
  by_cases hc : success = true ∧ efficiency > 0
  · rw [if_pos hc, if_pos hc, if_pos hc]
    obtain ⟨hs, -⟩ := hc
    dsimp only
    rw [hs]
    refine ⟨rfl, hcap, ?_, ?_⟩
    · rw [hcap]
    · rw [if_pos rfl, if_pos rfl]
  · rw [if_neg hc, if_neg hc, if_neg hc]
    dsimp only
    refine ⟨rfl, rfl, rfl, ?_⟩
    rcases hs : success with _ | _
    · rw [if_neg (by simp), if_neg (by simp)]
      rw [add_zero]
    · rw [if_pos rfl, if_pos rfl]

/-! ### Claim theorems -/

/-- C1: for every Layout returned by either packer (one MaxRectangles run or
one Shelf run) on items with positive dimensions and nonnegative padding, the
padded bounding boxes `[x, x+w+padding) × [y, y+h+padding)` of any two
distinct placed items do not intersect. -/
theorem C1_no_overlap (images : List Img) (p mW : ℚ) (hp : 0 ≤ p)
    (hdim : ∀ i ∈ images, 0 < i.width ∧ 0 < i.height) (L : Layout)
    (he : maxRectanglesPack images p mW = some L ∨ packImagesInternal images p mW = some L) :
    L.frames.Pairwise (fun f g => ¬ overlapPadded p f g) := by
  have hfd : framesDisjoint p L.frames := by
    rcases he with he | he
    · exact (maxRectanglesPack_spec images p mW hp
        (fun i hi => ⟨(hdim i hi).1.le, (hdim i hi).2.le⟩) L he).1
    · exact (packImagesInternal_spec images p mW hp hdim L he).1
  exact hfd.imp not_overlapPadded_of_disjointR

theorem C1_witness : (Layout.mk [] 0 0).frames.Pairwise
    (fun f g => ¬ overlapPadded 0 f g) :=
  C1_no_overlap [] 0 0 (le_refl 0) (fun i hi => absurd hi (by simp)) ⟨[], 0, 0⟩
    (Or.inl rfl)

/-- C2: a single packing attempt of either packer returns exactly one placed
frame per input item, in input order (same names, none dropped, none
duplicated), or fails atomically with `none`. -/
theorem C2_completeness (images : List Img) (p mW : ℚ) (hp : 0 ≤ p)
    (hdim : ∀ i ∈ images, 0 < i.width ∧ 0 < i.height) :
    (∀ L, maxRectanglesPack images p mW = some L →
      L.frames.map Frame.name = images.map Img.name) ∧
    (∀ L, packImagesInternal images p mW = some L →
      L.frames.map Frame.name = images.map Img.name) := by
  constructor
  · intro L he
    exact (maxRectanglesPack_spec images p mW hp
      (fun i hi => ⟨(hdim i hi).1.le, (hdim i hi).2.le⟩) L he).2.2.1
  · intro L he
    exact (packImagesInternal_spec images p mW hp hdim L he).2.1

theorem C2_witness : (Layout.mk [] 0 0).frames.map Frame.name =
    ([] : List Img).map Img.name :=
  (C2_completeness [] 0 0 (le_refl 0) (fun i hi => absurd hi (by simp))).1
    ⟨[], 0, 0⟩ rfl

/-- C3: every frame of a Layout returned by either packer satisfies
`0 ≤ x`, `0 ≤ y`, `x + width ≤ layout.width` and `y + height ≤ layout.height`,
and the power-of-two post-processing (which only enlarges the bounding
dimensions) preserves this containment for both packers. -/
theorem C3_containment (images : List Img) (p mW : ℚ) (hp : 0 ≤ p)
    (hdim : ∀ i ∈ images, 0 < i.width ∧ 0 < i.height) :
    (∀ L, maxRectanglesPack images p mW = some L → ∀ f ∈ L.frames,
      0 ≤ f.x ∧ 0 ≤ f.y ∧ f.x + f.width ≤ L.width ∧ f.y + f.height ≤ L.height) ∧
    (∀ L, packImagesInternal images p mW = some L → ∀ f ∈ L.frames,
      0 ≤ f.x ∧ 0 ≤ f.y ∧ f.x + f.width ≤ L.width ∧ f.y + f.height ≤ L.height) ∧
    (∀ (u : Bool) (w : ℚ) (strat : Img → Img → Bool) (M : Layout),
      evalPair maxRectanglesPack images p u w strat = some M → ∀ f ∈ M.frames,
      0 ≤ f.x ∧ 0 ≤ f.y ∧ f.x + f.width ≤ M.width ∧ f.y + f.height ≤ M.height) ∧
    (∀ (u : Bool) (w : ℚ) (strat : Img → Img → Bool) (M : Layout),
      evalPair packImagesInternal images p u w strat = some M → ∀ f ∈ M.frames,
      0 ≤ f.x ∧ 0 ≤ f.y ∧ f.x + f.width ≤ M.width ∧ f.y + f.height ≤ M.height) := by
  have hMR : ∀ (w2 : ℚ) (strat : Img → Img → Bool) (L : Layout),
      maxRectanglesPack (sortStable strat images) p w2 = some L → ∀ f ∈ L.frames,
      0 ≤ f.x ∧ 0 ≤ f.y ∧ f.x + f.width ≤ L.width ∧ f.y + f.height ≤ L.height := by
    intro w2 strat L he f hf
    obtain ⟨-, hcont, -, -, -⟩ := maxRectanglesPack_spec (sortStable strat images) p w2 hp
      (fun i hi => ⟨(hdim i (mem_sortStable strat images i hi)).1.le,
        (hdim i (mem_sortStable strat images i hi)).2.le⟩) L he
    obtain ⟨h1, h2, h3, h4⟩ := hcont f hf
    exact ⟨h1, h2, by linarith, by linarith⟩
  have hSH : ∀ (w2 : ℚ) (strat : Img → Img → Bool) (L : Layout),
      packImagesInternal (sortStable strat images) p w2 = some L → ∀ f ∈ L.frames,
      0 ≤ f.x ∧ 0 ≤ f.y ∧ f.x + f.width ≤ L.width ∧ f.y + f.height ≤ L.height := by
    intro w2 strat L he
    exact (packImagesInternal_spec (sortStable strat images) p w2 hp
      (fun i hi => hdim i (mem_sortStable strat images i hi)) L he).2.2
  refine ⟨?_, ?_, ?_, ?_⟩
  · intro L he f hf
    obtain ⟨-, hcont, -, -, -⟩ := maxRectanglesPack_spec images p mW hp
      (fun i hi => ⟨(hdim i hi).1.le, (hdim i hi).2.le⟩) L he
    obtain ⟨h1, h2, h3, h4⟩ := hcont f hf
    exact ⟨h1, h2, by linarith, by linarith⟩
  · intro L he
    exact (packImagesInternal_spec images p mW hp hdim L he).2.2
  · intro u w strat M he
    exact evalPair_contain maxRectanglesPack images p u w strat (hMR w strat) M he
  · intro u w strat M he
    exact evalPair_contain packImagesInternal images p u w strat (hSH w strat) M he

theorem C3_witness : (0 : ℚ) ≤ 0 ∧ ∀ f ∈ (Layout.mk [] 0 0).frames,
    0 ≤ f.x ∧ 0 ≤ f.y ∧ f.x + f.width ≤ (Layout.mk [] 0 0).width ∧
      f.y + f.height ≤ (Layout.mk [] 0 0).height :=
  ⟨le_refl 0,
    (C3_containment [] 0 0 (le_refl 0) (fun i hi => absurd hi (by simp))).1 ⟨[], 0, 0⟩ rfl⟩

/-- C4: each MaxRectangles placement step places the item at the origin of the
best-short-side-fit free rectangle (fit requires `rect.width ≥ item.width +
padding` and `rect.height ≥ item.height + padding`; the chosen rectangle
minimises the short leftover side, ties broken by the long leftover side); the
rotated search runs only when the unrotated one fails (zero-height best node),
and the whole attempt fails with `none` when neither orientation fits. -/
theorem C4_bssf_step (p : ℚ) (item : Img) (rest : List Img)
    (freeRects : List Rect) (frames : List Frame) :
    ((findPositionForNewNodeBestShortSideFit freeRects (item.width + p) (item.height + p) =
        ⟨0, 0, 0, 0⟩ ∧
      ∀ r ∈ freeRects, ¬ fitsRect r (item.width + p) (item.height + p)) ∨
     (∃ r ∈ freeRects, fitsRect r (item.width + p) (item.height + p) ∧
        findPositionForNewNodeBestShortSideFit freeRects (item.width + p) (item.height + p) =
          ⟨r.x, r.y, item.width + p, item.height + p⟩ ∧
        ∀ r2 ∈ freeRects, fitsRect r2 (item.width + p) (item.height + p) →
          lexLe (bssfScore r (item.width + p) (item.height + p))
            (bssfScore r2 (item.width + p) (item.height + p)))) ∧
    ((findPositionForNewNodeBestShortSideFit freeRects (item.width + p)
        (item.height + p)).height ≠ 0 →
      maxRectanglesPlace p (item :: rest) freeRects frames =
        maxRectanglesPlace p rest
          (splitFreeRectangles freeRects
            ⟨(findPositionForNewNodeBestShortSideFit freeRects (item.width + p)
                (item.height + p)).x,
             (findPositionForNewNodeBestShortSideFit freeRects (item.width + p)
                (item.height + p)).y,
             item.width + p, item.height + p⟩)
          (frames ++ [⟨item.name,
            (findPositionForNewNodeBestShortSideFit freeRects (item.width + p)
              (item.height + p)).x,
            (findPositionForNewNodeBestShortSideFit freeRects (item.width + p)
              (item.height + p)).y,
            item.width, item.height, item.width, item.height, 0, 0, false⟩])) ∧
    ((findPositionForNewNodeBestShortSideFit freeRects (item.width + p)
        (item.height + p)).height = 0 →
      (findPositionForNewNodeBestShortSideFit freeRects (item.height + p)
        (item.width + p)).height ≠ 0 →
      maxRectanglesPlace p (item :: rest) freeRects frames =
        maxRectanglesPlace p rest
          (splitFreeRectangles freeRects
            ⟨(findPositionForNewNodeBestShortSideFit freeRects (item.height + p)
                (item.width + p)).x,
             (findPositionForNewNodeBestShortSideFit freeRects (item.height + p)
                (item.width + p)).y,
             item.height + p, item.width + p⟩)
          (frames ++ [⟨item.name,
            (findPositionForNewNodeBestShortSideFit freeRects (item.height + p)
              (item.width + p)).x,
            (findPositionForNewNodeBestShortSideFit freeRects (item.height + p)
              (item.width + p)).y,
            item.height, item.width, item.width, item.height, 0, 0, true⟩])) ∧
    ((findPositionForNewNodeBestShortSideFit freeRects (item.width + p)
        (item.height + p)).height = 0 →
      (findPositionForNewNodeBestShortSideFit freeRects (item.height + p)
        (item.width + p)).height = 0 →
      maxRectanglesPlace p (item :: rest) freeRects frames = none) := by
  refine ⟨findPosition_spec freeRects (item.width + p) (item.height + p), ?_, ?_, ?_⟩
  · intro h
    rw [maxRectanglesPlace]
    rw [if_neg h]
  · intro h1 h2
    rw [maxRectanglesPlace]
    rw [if_pos h1, if_neg h2]
  · intro h1 h2
    rw [maxRectanglesPlace]
    rw [if_pos h1, if_pos h2]

theorem C4_witness : maxRectanglesPlace 0 [⟨"a", 1, 1⟩] [] [] = none :=
  (C4_bssf_step 0 ⟨"a", 1, 1⟩ [] [] []).2.2.2 rfl rfl

/-- C5: both grid-search orchestrators return the successful grid candidate of
maximal efficiency (`totalItemArea / boundingArea`), ties broken by smaller
bounding area, and fail exactly when every `(width, sort-order)` pair fails. -/
theorem C5_grid_search (images : List Img) (p mW : ℚ) (hp : 0 ≤ p)
    (hdim : ∀ i ∈ images, 0 ≤ i.width ∧ 0 ≤ i.height) (u : Bool) :
    ((packImagesWithMaxRectangles images p mW u = none ↔
        ∀ w ∈ mrWidthOptions images (min mW 2048) u, ∀ s ∈ mrSortStrategies,
          evalPair maxRectanglesPack images p u w s = none) ∧
      (∀ L, packImagesWithMaxRectangles images p mW u = some L →
        (∃ w ∈ mrWidthOptions images (min mW 2048) u, ∃ s ∈ mrSortStrategies,
          evalPair maxRectanglesPack images p u w s = some L) ∧
        ∀ M : Layout, ∀ w ∈ mrWidthOptions images (min mW 2048) u,
          ∀ s ∈ mrSortStrategies, evalPair maxRectanglesPack images p u w s = some M →
          effOf images M ≤ effOf images L ∧
          (effOf images M = effOf images L → areaOf L ≤ areaOf M))) ∧
    ((packImages images p mW u = none ↔
        ∀ w ∈ shelfWidthOptions images (min mW 2048) u, ∀ s ∈ shelfSortStrategies,
          evalPair packImagesInternal images p u w s = none) ∧
      (∀ L, packImages images p mW u = some L →
        (∃ w ∈ shelfWidthOptions images (min mW 2048) u, ∃ s ∈ shelfSortStrategies,
          evalPair packImagesInternal images p u w s = some L) ∧
        ∀ M : Layout, ∀ w ∈ shelfWidthOptions images (min mW 2048) u,
          ∀ s ∈ shelfSortStrategies, evalPair packImagesInternal images p u w s = some M →
          effOf images M ≤ effOf images L ∧
          (effOf images M = effOf images L → areaOf L ≤ areaOf M))) := by
  have hA := totalImgArea_nonneg images hdim
  have hnn1 : ∀ L : Layout, some L ∈ gridCandidates maxRectanglesPack images p u
      (mrWidthOptions images (min mW 2048) u) mrSortStrategies → 0 ≤ effOf images L := by
    intro L hL
    obtain ⟨w, hw, s, hs, he⟩ := (mem_gridCandidates _ _ _ _ _ _ _).mp hL
    obtain ⟨h1, h2⟩ := evalPair_dims maxRectanglesPack images p u w s
      (fun imgs mw L2 he2 => maxRectanglesPack_dims imgs p mw hp L2 he2) L he
    exact effOf_nonneg images L hA h1 h2
  have hnn2 : ∀ L : Layout, some L ∈ gridCandidates packImagesInternal images p u
      (shelfWidthOptions images (min mW 2048) u) shelfSortStrategies → 0 ≤ effOf images L := by
    intro L hL
    obtain ⟨w, hw, s, hs, he⟩ := (mem_gridCandidates _ _ _ _ _ _ _).mp hL
    obtain ⟨h1, h2⟩ := evalPair_dims packImagesInternal images p u w s
      (fun imgs mw L2 he2 => packImagesInternal_dims imgs p mw hp L2 he2) L he
    exact effOf_nonneg images L hA h1 h2
  obtain ⟨hn1, hs1⟩ := selectBest_spec maxRectanglesPack images p u
    (mrWidthOptions images (min mW 2048) u) mrSortStrategies hnn1
  obtain ⟨hn2, hs2⟩ := selectBest_spec packImagesInternal images p u
    (shelfWidthOptions images (min mW 2048) u) shelfSortStrategies hnn2
  exact ⟨⟨hn1, fun L hL => hs1 L hL⟩, ⟨hn2, fun L hL => hs2 L hL⟩⟩

theorem C5_witness : packImagesWithMaxRectangles [] 0 0 false = none ↔
    ∀ w ∈ mrWidthOptions [] (min 0 2048) false, ∀ s ∈ mrSortStrategies,
      evalPair maxRectanglesPack [] 0 false w s = none :=
  (C5_grid_search [] 0 0 (le_refl 0) (fun i hi => absurd hi (by simp)) false).1.1

/-- C6: a `(shelf, orientation)` candidate of the existing-shelf scan is
eligible only if the placed width fits the remaining width and the placed
height fits the shelf height; eligible candidates are scored with the
composite `-2·waste - 0.1·leftover + 10·utilization + 0.05·shelfY` formula
and the globally best-scoring candidate over all shelves and both
orientations is chosen. -/
theorem C6_shelf_scoring (p mW : ℚ) (shelves : List Shelf) (item : Img) :
    (findBestShelf p mW shelves item = none →
      ∀ s ∈ shelves, ¬ eligUnrot p mW s item ∧ ¬ eligRot p mW s item) ∧
    (∀ idx rot sc wa, findBestShelf p mW shelves item = some (idx, rot, sc, wa) →
      (∃ shelf, shelves.get? idx = some shelf ∧
        ((rot = false ∧ eligUnrot p mW shelf item ∧
            sc = shelfScore p mW shelf item.width item.height) ∨
         (rot = true ∧ eligRot p mW shelf item ∧
            sc = shelfScore p mW shelf item.height item.width))) ∧
      (∀ s ∈ shelves,
        (eligUnrot p mW s item → shelfScore p mW s item.width item.height ≤ sc) ∧
        (eligRot p mW s item → shelfScore p mW s item.height item.width ≤ sc))) ∧
    (∀ (shelf : Shelf) (pw ph : ℚ), shelfScore p mW shelf pw ph =
      -2 * (shelf.height - ph) - (1 / 10) * ((mW - shelf.currentX - p) - pw) +
        10 * (shelf.currentX * shelf.height / (mW * shelf.height)) + (1 / 20) * shelf.y) := by
  refine ⟨findBestShelf_none p mW shelves item,
    fun idx rot sc wa h => findBestShelf_some p mW shelves item idx rot sc wa h, ?_⟩
  intro shelf pw ph
  unfold shelfScore
  ring

theorem C6_witness : findBestShelf 0 0 [] ⟨"a", 1, 1⟩ = none ∧ ∀ s ∈ ([] : List Shelf),
    ¬ eligUnrot 0 0 s ⟨"a", 1, 1⟩ ∧ ¬ eligRot 0 0 s ⟨"a", 1, 1⟩ :=
  ⟨rfl, (C6_shelf_scoring 0 0 [] ⟨"a", 1, 1⟩).1 rfl⟩

/-- C7: the retry machinery of the Shelf packer is dead code — a whole run is
observationally identical to its first sweep, because every non-failing path
of `processItem` places the item and every failing path aborts the attempt, so
`newImages` stays empty and the re-sorting retry passes never process
anything. -/
theorem C7_retry_dead (p mW : ℚ) (images : List Img) :
    packImagesInternal images p mW =
      match sweepImages p mW images ⟨[], [], [], false⟩ with
      | none => none
      | some st => some ⟨st.frames, (layoutBounds p st.frames).1,
          (layoutBounds p st.frames).2⟩ :=
  packImagesInternal_eq_sweep images p mW

/-- C8: the grouping pipeline partitions its input exactly: the concatenated
output groups are a permutation of the input images, the group sizes sum to
the input length, and the empty input yields the empty group list. -/
theorem C8_grouping (images : List Img) :
    ((groupImages images).flatMap Group.items).Perm images ∧
    ((groupImages images).map (fun g => g.items.length)).sum = images.length ∧
    groupImages [] = ([] : List Group) := by
  refine ⟨groupImages_perm images, ?_, rfl⟩
  have h := (groupImages_perm images).length_eq
  rw [List.length_flatMap] at h
  simpa using h

/-- C9 (amended): after the merge step all but at most one of the resulting
groups contains at least **two** items (the possible exception being a lone
leftover small bucket), provided the incoming buckets are non-empty; the
original five-item bound of the specification is refuted by
`C9_counterexample`. -/
theorem C9_merge_small (gs : List Group) (hne : ∀ g ∈ gs, g.items ≠ []) :
    ((mergeSmallGroups gs).filter (fun g => decide (g.items.length < 2))).length ≤ 1 :=
  mergeSmallGroups_min2 gs hne

theorem C9_witness :
    ((mergeSmallGroups [⟨"g", [⟨"a", 1, 1⟩], "area"⟩]).filter
      (fun g => decide (g.items.length < 2))).length ≤ 1 :=
  C9_merge_small [⟨"g", [⟨"a", 1, 1⟩], "area"⟩] (by simp)

/-- Four singleton buckets merge into two two-item groups, so more than one
post-merge group has fewer than five items. -/
theorem C9_counterexample :
    1 < ((mergeSmallGroups
      [⟨"g1", [⟨"a", 1, 2⟩], "area"⟩, ⟨"g2", [⟨"b", 1, 2⟩], "area"⟩,
       ⟨"g3", [⟨"c", 1, 2⟩], "area"⟩, ⟨"g4", [⟨"d", 1, 2⟩], "area"⟩]).filter
        (fun g => decide (g.items.length < 5))).length := by
  decide

/-- C10: `recordResult` on a known algorithm updates exactly that algorithm's
statistics — usage incremented, the efficiency pushed (on success with
positive efficiency) into the capped-50 buffer with its mean recomputed, the
running success rate updated to `(oldRate·(n-1) + (success ? 1 : 0)) / n` —
and appends one record to the capped-50 history buffer. -/
theorem C10_record_result (st : SelectorState) (success : Bool) (efficiency : ℚ) (ts : ℤ)
    (hhist : st.history.length ≤ 50) :
    (recordResult st "maxRectangles" success efficiency ts).maxRectangles =
        updateStats st.maxRectangles success efficiency ∧
    (recordResult st "maxRectangles" success efficiency ts).shelf = st.shelf ∧
    (recordResult st "maxRectangles" success efficiency ts).history =
        lastN 50 (st.history ++ [⟨"maxRectangles", success, efficiency, ts⟩]) ∧
    (recordResult st "shelf" success efficiency ts).shelf =
        updateStats st.shelf success efficiency ∧
    (recordResult st "shelf" success efficiency ts).maxRectangles = st.maxRectangles ∧
    (recordResult st "shelf" success efficiency ts).history =
        lastN 50 (st.history ++ [⟨"shelf", success, efficiency, ts⟩]) ∧
    (∀ stat : AlgStats, stat.efficiencies.length ≤ 50 →
      (updateStats stat success efficiency).usage = stat.usage + 1 ∧
      (updateStats stat success efficiency).efficiencies =
        (if success = true ∧ efficiency > 0 then lastN 50 (stat.efficiencies ++ [efficiency])
         else stat.efficiencies) ∧
      (updateStats stat success efficiency).avgEfficiency =
        (if success = true ∧ efficiency > 0 then
          listSumQ ((updateStats stat success efficiency).efficiencies) /
            (((updateStats stat success efficiency).efficiencies.length : ℕ) : ℚ)
         else stat.avgEfficiency) ∧
      (updateStats stat success efficiency).successRate =
        (stat.successRate * (((stat.usage + 1 : ℕ) : ℚ) - 1) +
          (if success = true then 1 else 0)) / ((stat.usage + 1 : ℕ) : ℚ)) := by
  have hcapM := cap_eq_lastN
    (st.history ++ [(⟨"maxRectangles", success, efficiency, ts⟩ : HistoryRecord)])
    (by rw [List.length_append]; simp; omega)
  have hcapS := cap_eq_lastN
    (st.history ++ [(⟨"shelf", success, efficiency, ts⟩ : HistoryRecord)])
    (by rw [List.length_append]; simp; omega)
  have hM : recordResult st "maxRectangles" success efficiency ts =
      recordHistory { st with maxRectangles := updateStats st.maxRectangles success efficiency }
        "maxRectangles" success efficiency ts := by
    unfold recordResult
    rw [if_pos rfl]
  have hS : recordResult st "shelf" success efficiency ts =
      recordHistory { st with shelf := updateStats st.shelf success efficiency }
        "shelf" success efficiency ts := by
    unfold recordResult
    rw [if_neg (by decide), if_pos rfl]
  rw [hM, hS]
  unfold recordHistory
  dsimp only
  exact ⟨rfl, rfl, hcapM, rfl, rfl, hcapS,
    fun stat hl => updateStats_spec stat success efficiency hl⟩

theorem C10_witness :
    (recordResult initialSelectorState "maxRectangles" false 0 0).maxRectangles =
      updateStats initialSelectorState.maxRectangles false 0 :=
  (C10_record_result initialSelectorState false 0 0 (by decide)).1

end SpriteAtlas